import Mathlib

/-!
Verification of the blog-engine pipeline in `main.go` of mbaykara/mbaykara.github.io.

The Go program is shallowly embedded: pure helpers (`CleanTitle`, slug
derivation) become Lean functions on `String`/`List Char`; the filesystem,
the front-matter parser (`github.com/adrg/frontmatter`), the Markdown
converter (`goldmark`) and the template engine (`html/template`) are external
collaborators and appear as explicit parameters (`FS`, `Env`); `time.Time`
values are modelled as `Nat` (nanoseconds since the zero time, so
`IsZero ↔ = 0` and `After ↔ >`); Go's `sort.Slice` is embedded as the
pattern-defeating quicksort from Go's `sort` package (`zsortfunc.go`),
executed on `List` values with explicit index arithmetic and fuel for the
imperative loops.
-/

/-- Time values: `time.Time` modelled as nanoseconds (`Nat`); the Go zero
time corresponds to `0`, `IsZero` to `= 0` and `After` to `>`. -/
abbrev GoTime := Nat

/-- Model of `PostFrontmatter` (main.go:24-27): frontmatter data of a
markdown file, `Title` with yaml key `title` and `Date` with key `date`. -/
structure PostFrontmatter where
  Title : String
  Date : GoTime
deriving DecidableEq, Repr, Inhabited

/-- Model of `PostData` (main.go:30-35): a blog post with title, date, slug
and HTML content (the `template.HTML` value produced by the converter). -/
structure PostData where
  Title : String
  Date : GoTime
  Slug : String
  Content : String
deriving DecidableEq, Repr, Inhabited

/-- Model of `TemplateData` (main.go:38-41): the data passed to a listing
template. -/
structure TemplateData where
  Title : String
  Posts : List PostData
deriving DecidableEq, Repr, Inhabited

/-- Go `error` values observable by this program: `os` filesystem errors
(of which only the not-exist kind is inspected, via `os.IsNotExist`), and
errors returned by the Markdown converter. -/
inductive GoError where
  | fsNotExist
  | fsPermission
  | fsOther (msg : String)
  | mdError (msg : String)
deriving DecidableEq, Repr

/-- Model of `os.IsNotExist` applied to a non-nil error. -/
def GoError.isNotExist : GoError → Bool
  | .fsNotExist => true
  | _ => false

/-- Result of `os.Stat`: the only field the program reads is `ModTime`. -/
structure FileInfo where
  modTime : GoTime
deriving DecidableEq, Repr, Inhabited

/-- The filesystem as seen by the program: `os.ReadFile`, `os.Stat`, and
`filepath.Glob` (the glob patterns used by the program are fixed well-formed
constants, so `filepath.Glob`'s `ErrBadPattern` failure is unreachable and
the model returns the match list directly). -/
structure FS where
  readFile : String → Except GoError String
  stat : String → Except GoError FileInfo
  glob : String → List String

/-- The external collaborators: the front-matter parser
(`frontmatter.Parse`, which on success returns the parsed metadata and the
remaining body), the Markdown converter (`goldmark` `markdown.Convert`), and
the template engine (`tmpl.Execute` for the base+post pair, for a base+page
pair named by its page template file, and for the base+about pair).
`template.Must(template.ParseFiles ...)` is assumed to succeed (its failure
is a process panic on missing template files, outside every claim). -/
structure Env where
  fmParse : String → Except String (PostFrontmatter × String)
  mdConvert : String → Except String String
  execPost : PostData → Except String String
  execPage : String → TemplateData → Except String String
  execAbout : String → Except String String

/-! ## String and path helpers (Go `strings` / `path/filepath`) -/

/-- Model of `strings.TrimSuffix`: drop `suffix` when `s` ends with it. -/
def trimSuffix (s suffix : String) : String :=
  if suffix.data.isSuffixOf s.data then
    ⟨s.data.take (s.data.length - suffix.data.length)⟩
  else s

/-- Scanning helper for `filepathExt`: walk the reversed character list of a
path, accumulating until the final dot; a path separator before any dot means
no extension. -/
def extScan : List Char → List Char → String
  | [], _ => ""
  | c :: rest, acc =>
    if c = '/' then ""
    else if c = '.' then ⟨'.' :: acc⟩
    else extScan rest (c :: acc)

/-- Model of `filepath.Ext`: the suffix of the final path element beginning
at its final dot, or empty. -/
def filepathExt (p : String) : String :=
  extScan p.data.reverse []

/-- Model of `filepath.Base` (on slash-separated paths): the last element of
the path after dropping trailing separators, with the Go conventions for the
empty and all-separator paths. -/
def filepathBase (p : String) : String :=
  if p = "" then "."
  else
    let r := p.data.reverse.dropWhile (fun c => c = '/')
    if r = [] then "/"
    else ⟨(r.takeWhile (fun c => c ≠ '/')).reverse⟩

/-- Model of `filepath.Join` for the clean, nonempty relative components the
program joins (Go's `Join` additionally runs `Clean`, a no-op on them). -/
def pathJoin (a b : String) : String := a ++ "/" ++ b

/-- Model of `strings.ReplaceAll` for a single-character pattern and
single-character replacement, the only shape the program uses. -/
def replaceAllChar (s : String) (old new : Char) : String :=
  ⟨s.data.map (fun c => if c = old then new else c)⟩

/-- Word-walking helper for `casesTitle`: the boolean records whether the
previous character was a letter (continuing a word). -/
def titleCaseScan : Bool → List Char → List Char
  | _, [] => []
  | inWord, c :: rest =>
    if c.isAlpha then
      (if inWord then c.toLower else c.toUpper) :: titleCaseScan true rest
    else c :: titleCaseScan false rest

/-- Model of `cases.Title(language.English).String` on ASCII input: the
first letter of each word is upper-cased and subsequent letters are
lower-cased, a word being a maximal run of letters. -/
def casesTitle (s : String) : String :=
  ⟨titleCaseScan false s.data⟩

/-- Model of `CleanTitle` (main.go:130-141): strip the extension, replace
`-` and `_` with spaces, and title-case each word. -/
def CleanTitle (filename : String) : String :=
  let title := trimSuffix filename (filepathExt filename)
  let title := replaceAllChar title '-' ' '
  let title := replaceAllChar title '_' ' '
  casesTitle title

/-! ## Post loading -/

/-- Model of `LoadPostFromFile` (main.go:44-101): read the file, parse the
front matter (falling back to the unchanged bytes and an empty structure on
parse failure), stat the file for the fallback date, derive slug and title
from the filename, and convert the body to HTML. -/
def LoadPostFromFile (env : Env) (fs : FS) (filePath : String) :
    Except GoError PostData :=
  match fs.readFile filePath with
  | .error e => .error e
  | .ok mdBytes =>
    let parsed :=
      match env.fmParse mdBytes with
      | .error _ => ((⟨"", 0⟩ : PostFrontmatter), mdBytes)
      | .ok r => r
    let fm := parsed.1
    let remainingMd := parsed.2
    match fs.stat filePath with
    | .error e => .error e
    | .ok fileInfo =>
      let filename := filepathBase filePath
      let slug := trimSuffix filename (filepathExt filename)
      let title := if fm.Title = "" then CleanTitle filename else fm.Title
      let date := if fm.Date = 0 then fileInfo.modTime else fm.Date
      match env.mdConvert remainingMd with
      | .error e => .error (.mdError e)
      | .ok html => .ok ⟨title, date, slug, html⟩

/-- Outcome of a computation that may end in a Go panic (used by
`RenderMarkdown`, which panics when the converter fails). -/
inductive PanicOr (α : Type) where
  | panicked (msg : String)
  | value (a : α)
deriving DecidableEq, Repr

/-- Model of `RenderMarkdown` (main.go:104-129): read the file, strip front
matter (keeping the unchanged bytes on parse failure), convert; a read error
is returned, a conversion error panics. -/
def RenderMarkdown (env : Env) (fs : FS) (filePath : String) :
    PanicOr (Except GoError String) :=
  match fs.readFile filePath with
  | .error e => .value (.error e)
  | .ok mdBytes =>
    let remainingMd :=
      match env.fmParse mdBytes with
      | .error _ => mdBytes
      | .ok r => r.2
    match env.mdConvert remainingMd with
    | .error e => .panicked e
    | .ok html => .value (.ok html)

/-- Model of `LoadPost` (main.go:330-343): stat the post in `posts/` first;
only when that stat fails with a not-exist error, fall back to `thoughts/`;
when the fallback stat also fails with not-exist, return that error;
otherwise load whichever file was settled on. -/
def LoadPost (env : Env) (fs : FS) (slug : String) : Except GoError PostData :=
  let file := pathJoin "posts" (slug ++ ".md")
  match fs.stat file with
  | .error e =>
    if e.isNotExist then
      let file2 := pathJoin "thoughts" (slug ++ ".md")
      match fs.stat file2 with
      | .error e2 =>
        if e2.isNotExist then .error e2
        else LoadPostFromFile env fs file2
      | .ok _ => LoadPostFromFile env fs file2
    else LoadPostFromFile env fs file
  | .ok _ => LoadPostFromFile env fs file

/-! ## Handlers and the two drivers -/

/-- The observable outcome of a handler: the HTTP status it sets (200 when
it only writes a body, the `http.Error` code otherwise) and the bytes it
writes to the response writer.  `http.Error` writes its message followed by
a newline. -/
structure HttpResponse where
  status : Nat
  body : String
deriving DecidableEq, Repr

/-- Model of `http.Error` (status code plus message and trailing newline). -/
def httpError (code : Nat) (msg : String) : HttpResponse :=
  ⟨code, msg ++ "\n"⟩

/-- Model of `loadPostsFromDirectory`'s per-file loop (main.go:149-156):
load each globbed file in order, aborting with the first load error. -/
def loadAll (env : Env) (fs : FS) : List String → Except GoError (List PostData)
  | [] => .ok []
  | file :: rest =>
    match LoadPostFromFile env fs file with
    | .error e => .error e
    | .ok post =>
      match loadAll env fs rest with
      | .error e => .error e
      | .ok posts => .ok (post :: posts)

/-! The sort step of `loadPostsFromDirectory` (main.go:159-161) is Go's
`sort.Slice` with comparator `posts[i].Date.After(posts[j].Date)`; its
embedding `sortSlicePosts` is defined below with the rest of the
`sort`-package model, and `loadPostsFromDirectory` is assembled after it. -/

/-- The comparator passed to `sort.Slice` (main.go:160):
`posts[i].Date.After(posts[j].Date)`, i.e. strictly-greater on dates. -/
def goLess (p q : PostData) : Bool := decide (q.Date < p.Date)

/-! ## Go's `sort.Slice` (pdqsort, `sort/zsortfunc.go`)

`sort.Slice(x, less)` runs `pdqsort_func(lessSwap{less, swap}, 0, n,
bits.Len(uint(n)))`.  The slice is modelled as a `List`, reads as `getN`
(index out of range cannot occur in Go, where it would panic; the model
returns `default`), and `data.Swap` as `swapL`.  Loops are structural
recursions on a counter or on explicit fuel that is always sufficient. -/

/-- Indexed read of the slice (`data.Less` operands). -/
def getN [Inhabited α] (l : List α) (i : Nat) : α := l.getD i default

/-- Model of `data.Swap(i, j)`: exchange two in-range elements (an
out-of-range index would panic in Go and cannot occur; the model keeps the
slice unchanged there). -/
def swapL [Inhabited α] (l : List α) (i j : Nat) : List α :=
  if i < l.length ∧ j < l.length then
    (l.set i (getN l j)).set j (getN l i)
  else l

/-- Model of `bits.Len`: the number of bits required to represent `n`. -/
def bitsLen (n : Nat) : Nat := if n = 0 then 0 else Nat.log2 n + 1

/-- The `sortedHint` values of `sort.go`. -/
inductive SortHint where
  | unknown
  | increasing
  | decreasing
deriving DecidableEq, Repr

/-- Model of the inner loop of `insertionSort_func`: starting from `j`,
swap the element leftwards while `j > a` and it is less than its left
neighbour. -/
def insertLoop [Inhabited α] (less : α → α → Bool) (a : Nat) :
    Nat → List α → List α
  | 0, l => l
  | j + 1, l =>
    if a < j + 1 then
      if less (getN l (j + 1)) (getN l j) then
        insertLoop less a j (swapL l (j + 1) j)
      else l
    else l

/-- Model of the outer loop of `insertionSort_func`: `i` runs from `a+1` up
to `b`, inserting each element into the sorted prefix. -/
def insertionOuter [Inhabited α] (less : α → α → Bool) (a b : Nat) :
    Nat → Nat → List α → List α
  | 0, _, l => l
  | fuel + 1, i, l =>
    if i < b then insertionOuter less a b fuel (i + 1) (insertLoop less a i l)
    else l

/-- Model of `insertionSort_func(data, a, b)`. -/
def insertionSortGo [Inhabited α] (less : α → α → Bool) (a b : Nat)
    (l : List α) : List α :=
  insertionOuter less a b (b - a) (a + 1) l

/-- Model of `siftDown_func(data, lo, hi, first)` (fuel-structural on the
walk down the heap). -/
def siftDownGo [Inhabited α] (less : α → α → Bool) (first hi : Nat) :
    Nat → Nat → List α → List α
  | 0, _, l => l
  | fuel + 1, root, l =>
    let child := 2 * root + 1
    if child ≥ hi then l
    else
      let child :=
        if child + 1 < hi &&
            less (getN l (first + child)) (getN l (first + child + 1)) then
          child + 1
        else child
      if less (getN l (first + root)) (getN l (first + child)) then
        siftDownGo less first hi fuel child (swapL l (first + root) (first + child))
      else l

/-- Heap-building loop of `heapSort_func`: `siftDown` for roots
`(hi-1)/2, …, 0`; the counter is the root index plus one. -/
def heapBuildLoop [Inhabited α] (less : α → α → Bool) (first hi : Nat) :
    Nat → List α → List α
  | 0, l => l
  | c + 1, l => heapBuildLoop less first hi c (siftDownGo less first hi hi c l)

/-- Pop loop of `heapSort_func`: for `i = hi-1, …, 0` swap the maximum to
position `first+i` and re-sift; the counter is `i` plus one. -/
def heapPopLoop [Inhabited α] (less : α → α → Bool) (first : Nat) :
    Nat → List α → List α
  | 0, l => l
  | c + 1, l =>
    heapPopLoop less first c (siftDownGo less first c (c + 1) 0 (swapL l first (first + c)))

/-- Model of `heapSort_func(data, a, b)`. -/
def heapSortGo [Inhabited α] (less : α → α → Bool) (l : List α) (a b : Nat) :
    List α :=
  heapPopLoop less a (b - a) (heapBuildLoop less a (b - a) ((b - a - 1) / 2 + 1) l)

/-- Model of `order2_func`: order two indices by their elements, counting a
swap when they are exchanged. -/
def order2 [Inhabited α] (less : α → α → Bool) (l : List α) (i j swaps : Nat) :
    Nat × Nat × Nat :=
  if less (getN l j) (getN l i) then (j, i, swaps + 1) else (i, j, swaps)

/-- Model of `median_func`: index of the median element among three. -/
def medianGo [Inhabited α] (less : α → α → Bool) (l : List α)
    (a b c swaps : Nat) : Nat × Nat :=
  let r1 := order2 less l a b swaps
  let r2 := order2 less l r1.2.1 c r1.2.2
  let r3 := order2 less l r1.1 r2.1 r2.2.2
  (r3.2.1, r3.2.2)

/-- Model of `medianAdjacent_func`: median of `i-1, i, i+1`. -/
def medianAdjacent [Inhabited α] (less : α → α → Bool) (l : List α)
    (i swaps : Nat) : Nat × Nat :=
  medianGo less l (i - 1) i (i + 1) swaps

/-- Model of `choosePivot_func`: median (of medians for length at least 50)
of three positions, plus the sortedness hint derived from the swap count. -/
def choosePivot [Inhabited α] (less : α → α → Bool) (l : List α) (a b : Nat) :
    Nat × SortHint :=
  let len := b - a
  let i := a + len / 4 * 1
  let j := a + len / 4 * 2
  let k := a + len / 4 * 3
  if 8 ≤ len then
    let picked :=
      if 50 ≤ len then
        let r1 := medianAdjacent less l i 0
        let r2 := medianAdjacent less l j r1.2
        let r3 := medianAdjacent less l k r2.2
        (r1.1, r2.1, r3.1, r3.2)
      else (i, j, k, 0)
    let m := medianGo less l picked.1 picked.2.1 picked.2.2.1 picked.2.2.2
    if m.2 = 0 then (m.1, SortHint.increasing)
    else if m.2 = 12 then (m.1, SortHint.decreasing)
    else (m.1, SortHint.unknown)
  else (j, SortHint.increasing)

/-- Model of `reverseRange_func`'s loop. -/
def revLoop [Inhabited α] : Nat → Nat → Nat → List α → List α
  | 0, _, _, l => l
  | fuel + 1, i, j, l =>
    if i < j then revLoop fuel (i + 1) (j - 1) (swapL l i j) else l

/-- Model of `reverseRange_func(data, a, b)`. -/
def reverseRangeGo [Inhabited α] (l : List α) (a b : Nat) : List α :=
  revLoop (b - a) a (b - 1) l

/-- One xorshift step of the `sort.go` random generator (64-bit state). -/
def xorshiftStep (r : Nat) : Nat :=
  let r := (r ^^^ (r <<< 13)) % 2 ^ 64
  let r := (r ^^^ (r >>> 7)) % 2 ^ 64
  (r ^^^ (r <<< 17)) % 2 ^ 64

/-- Random index selection of `breakPatterns_func`: mask with the modulus
and wrap into the range length. -/
def breakPick (r len modulus : Nat) : Nat :=
  let other := r &&& (modulus - 1)
  if other ≥ len then other - len else other

/-- Model of `breakPatterns_func(data, a, b)`: swap three elements around
the midpoint with xorshift-chosen partners (lengths below 8 do nothing). -/
def breakPatternsGo [Inhabited α] (l : List α) (a b : Nat) : List α :=
  let len := b - a
  if 8 ≤ len then
    let modulus := 1 <<< bitsLen len
    let idx := a + len / 4 * 2 - 1
    let r1 := xorshiftStep len
    let l := swapL l (idx - 1) (a + breakPick r1 len modulus)
    let r2 := xorshiftStep r1
    let l := swapL l idx (a + breakPick r2 len modulus)
    let r3 := xorshiftStep r2
    swapL l (idx + 1) (a + breakPick r3 len modulus)
  else l

/-- Scan of `partialInsertionSort_func`: advance `i` past adjacent pairs
already in order. -/
def limScan [Inhabited α] (less : α → α → Bool) (b : Nat) :
    Nat → Nat → List α → Nat
  | 0, i, _ => i
  | fuel + 1, i, l =>
    if i < b then
      if less (getN l i) (getN l (i - 1)) then i
      else limScan less b fuel (i + 1) l
    else i

/-- Leftward shift loop of `partialInsertionSort_func` (runs while the
index stays at least 1 and the pair is out of order). -/
def limShiftLeft [Inhabited α] (less : α → α → Bool) :
    Nat → List α → List α
  | 0, l => l
  | j + 1, l =>
    if less (getN l (j + 1)) (getN l j) then
      limShiftLeft less j (swapL l (j + 1) j)
    else l

/-- Rightward shift loop of `partialInsertionSort_func`. -/
def limShiftRight [Inhabited α] (less : α → α → Bool) (b : Nat) :
    Nat → Nat → List α → List α
  | 0, _, l => l
  | fuel + 1, j, l =>
    if j < b then
      if less (getN l j) (getN l (j - 1)) then
        limShiftRight less b fuel (j + 1) (swapL l j (j - 1))
      else l
    else l

/-- Step loop of `partialInsertionSort_func(data, a, b)`: at most `maxSteps
= 5` out-of-order adjacent pairs are repaired; the scan index `i` persists
across steps; ranges shorter than `shortestShifting = 50` bail out without
shifting; returns the partially sorted slice and whether the whole range
ended up sorted. -/
def limSteps [Inhabited α] (less : α → α → Bool) (a b : Nat) :
    Nat → Nat → List α → List α × Bool
  | 0, _, l => (l, false)
  | steps + 1, i, l =>
    let i2 := limScan less b (b - i) i l
    if i2 = b then (l, true)
    else if b - a < 50 then (l, false)
    else
      let l := swapL l i2 (i2 - 1)
      let l := if 2 ≤ i2 - a then limShiftLeft less (i2 - 1) l else l
      let l := if 2 ≤ b - i2 then limShiftRight less b (b - i2) (i2 + 1) l else l
      limSteps less a b steps i2 l

/-- Model of `partialInsertionSort_func(data, a, b)`. -/
def partialInsSortGo [Inhabited α] (less : α → α → Bool) (a b : Nat)
    (l : List α) : List α × Bool :=
  limSteps less a b 5 (a + 1) l

/-- Skip loop of `partition_func` advancing `i` while `i ≤ j` and
`data.Less(i, a)`. -/
def skipLoI [Inhabited α] (less : α → α → Bool) (l : List α) (a j : Nat) :
    Nat → Nat → Nat
  | 0, i => i
  | fuel + 1, i =>
    if i ≤ j then
      if less (getN l i) (getN l a) then skipLoI less l a j fuel (i + 1) else i
    else i

/-- Skip loop of `partition_func` decreasing `j` while `i ≤ j` and not
`data.Less(j, a)`. -/
def skipHiJ [Inhabited α] (less : α → α → Bool) (l : List α) (a i : Nat) :
    Nat → Nat → Nat
  | 0, j => j
  | fuel + 1, j =>
    if i ≤ j then
      if less (getN l j) (getN l a) then j else skipHiJ less l a i fuel (j - 1)
    else j

/-- Main loop of `partition_func`: repeat skip-skip-swap until the indices
cross; returns the slice and the final `j`. -/
def partitionLoop [Inhabited α] (less : α → α → Bool) (a b : Nat) :
    Nat → Nat → Nat → List α → List α × Nat
  | 0, _, j, l => (l, j)
  | fuel + 1, i, j, l =>
    let i2 := skipLoI less l a j b i
    let j2 := skipHiJ less l a i2 b j
    if i2 > j2 then (l, j2)
    else partitionLoop less a b fuel (i2 + 1) (j2 - 1) (swapL l i2 j2)

/-- Model of `partition_func(data, a, b, pivot)`: move the pivot to `a`,
partition the rest around it, place the pivot at the returned position, and
report whether the range was already partitioned. -/
def partitionGo [Inhabited α] (less : α → α → Bool) (l : List α)
    (a b pivot : Nat) : List α × Nat × Bool :=
  let l := swapL l a pivot
  let i := skipLoI less l a (b - 1) b (a + 1)
  let j := skipHiJ less l a i b (b - 1)
  if i > j then
    (swapL l j a, j, true)
  else
    let l := swapL l i j
    let r := partitionLoop less a b b (i + 1) (j - 1) l
    (swapL r.1 r.2 a, r.2, false)

/-- Skip loop of `partitionEqual_func` advancing `i` while `i ≤ j` and not
`data.Less(pivot, i)`. -/
def eqSkipI [Inhabited α] (less : α → α → Bool) (l : List α) (p j : Nat) :
    Nat → Nat → Nat
  | 0, i => i
  | fuel + 1, i =>
    if i ≤ j then
      if less (getN l p) (getN l i) then i else eqSkipI less l p j fuel (i + 1)
    else i

/-- Skip loop of `partitionEqual_func` decreasing `j` while `i ≤ j` and
`data.Less(pivot, j)`. -/
def eqSkipJ [Inhabited α] (less : α → α → Bool) (l : List α) (p i : Nat) :
    Nat → Nat → Nat
  | 0, j => j
  | fuel + 1, j =>
    if i ≤ j then
      if less (getN l p) (getN l j) then eqSkipJ less l p i fuel (j - 1) else j
    else j

/-- Main loop of `partitionEqual_func`; returns the slice and the final
`i`, the start of the strictly-greater region. -/
def partitionEqualLoop [Inhabited α] (less : α → α → Bool) (p b : Nat) :
    Nat → Nat → Nat → List α → List α × Nat
  | 0, i, _, l => (l, i)
  | fuel + 1, i, j, l =>
    let i2 := eqSkipI less l p j b i
    let j2 := eqSkipJ less l p i2 b j
    if i2 > j2 then (l, i2)
    else partitionEqualLoop less p b fuel (i2 + 1) (j2 - 1) (swapL l i2 j2)

/-- Model of `partitionEqual_func(data, a, b, pivot)`: move the pivot to
`a` and split off the elements equal to it. -/
def partitionEqualGo [Inhabited α] (less : α → α → Bool) (l : List α)
    (a b pivot : Nat) : List α × Nat :=
  let l := swapL l a pivot
  partitionEqualLoop less a b b (a + 1) (b - 1) l

/-- Recursion tail of `pdqsort_func` after `partition_func`: recurse into
the shorter side with fresh flags, then continue the loop on the longer
side with the balance and partitioned flags of this iteration.  `recur` is
the recursive call at the remaining fuel. -/
def pdqPartitioned [Inhabited α] (_less : α → α → Bool)
    (recur : List α → Nat → Nat → Nat → Bool → Bool → List α)
    (a b limit length : Nat) (pr : List α × Nat × Bool) : List α :=
  let mid := pr.2.1
  let wasPartitioned := pr.2.2
  let leftLen := mid - a
  let rightLen := b - mid
  let balanceThreshold := length / 8
  let wasBalanced := decide (balanceThreshold ≤ min leftLen rightLen)
  if leftLen < rightLen then
    recur (recur pr.1 a mid limit true true) (mid + 1) b limit wasBalanced wasPartitioned
  else
    recur (recur pr.1 (mid + 1) b limit true true) a mid limit wasBalanced wasPartitioned

/-- Stage of `pdqsort_func` after the optional partial insertion sort
(`tried` is its result with the done flag): stop when done; partition off
equal elements and continue the loop when the element before the range is
not less than the pivot; otherwise partition and recurse. -/
def pdqTried [Inhabited α] (less : α → α → Bool)
    (recur : List α → Nat → Nat → Nat → Bool → Bool → List α)
    (a b limit : Nat) (wb wp : Bool) (pivot : Nat)
    (tried : List α × Bool) : List α :=
  if tried.2 then tried.1
  else if decide (0 < a) && !less (getN tried.1 (a - 1)) (getN tried.1 pivot) then
    let pe := partitionEqualGo less tried.1 a b pivot
    recur pe.1 pe.2 b limit wb wp
  else
    pdqPartitioned less recur a b limit (b - a) (partitionGo less tried.1 a b pivot)

/-- Stage of `pdqsort_func` after the hint-driven reversal (`turned` is
the slice, pivot and hint): try the partial insertion sort when this looks
like an already-sorted balanced range. -/
def pdqTurned [Inhabited α] (less : α → α → Bool)
    (recur : List α → Nat → Nat → Nat → Bool → Bool → List α)
    (a b limit : Nat) (wb wp : Bool) (turned : List α × Nat × SortHint) : List α :=
  pdqTried less recur a b limit wb wp turned.2.1
    (if wb && wp && decide (turned.2.2 = SortHint.increasing) then
      partialInsSortGo less a b turned.1
    else (turned.1, false))

/-- Stage of `pdqsort_func` after the optional pattern breaking (`stage`
is the slice and remaining limit): choose a pivot and reverse the range on
a decreasing hint. -/
def pdqStaged [Inhabited α] (less : α → α → Bool)
    (recur : List α → Nat → Nat → Nat → Bool → Bool → List α)
    (a b : Nat) (wb wp : Bool) (stage : List α × Nat) : List α :=
  let pv := choosePivot less stage.1 a b
  pdqTurned less recur a b stage.2 wb wp
    (if pv.2 = SortHint.decreasing then
      (reverseRangeGo stage.1 a b, (b - 1) - (pv.1 - a), SortHint.increasing)
    else (stage.1, pv.1, pv.2))

/-- Model of `pdqsort_func(data, a, b, limit)` (fuel-structural; the fuel
always dominates the range length plus one, so exhaustion is unreachable in
the modelled runs): insertion sort below 13 elements, heapsort at exhausted
limit, otherwise pattern-break an unbalanced iteration and run the staged
pipeline above. -/
def pdqsortGo [Inhabited α] (less : α → α → Bool) :
    Nat → List α → Nat → Nat → Nat → Bool → Bool → List α
  | 0, l, _, _, _, _, _ => l
  | fuel + 1, l, a, b, limit, wb, wp =>
    if b - a ≤ 12 then insertionSortGo less a b l
    else if limit = 0 then heapSortGo less l a b
    else
      pdqStaged less (pdqsortGo less fuel) a b wb wp
        (if !wb then (breakPatternsGo l a b, limit - 1) else (l, limit))

/-- Model of `sort.Slice(x, less)`: pdqsort over the whole slice with
depth limit `bits.Len(uint(n))`. -/
def sortSliceGo [Inhabited α] (less : α → α → Bool) (l : List α) : List α :=
  pdqsortGo less (l.length + 1) l 0 l.length (bitsLen l.length) true true

/-- The sort step of `loadPostsFromDirectory` (main.go:159-161):
`sort.Slice(posts, func(i, j int) bool { return posts[i].Date.After(posts[j].Date) })`. -/
def sortSlicePosts (posts : List PostData) : List PostData :=
  sortSliceGo goLess posts

/-- Model of `loadPostsFromDirectory` (main.go:143-164): glob the pattern,
load every matched file (first failure aborts), and sort by date
descending with `sort.Slice`. -/
def loadPostsFromDirectory (env : Env) (fs : FS) (pattern : String) :
    Except GoError (List PostData) :=
  match loadAll env fs (fs.glob pattern) with
  | .error e => .error e
  | .ok posts => .ok (sortSlicePosts posts)

/-- Model of `LoadBlogPosts` (main.go:167-169). -/
def LoadBlogPosts (env : Env) (fs : FS) : Except GoError (List PostData) :=
  loadPostsFromDirectory env fs "posts/*.md"

/-- Model of `LoadThoughtsPosts` (main.go:172-174). -/
def LoadThoughtsPosts (env : Env) (fs : FS) : Except GoError (List PostData) :=
  loadPostsFromDirectory env fs "thoughts/*.md"

/-! ## Live driver (HTTP handlers) -/

/-- Model of `PostHandler` (main.go:314-328): derive the slug from the URL
path after the `/post/` prefix, load the post (any load error is answered
with 404 "Post not found"), then execute the base+post templates (an
execution error is answered with 500). -/
def PostHandler (env : Env) (fs : FS) (urlPath : String) : HttpResponse :=
  let slug := ⟨urlPath.data.drop ("/post/".data.length)⟩
  match LoadPost env fs slug with
  | .error _ => httpError 404 "Post not found"
  | .ok post =>
    match env.execPost post with
    | .error _ => httpError 500 "Error executing template"
    | .ok html => ⟨200, html⟩

/-- Model of `postsHandler` (main.go:346-368): load the posts (a load error
is answered with 500 "Error loading posts"), then execute the base plus the
named page template over the collection (an execution error is answered
with 500). -/
def postsHandler (env : Env) (loadPosts : Except GoError (List PostData))
    (title templateName : String) : HttpResponse :=
  match loadPosts with
  | .error _ => httpError 500 "Error loading posts"
  | .ok posts =>
    match env.execPage templateName ⟨title, posts⟩ with
    | .error _ => httpError 500 "Error executing template"
    | .ok html => ⟨200, html⟩

/-- Model of `HomeHandler` (main.go:371-373). -/
def HomeHandler (env : Env) (fs : FS) : HttpResponse :=
  postsHandler env (LoadBlogPosts env fs) "Home" "home.gohtml"

/-- Model of `ThoughtsHandler` (main.go:376-378). -/
def ThoughtsHandler (env : Env) (fs : FS) : HttpResponse :=
  postsHandler env (LoadThoughtsPosts env fs) "Thoughts" "thoughts.gohtml"

/-- Model of `AboutHandler` (main.go:381-399): render `nav/about.md` (a
read error is answered with 500), then execute the base+about templates;
the converter failure inside `RenderMarkdown` panics the process. -/
def AboutHandler (env : Env) (fs : FS) : PanicOr HttpResponse :=
  match RenderMarkdown env fs "nav/about.md" with
  | .panicked m => .panicked m
  | .value (.error _) => .value (httpError 500 "Error loading about page")
  | .value (.ok content) =>
    match env.execAbout content with
    | .error _ => .value (httpError 500 "Error executing template")
    | .ok html => .value ⟨200, html⟩

/-! ## Static driver -/

/-- Model of `generatePage` (main.go:271-285): run the handler against an
in-memory response writer and persist the buffered bytes at
`outputDir/filename`.  The buffer receives everything the handler writes
(including error bodies — the mock writer records but does not act on the
status), and the handler closure always returns nil, so the write always
happens; `os.MkdirAll`/`os.WriteFile` failures are external-disk errors
outside every claim and are not modelled. -/
def generatePage (outputDir filename body : String) : String × String :=
  (pathJoin outputDir filename, body)

/-- Slug derivation of the static generator (main.go:230 and main.go:252):
`strings.TrimSuffix(filepath.Base(file), filepath.Ext(file))`. -/
def genSlug (file : String) : String :=
  trimSuffix (filepathBase file) (filepathExt file)

/-- Model of `GenerateStaticSite` (main.go:195-268): generate the home,
about and thoughts pages, then one `post/<slug>/index.html` page for every
Markdown file globbed from `posts/` and then from `thoughts/`, each by
running the corresponding live handler into a buffer.  The result is the
ordered list of (path, bytes) writes; a panic escaping `AboutHandler`
aborts the run. -/
def GenerateStaticSite (env : Env) (fs : FS) (outputDir : String) :
    PanicOr (List (String × String)) :=
  match AboutHandler env fs with
  | .panicked m => .panicked m
  | .value aboutResp =>
    .value
      ([generatePage outputDir "index.html" (HomeHandler env fs).body,
        generatePage outputDir "about.html" aboutResp.body,
        generatePage outputDir "thoughts.html" (ThoughtsHandler env fs).body]
        ++ (fs.glob "posts/*.md").map (fun file =>
            generatePage outputDir
              (pathJoin "post" (pathJoin (genSlug file) "index.html"))
              (PostHandler env fs ("/post/" ++ genSlug file)).body)
        ++ (fs.glob "thoughts/*.md").map (fun file =>
            generatePage outputDir
              (pathJoin "post" (pathJoin (genSlug file) "index.html"))
              (PostHandler env fs ("/post/" ++ genSlug file)).body))

/-- An output tree on disk: each path maps to the bytes of the file stored
there, or to nothing. -/
def Store := String → Option String

/-- Model of performing a sequence of `os.WriteFile` calls: each write
replaces the file at its path. -/
def applyWrites (σ : Store) : List (String × String) → Store
  | [] => σ
  | w :: rest => applyWrites (fun p => if p = w.1 then some w.2 else σ p) rest

/-! ## Specification-side abbreviations used by the theorems -/

/-- Stable insertion of a post into a reversed prefix (nearest element
first): walk towards the front while the new element compares strictly
before its neighbour.  This is the list-level meaning of the inner
insertion-sort loop. -/
def insRev (x : PostData) : List PostData → List PostData
  | [] => [x]
  | y :: ys => if goLess x y then y :: insRev x ys else x :: y :: ys

/-- One outer insertion-sort step at the list level: insert `x` into the
processed prefix `P` from its right end. -/
def insStep (P : List PostData) (x : PostData) : List PostData :=
  (insRev x P.reverse).reverse

/-- List-level insertion sort (fold of `insStep` over the input). -/
def insFold : List PostData → List PostData → List PostData
  | P, [] => P
  | P, x :: rest => insFold (insStep P x) rest

/-- Date-descending sortedness: every element's date is at least every
later element's date. -/
def SortedD (l : List PostData) : Prop :=
  l.Pairwise (fun u v => v.Date ≤ u.Date)

/-- The subsequence of records carrying one fixed date, in order; two
equal-date records keep their relative order between `inp` and `out` if and
only if this subsequence is unchanged for every date. -/
def filterDate (d : GoTime) (l : List PostData) : List PostData :=
  l.filter (fun p => p.Date == d)

/-! ### Segment-level predicates for the `sort.Slice` correctness proof

`pdqsort_func` works in place on the index window `[a, b)` of the slice;
the following predicates describe a window of a list through `getN`. -/

/-- Date-descending sortedness of the window `[a, b)`. -/
def SortedSeg (l : List PostData) (a b : Nat) : Prop :=
  ∀ i j, a ≤ i → i < j → j < b → (getN l j).Date ≤ (getN l i).Date

/-- Adjacent-pair date-descending order at positions `(k-1, k)` for
`a < k < e`. -/
def AdjSeg (l : List PostData) (a e : Nat) : Prop :=
  ∀ k, a < k → k < e → (getN l k).Date ≤ (getN l (k - 1)).Date

/-- Every date in the window is at most `d`. -/
def SegLe (l : List PostData) (a b : Nat) (d : Nat) : Prop :=
  ∀ k, a ≤ k → k < b → (getN l k).Date ≤ d

/-- Every date in the window is strictly above `d`. -/
def SegLt (l : List PostData) (a b : Nat) (d : Nat) : Prop :=
  ∀ k, a ≤ k → k < b → d < (getN l k).Date

/-- Every date in the window equals `d`. -/
def SegEq (l : List PostData) (a b : Nat) (d : Nat) : Prop :=
  ∀ k, a ≤ k → k < b → (getN l k).Date = d

/-- The pdqsort loop invariant for the window `[a, b)`: when the window
does not start at the slice beginning, the element just before it is a
former pivot whose date bounds every window date from above. -/
def LbOK (l : List PostData) (a b : Nat) : Prop :=
  0 < a → ∀ k, a ≤ k → k < b → (getN l k).Date ≤ (getN l (a - 1)).Date

/-- The window `[a, b)` of a list, as a list. -/
def segOf (l : List PostData) (a b : Nat) : List PostData :=
  (l.drop a).take (b - a)

/-- `r` agrees with `l` everywhere outside the window `[a, b)`. -/
def FrameOut (l r : List PostData) (a b : Nat) : Prop :=
  ∀ k, k < a ∨ b ≤ k → getN r k = getN l k

/-- Binary min-heap order on dates over heap slots `[0, hi)` placed at
`first`, for parents from `r0` on, excluding the defect slot `d`. -/
def HeapExcept (l : List PostData) (first hi r0 d : Nat) : Prop :=
  ∀ p c, r0 ≤ p → p ≠ d → c < hi → (c = 2 * p + 1 ∨ c = 2 * p + 2) →
    (getN l (first + p)).Date ≤ (getN l (first + c)).Date

/-- Binary min-heap order on dates over heap slots `[0, hi)` placed at
`first`, for parents from `r0` on. -/
def HeapBelow (l : List PostData) (first hi r0 : Nat) : Prop :=
  ∀ p c, r0 ≤ p → c < hi → (c = 2 * p + 1 ∨ c = 2 * p + 2) →
    (getN l (first + p)).Date ≤ (getN l (first + c)).Date

/-- Descendant relation between binary-heap slots: `Desc r q` holds when
slot `q` lies in the subtree rooted at slot `r` (children of `p` are
`2p+1` and `2p+2`, as in `siftDown_func`). -/
inductive Desc : Nat → Nat → Prop where
  | refl (r : Nat) : Desc r r
  | left {r q : Nat} : Desc r q → Desc r (2 * q + 1)
  | right {r q : Nat} : Desc r q → Desc r (2 * q + 2)

/-- Window specification of one `pdqsort_func` call on `[a, b)`: the
result is segment-sorted, agrees with the input outside the window, and is
a permutation of the input. -/
def WindowSpec (l r : List PostData) (a b : Nat) : Prop :=
  SortedSeg r a b ∧ FrameOut l r a b ∧ r.Perm l

/-- The recursion contract of `pdqsort_func`: on any window shorter than
`N` that satisfies the former-pivot invariant, the call meets its window
specification. -/
def RecurOK (N : Nat)
    (recur : List PostData → Nat → Nat → Nat → Bool → Bool → List PostData) : Prop :=
  ∀ l a b limit wb wp, a ≤ b → b ≤ l.length → b - a < N → LbOK l a b →
    WindowSpec l (recur l a b limit wb wp) a b

/-! ## Concrete sample inputs for witnesses and counterexamples -/

/-- Environment in which every collaborator succeeds: the front-matter
parser finds no metadata (empty structure, unchanged body), the Markdown
converter is the identity, the post template renders the content, the page
template renders the page title, the about template renders the content. -/
def okEnv : Env :=
  ⟨fun s => .ok (⟨"", 0⟩, s), fun s => .ok s, fun p => .ok p.Content,
   fun _ d => .ok d.Title, fun s => .ok s⟩

/-- Environment whose front-matter parser always fails. -/
def badFmEnv : Env :=
  ⟨fun _ => .error "bad front matter", fun s => .ok s, fun p => .ok p.Content,
   fun _ d => .ok d.Title, fun s => .ok s⟩

/-- Environment whose Markdown converter always fails (front matter parses
as absent). -/
def badMdEnv : Env :=
  ⟨fun s => .ok (⟨"", 0⟩, s), fun _ => .error "boom", fun p => .ok p.Content,
   fun _ d => .ok d.Title, fun s => .ok s⟩

/-- Filesystem holding exactly one post, `posts/p.md`. -/
def onePostFs : FS :=
  ⟨fun p => if p = "posts/p.md" then .ok "content" else .error .fsNotExist,
   fun p => if p = "posts/p.md" then .ok ⟨7⟩ else .error .fsNotExist,
   fun pat => if pat = "posts/*.md" then ["posts/p.md"] else []⟩

/-- Filesystem holding exactly one post, in the secondary directory only. -/
def thoughtsOnlyFs : FS :=
  ⟨fun p => if p = "thoughts/q.md" then .ok "body" else .error .fsNotExist,
   fun p => if p = "thoughts/q.md" then .ok ⟨4⟩ else .error .fsNotExist,
   fun _ => []⟩

/-- Filesystem with no files at all. -/
def emptyFs : FS :=
  ⟨fun _ => .error .fsNotExist, fun _ => .error .fsNotExist, fun _ => []⟩

/-- Filesystem on which every access is denied. -/
def permFs : FS :=
  ⟨fun _ => .error .fsPermission, fun _ => .error .fsPermission, fun _ => []⟩

/-- Filesystem whose reads succeed but whose stats are denied. -/
def statFailFs : FS :=
  ⟨fun _ => .ok "content", fun _ => .error .fsPermission, fun _ => []⟩

/-- Filesystem whose primary glob returns a loadable file followed by an
unreadable one. -/
def twoFileFs : FS :=
  ⟨fun p => if p = "posts/good.md" then .ok "g" else .error .fsPermission,
   fun p => if p = "posts/good.md" then .ok ⟨1⟩ else .error .fsPermission,
   fun pat => if pat = "posts/*.md" then ["posts/good.md", "posts/bad.md"] else []⟩

/-- Filesystem holding one post with slug `hello-world` (all reads and
stats succeed, the secondary directory is empty). -/
def helloFs : FS :=
  ⟨fun _ => .ok "hello", fun _ => .ok ⟨3⟩,
   fun pat => if pat = "posts/*.md" then ["posts/hello-world.md"] else []⟩

/-- Thirteen loaded records: dates `1, 2×11, 3`, distinguishable titles.
Thirteen is the smallest length at which `sort.Slice` leaves the insertion
sort regime. -/
def cex13 : List PostData :=
  [⟨"t1", 1, "", ""⟩, ⟨"t2", 2, "", ""⟩, ⟨"t3", 2, "", ""⟩, ⟨"t4", 2, "", ""⟩,
   ⟨"t5", 2, "", ""⟩, ⟨"t6", 2, "", ""⟩, ⟨"t7", 2, "", ""⟩, ⟨"t8", 2, "", ""⟩,
   ⟨"t9", 2, "", ""⟩, ⟨"t10", 2, "", ""⟩, ⟨"t11", 2, "", ""⟩, ⟨"t12", 2, "", ""⟩,
   ⟨"t13", 3, "", ""⟩]

/-- Three loaded records with one duplicated date, within the stable
regime. -/
def demo3 : List PostData :=
  [⟨"a", 5, "", ""⟩, ⟨"b", 9, "", ""⟩, ⟨"c", 5, "", ""⟩]

/-! ## Theorems -/

/-- C3: when front-matter parsing fails for any reason, the post loader
does not fail because of it: the body handed to the Markdown renderer is
the original bytes unchanged, the metadata is empty — so the title is the
humanized filename and the date the file's modification time — and loading
succeeds (returning the record built from the fallbacks and the rendered
original bytes). -/
theorem frontmatterSoftFail (env : Env) (fs : FS) (filePath md html msg : String)
    (info : FileInfo)
    (hread : fs.readFile filePath = .ok md)
    (hfm : env.fmParse md = .error msg)
    (hstat : fs.stat filePath = .ok info)
    (hconv : env.mdConvert md = .ok html) :
    LoadPostFromFile env fs filePath =
      .ok ⟨CleanTitle (filepathBase filePath), info.modTime,
           trimSuffix (filepathBase filePath) (filepathExt (filepathBase filePath)),
           html⟩ := by
  simp [LoadPostFromFile, hread, hfm, hstat, hconv]

/-- Witness for `frontmatterSoftFail` at `badFmEnv`/`onePostFs`. -/
theorem frontmatterSoftFailWitness :
    badFmEnv.fmParse "content" = .error "bad front matter" ∧
    LoadPostFromFile badFmEnv onePostFs "posts/p.md" =
      .ok ⟨CleanTitle (filepathBase "posts/p.md"), FileInfo.modTime ⟨7⟩,
           trimSuffix (filepathBase "posts/p.md")
             (filepathExt (filepathBase "posts/p.md")), "content"⟩ :=
  ⟨rfl, frontmatterSoftFail badFmEnv onePostFs "posts/p.md" "content" "content"
    "bad front matter" ⟨7⟩ rfl rfl rfl rfl⟩

/-- C6: the title of a loaded record is the front-matter title when that is
non-empty, and otherwise the humanized filename (extension stripped, `-`
and `_` replaced by spaces, each word title-cased); in particular
`my-first_post.md` humanizes to `My First Post`. -/
theorem titleRule (env : Env) (fs : FS) (filePath md : String) :
    (∀ fm rest p, fs.readFile filePath = .ok md →
        env.fmParse md = .ok (fm, rest) → fm.Title ≠ "" →
        LoadPostFromFile env fs filePath = .ok p → p.Title = fm.Title) ∧
    (∀ fm rest p, fs.readFile filePath = .ok md →
        env.fmParse md = .ok (fm, rest) → fm.Title = "" →
        LoadPostFromFile env fs filePath = .ok p →
        p.Title = CleanTitle (filepathBase filePath)) ∧
    (∀ msg p, fs.readFile filePath = .ok md →
        env.fmParse md = .error msg →
        LoadPostFromFile env fs filePath = .ok p →
        p.Title = CleanTitle (filepathBase filePath)) ∧
    CleanTitle "my-first_post.md" = "My First Post" := by
  refine ⟨?_, ?_, ?_, by decide⟩
  · intro fm rest p hread hfm hne hload
    simp only [LoadPostFromFile, hread, hfm] at hload
    cases hstat : fs.stat filePath with
    | error e => rw [hstat] at hload; cases hload
    | ok info =>
      rw [hstat] at hload
      cases hconv : env.mdConvert rest with
      | error e => simp [hconv] at hload
      | ok html =>
        simp only [hconv] at hload
        cases hload
        simp [if_neg hne]
  · intro fm rest p hread hfm heq hload
    simp only [LoadPostFromFile, hread, hfm] at hload
    cases hstat : fs.stat filePath with
    | error e => rw [hstat] at hload; cases hload
    | ok info =>
      rw [hstat] at hload
      cases hconv : env.mdConvert rest with
      | error e => simp [hconv] at hload
      | ok html =>
        simp only [hconv] at hload
        cases hload
        simp [heq]
  · intro msg p hread hfm hload
    simp only [LoadPostFromFile, hread, hfm] at hload
    cases hstat : fs.stat filePath with
    | error e => rw [hstat] at hload; cases hload
    | ok info =>
      rw [hstat] at hload
      cases hconv : env.mdConvert md with
      | error e => simp [hconv] at hload
      | ok html =>
        simp only [hconv] at hload
        cases hload
        simp

/-- Witness for `titleRule`: the fallback branch at `okEnv`/`onePostFs`
(empty front-matter title). -/
theorem titleRuleWitness :
    LoadPostFromFile okEnv onePostFs "posts/p.md" = .ok ⟨"P", 7, "p", "content"⟩ ∧
    PostData.Title ⟨"P", 7, "p", "content"⟩ = CleanTitle (filepathBase "posts/p.md") :=
  ⟨rfl, (titleRule okEnv onePostFs "posts/p.md" "content").2.1
    ⟨"", 0⟩ "content" ⟨"P", 7, "p", "content"⟩ rfl rfl rfl rfl⟩

/-- C7: the date of a loaded record is the front-matter date when that is
non-zero, otherwise the file's modification time; and when the fallback
stat fails, the whole load fails with that error even though the contents
were already read successfully. -/
theorem dateRule (env : Env) (fs : FS) (filePath md : String) :
    (∀ fm rest p, fs.readFile filePath = .ok md →
        env.fmParse md = .ok (fm, rest) → fm.Date ≠ 0 →
        LoadPostFromFile env fs filePath = .ok p → p.Date = fm.Date) ∧
    (∀ fm rest p info, fs.readFile filePath = .ok md →
        env.fmParse md = .ok (fm, rest) → fm.Date = 0 →
        fs.stat filePath = .ok info →
        LoadPostFromFile env fs filePath = .ok p → p.Date = info.modTime) ∧
    (∀ e, fs.readFile filePath = .ok md → fs.stat filePath = .error e →
        LoadPostFromFile env fs filePath = .error e) := by
  refine ⟨?_, ?_, ?_⟩
  · intro fm rest p hread hfm hne hload
    simp only [LoadPostFromFile, hread, hfm] at hload
    cases hstat : fs.stat filePath with
    | error e => rw [hstat] at hload; cases hload
    | ok info =>
      rw [hstat] at hload
      cases hconv : env.mdConvert rest with
      | error e => simp [hconv] at hload
      | ok html =>
        simp only [hconv] at hload
        cases hload
        simp [if_neg hne]
  · intro fm rest p info hread hfm heq hstat hload
    simp only [LoadPostFromFile, hread, hfm, hstat] at hload
    cases hconv : env.mdConvert rest with
    | error e => simp [hconv] at hload
    | ok html =>
      simp only [hconv] at hload
      cases hload
      simp [heq]
  · intro e hread hstat
    cases hp : env.fmParse md with
    | error msg => simp [LoadPostFromFile, hread, hp, hstat]
    | ok r => simp [LoadPostFromFile, hread, hp, hstat]

/-- Witness for `dateRule`: the modification-time fallback at
`okEnv`/`onePostFs`, and the stat-failure propagation at `statFailFs`
(whose reads succeed). -/
theorem dateRuleWitness :
    LoadPostFromFile okEnv onePostFs "posts/p.md" = .ok ⟨"P", 7, "p", "content"⟩ ∧
    PostData.Date ⟨"P", 7, "p", "content"⟩ = FileInfo.modTime ⟨7⟩ ∧
    statFailFs.readFile "posts/p.md" = .ok "content" ∧
    LoadPostFromFile okEnv statFailFs "posts/p.md" = .error .fsPermission :=
  ⟨rfl,
   (dateRule okEnv onePostFs "posts/p.md" "content").2.1
     ⟨"", 0⟩ "content" ⟨"P", 7, "p", "content"⟩ ⟨7⟩ rfl rfl rfl rfl rfl,
   rfl,
   (dateRule okEnv statFailFs "posts/p.md" "content").2.2 .fsPermission rfl rfl⟩

/-- Helper for C4: the per-file loop fails with the error of the first
failing file, given that every earlier file loads. -/
theorem loadAll_first_error (env : Env) (fs : FS) (f : String) (e : GoError)
    (suf : List String) :
    ∀ pre : List String,
      (∀ p ∈ pre, ∃ post, LoadPostFromFile env fs p = .ok post) →
      LoadPostFromFile env fs f = .error e →
      loadAll env fs (pre ++ f :: suf) = .error e := by
  intro pre
  induction pre with
  | nil => intro _ hf; simp [loadAll, hf]
  | cons q rest ih =>
    intro hpre hf
    obtain ⟨post, hq⟩ := hpre q (by simp)
    have hrest := ih (fun p hp => hpre p (by simp [hp])) hf
    simp [loadAll, hq, hrest]

/-- Helper for C4: the per-file loop succeeds exactly when every file
loads, and then returns the loaded records in order. -/
theorem loadAll_ok_iff (env : Env) (fs : FS) :
    ∀ files : List String,
      (∃ ps, loadAll env fs files = .ok ps) ↔
      (∀ f ∈ files, ∃ post, LoadPostFromFile env fs f = .ok post) := by
  intro files
  induction files with
  | nil => simp [loadAll]
  | cons f rest ih =>
    constructor
    · rintro ⟨ps, hps⟩
      cases hf : LoadPostFromFile env fs f with
      | error e => simp [loadAll, hf] at hps
      | ok post =>
        cases hr : loadAll env fs rest with
        | error e => simp [loadAll, hf, hr] at hps
        | ok posts =>
          intro g hg
          rcases List.mem_cons.mp hg with hg | hg
          · exact ⟨post, hg ▸ hf⟩
          · exact (ih.mp ⟨posts, hr⟩) g hg
    · intro h
      obtain ⟨post, hf⟩ := h f (by simp)
      obtain ⟨ps, hr⟩ := ih.mpr (fun g hg => h g (by simp [hg]))
      exact ⟨post :: ps, by simp [loadAll, hf, hr]⟩

/-- C4: a failure loading any single globbed path aborts the whole
collection build with that first error and no partial list is returned;
the build succeeds exactly when every matched file loads, and then returns
the sorted records. -/
theorem collectionAllOrNothing (env : Env) (fs : FS) (pattern : String) :
    (∀ pre f suf e, fs.glob pattern = pre ++ f :: suf →
        (∀ p ∈ pre, ∃ post, LoadPostFromFile env fs p = .ok post) →
        LoadPostFromFile env fs f = .error e →
        loadPostsFromDirectory env fs pattern = .error e) ∧
    ((∃ ps, loadPostsFromDirectory env fs pattern = .ok ps) ↔
      (∀ f ∈ fs.glob pattern, ∃ post, LoadPostFromFile env fs f = .ok post)) ∧
    (∀ ps, loadAll env fs (fs.glob pattern) = .ok ps →
        loadPostsFromDirectory env fs pattern = .ok (sortSlicePosts ps)) := by
  refine ⟨?_, ?_, ?_⟩
  · intro pre f suf e hglob hpre hf
    have h := loadAll_first_error env fs f e suf pre hpre hf
    simp [loadPostsFromDirectory, hglob, h]
  · constructor
    · rintro ⟨ps, hps⟩
      cases h : loadAll env fs (fs.glob pattern) with
      | error e => simp [loadPostsFromDirectory, h] at hps
      | ok posts => exact (loadAll_ok_iff env fs (fs.glob pattern)).mp ⟨posts, h⟩
    · intro h
      obtain ⟨ps, hps⟩ := (loadAll_ok_iff env fs (fs.glob pattern)).mpr h
      exact ⟨sortSlicePosts ps, by simp [loadPostsFromDirectory, hps]⟩
  · intro ps hps
    simp [loadPostsFromDirectory, hps]

/-- Witness for `collectionAllOrNothing` at `twoFileFs`: the second file is
unreadable, so the build fails with its permission error. -/
theorem collectionAllOrNothingWitness :
    twoFileFs.glob "posts/*.md" = ["posts/good.md"] ++ "posts/bad.md" :: [] ∧
    LoadPostFromFile okEnv twoFileFs "posts/bad.md" = .error .fsPermission ∧
    loadPostsFromDirectory okEnv twoFileFs "posts/*.md" = .error .fsPermission :=
  ⟨rfl, rfl,
   (collectionAllOrNothing okEnv twoFileFs "posts/*.md").1
     ["posts/good.md"] "posts/bad.md" [] .fsPermission rfl
     (by
       intro p hp
       simp only [List.mem_singleton] at hp
       subst hp
       exact ⟨⟨"Good", 1, "good", "g"⟩, rfl⟩)
     rfl⟩

/-- C5: single-post lookup loads from the primary directory when the file
is there; falls back to, and loads from, the secondary directory when the
primary stat reports not-exist and the secondary file is there; and when
both stats report not-exist it returns exactly the not-exist condition
(answered with 404 by the live handler), never another error. -/
theorem singlePostLookup (env : Env) (fs : FS) (slug : String) :
    (∀ info, fs.stat (pathJoin "posts" (slug ++ ".md")) = .ok info →
        LoadPost env fs slug =
          LoadPostFromFile env fs (pathJoin "posts" (slug ++ ".md"))) ∧
    (∀ info, fs.stat (pathJoin "posts" (slug ++ ".md")) = .error .fsNotExist →
        fs.stat (pathJoin "thoughts" (slug ++ ".md")) = .ok info →
        LoadPost env fs slug =
          LoadPostFromFile env fs (pathJoin "thoughts" (slug ++ ".md"))) ∧
    (fs.stat (pathJoin "posts" (slug ++ ".md")) = .error .fsNotExist →
      fs.stat (pathJoin "thoughts" (slug ++ ".md")) = .error .fsNotExist →
      LoadPost env fs slug = .error .fsNotExist ∧
      GoError.isNotExist .fsNotExist = true ∧
      PostHandler env fs ("/post/" ++ slug) = httpError 404 "Post not found") := by
  refine ⟨?_, ?_, ?_⟩
  · intro info h
    simp [LoadPost, h]
  · intro info h1 h2
    simp [LoadPost, h1, h2, GoError.isNotExist]
  · intro h1 h2
    have hload : LoadPost env fs slug = .error .fsNotExist := by
      simp [LoadPost, h1, h2, GoError.isNotExist]
    refine ⟨hload, rfl, ?_⟩
    have hslug : (⟨("/post/" ++ slug).data.drop ("/post/".data.length)⟩ : String) = slug := by
      show (⟨("/post/".data ++ slug.data).drop ("/post/".data.length)⟩ : String) = slug
      rw [List.drop_append_of_le_length (le_refl _)]
      simp
    simp [PostHandler, hslug, hload]

/-- Witness for `singlePostLookup`: the secondary-directory fallback at
`thoughtsOnlyFs` and the not-found outcome at `emptyFs`. -/
theorem singlePostLookupWitness :
    LoadPost okEnv thoughtsOnlyFs "q" =
      LoadPostFromFile okEnv thoughtsOnlyFs (pathJoin "thoughts" ("q" ++ ".md")) ∧
    LoadPost okEnv emptyFs "zzz" = .error .fsNotExist ∧
    PostHandler okEnv emptyFs ("/post/" ++ "zzz") = httpError 404 "Post not found" :=
  ⟨(singlePostLookup okEnv thoughtsOnlyFs "q").2.1 ⟨4⟩ rfl rfl,
   ((singlePostLookup okEnv emptyFs "zzz").2.2 rfl rfl).1,
   ((singlePostLookup okEnv emptyFs "zzz").2.2 rfl rfl).2.2⟩

/-- C10: in single-post lookup the fallback to the secondary directory is
taken only on a not-exist stat error for the primary file: on any other
stat failure (or on stat success) the loader proceeds with the primary
path. -/
theorem fallbackOnlyOnNotExist (env : Env) (fs : FS) (slug : String) :
    (∀ e, fs.stat (pathJoin "posts" (slug ++ ".md")) = .error e →
        e.isNotExist = false →
        LoadPost env fs slug =
          LoadPostFromFile env fs (pathJoin "posts" (slug ++ ".md"))) ∧
    (∀ info, fs.stat (pathJoin "posts" (slug ++ ".md")) = .ok info →
        LoadPost env fs slug =
          LoadPostFromFile env fs (pathJoin "posts" (slug ++ ".md"))) := by
  constructor
  · intro e h hne
    simp [LoadPost, h, hne]
  · intro info h
    simp [LoadPost, h]

/-- Witness for `fallbackOnlyOnNotExist`: a permission-denied stat on the
primary file does not fall back. -/
theorem fallbackOnlyOnNotExistWitness :
    permFs.stat (pathJoin "posts" ("s" ++ ".md")) = .error .fsPermission ∧
    GoError.isNotExist .fsPermission = false ∧
    LoadPost okEnv permFs "s" =
      LoadPostFromFile okEnv permFs (pathJoin "posts" ("s" ++ ".md")) :=
  ⟨rfl, rfl,
   (fallbackOnlyOnNotExist okEnv permFs "s").1 .fsPermission rfl rfl⟩

/-- Helper: the slug the post handler extracts from `"/post/" ++ slug`. -/
theorem postHandler_slug (slug : String) :
    (⟨("/post/" ++ slug).data.drop ("/post/".data.length)⟩ : String) = slug := by
  show (⟨("/post/".data ++ slug.data).drop ("/post/".data.length)⟩ : String) = slug
  rw [List.drop_append_of_le_length (le_refl _)]
  simp

/-- C2 (amended): in live mode a template execution error is surfaced as a
500 response, and a failure loading the posts of a listing page (including
a Markdown conversion failure) is surfaced as a 500 response; but for a
single-post request every load failure — including a Markdown conversion
failure on a file that exists — is surfaced as the 404 response "Post not
found", not as a 500. -/
theorem renderErrorStatuses (env : Env) (fs : FS) :
    (∀ slug e, LoadPost env fs slug = .error e →
        PostHandler env fs ("/post/" ++ slug) = httpError 404 "Post not found") ∧
    (∀ slug info md r m,
        fs.stat (pathJoin "posts" (slug ++ ".md")) = .ok info →
        fs.readFile (pathJoin "posts" (slug ++ ".md")) = .ok md →
        env.fmParse md = .ok r → env.mdConvert r.2 = .error m →
        PostHandler env fs ("/post/" ++ slug) = httpError 404 "Post not found") ∧
    (∀ slug post m, LoadPost env fs slug = .ok post →
        env.execPost post = .error m →
        PostHandler env fs ("/post/" ++ slug) = httpError 500 "Error executing template") ∧
    (∀ res title tname e, res = .error e →
        postsHandler env res title tname = httpError 500 "Error loading posts") ∧
    (∀ res title tname posts m, res = .ok posts →
        env.execPage tname ⟨title, posts⟩ = .error m →
        postsHandler env res title tname = httpError 500 "Error executing template") := by
  refine ⟨?_, ?_, ?_, ?_, ?_⟩
  · intro slug e h
    simp [PostHandler, postHandler_slug, h]
  · intro slug info md r m hstat hread hfm hconv
    have hload : LoadPost env fs slug = .error (.mdError m) := by
      simp [LoadPost, hstat, LoadPostFromFile, hread, hfm, hconv]
    simp [PostHandler, postHandler_slug, hload]
  · intro slug post m hload hexec
    simp [PostHandler, postHandler_slug, hload, hexec]
  · intro res title tname e h
    simp [postsHandler, h]
  · intro res title tname posts m hres hexec
    simp [postsHandler, hres, hexec]

/-- Witness for `renderErrorStatuses`: a Markdown conversion failure on the
existing file `posts/p.md` is answered 404, a load failure on a listing
page is answered 500. -/
theorem renderErrorStatusesWitness :
    onePostFs.stat (pathJoin "posts" ("p" ++ ".md")) = .ok ⟨7⟩ ∧
    badMdEnv.mdConvert "content" = .error "boom" ∧
    PostHandler badMdEnv onePostFs ("/post/" ++ "p") = httpError 404 "Post not found" ∧
    postsHandler badMdEnv (.error (.mdError "boom")) "Home" "home.gohtml" =
      httpError 500 "Error loading posts" :=
  ⟨rfl, rfl,
   (renderErrorStatuses badMdEnv onePostFs).2.1 "p" ⟨7⟩ "content" (⟨"", 0⟩, "content")
     "boom" rfl rfl rfl rfl,
   (renderErrorStatuses badMdEnv onePostFs).2.2.2.1 (.error (.mdError "boom"))
     "Home" "home.gohtml" (.mdError "boom") rfl⟩

/-- C2 counterexample: for the single-post request `/post/p`, whose file
`posts/p.md` exists (both stat and read succeed) but whose Markdown
conversion fails, the live response is the 404 "Post not found", not a
500-class response as claimed. -/
theorem markdownFailureGives404 :
    onePostFs.stat "posts/p.md" = .ok ⟨7⟩ ∧
    onePostFs.readFile "posts/p.md" = .ok "content" ∧
    badMdEnv.mdConvert "content" = .error "boom" ∧
    PostHandler badMdEnv onePostFs "/post/p" = httpError 404 "Post not found" ∧
    (PostHandler badMdEnv onePostFs "/post/p").status = 404 ∧
    (PostHandler badMdEnv onePostFs "/post/p").status ≠ 500 := by
  refine ⟨rfl, rfl, rfl, rfl, rfl, by decide⟩

/-- C8: a successful static generation writes the home page at
`index.html` under the output root, and exactly one write per Markdown
file enumerated from the primary and from the secondary content directory,
each at `post/<slug>/index.html` under the output root (after the fixed
`about.html` and `thoughts.html` pages). -/
theorem staticSiteWrites (env : Env) (fs : FS) (outputDir : String)
    (ws : List (String × String))
    (h : GenerateStaticSite env fs outputDir = .value ws) :
    ws.map Prod.fst =
      [pathJoin outputDir "index.html", pathJoin outputDir "about.html",
       pathJoin outputDir "thoughts.html"] ++
      (fs.glob "posts/*.md" ++ fs.glob "thoughts/*.md").map
        (fun f => pathJoin outputDir (pathJoin "post" (pathJoin (genSlug f) "index.html"))) ∧
    (pathJoin outputDir "index.html", (HomeHandler env fs).body) ∈ ws := by
  cases ha : AboutHandler env fs with
  | panicked m => simp [GenerateStaticSite, ha] at h
  | value resp =>
    simp only [GenerateStaticSite, ha] at h
    cases h
    constructor
    · simp [generatePage, List.map_append, Function.comp_def]
    · simp [generatePage]

/-- Witness for `staticSiteWrites`: one post with slug `hello-world`
generates `public/post/hello-world/index.html`, and `public/index.html`
holds the home page. -/
theorem staticSiteWritesWitness :
    GenerateStaticSite okEnv helloFs "public" =
      .value [("public/index.html", "Home"), ("public/about.html", "hello"),
              ("public/thoughts.html", "Thoughts"),
              ("public/post/hello-world/index.html", "hello")] ∧
    [("public/index.html", "Home"), ("public/about.html", "hello"),
     ("public/thoughts.html", "Thoughts"),
     ("public/post/hello-world/index.html", "hello")].map Prod.fst =
      [pathJoin "public" "index.html", pathJoin "public" "about.html",
       pathJoin "public" "thoughts.html"] ++
      (helloFs.glob "posts/*.md" ++ helloFs.glob "thoughts/*.md").map
        (fun f => pathJoin "public" (pathJoin "post" (pathJoin (genSlug f) "index.html"))) :=
  ⟨rfl,
   (staticSiteWrites okEnv helloFs "public"
     [("public/index.html", "Home"), ("public/about.html", "hello"),
      ("public/thoughts.html", "Thoughts"),
      ("public/post/hello-world/index.html", "hello")] rfl).1⟩

/-- Helper for C9: applying a write sequence over any base store equals
applying it over the empty store, falling back to the base only at paths
the sequence never writes. -/
theorem applyWrites_shift (l : List (String × String)) :
    ∀ (σ : Store) (p : String),
      applyWrites σ l p =
        match applyWrites (fun _ => none) l p with
        | some v => some v
        | none => σ p := by
  induction l with
  | nil => intro σ p; simp [applyWrites]
  | cons w rest ih =>
    intro σ p
    show applyWrites (fun q => if q = w.1 then some w.2 else σ q) rest p = _
    rw [ih (fun q => if q = w.1 then some w.2 else σ q) p]
    conv_rhs =>
      rw [show applyWrites (fun _ => none) (w :: rest) =
        applyWrites (fun q => if q = w.1 then some w.2 else none) rest from rfl]
    rw [ih (fun q => if q = w.1 then some w.2 else none) p]
    cases hb : applyWrites (fun _ => none) rest p with
    | some v => simp
    | none =>
      by_cases hp : p = w.1 <;> simp [hp]

/-- C9: static generation is deterministic — rerunning it with unchanged
inputs produces the same write sequence, whose bytes do not depend on the
output tree — so applying the writes of a successful run a second time
leaves the output tree byte-identical (idempotence). -/
theorem staticSiteIdempotent (env : Env) (fs : FS) (outputDir : String)
    (ws : List (String × String)) (σ : Store)
    (_h : GenerateStaticSite env fs outputDir = .value ws) :
    applyWrites (applyWrites σ ws) ws = applyWrites σ ws := by
  funext p
  rw [applyWrites_shift ws (applyWrites σ ws) p, applyWrites_shift ws σ p]
  cases hb : applyWrites (fun _ => none) ws p with
  | some v => rfl
  | none => rfl

/-- Witness for `staticSiteIdempotent` at `okEnv`/`helloFs` over the empty
output tree. -/
theorem staticSiteIdempotentWitness :
    GenerateStaticSite okEnv helloFs "public" =
      .value [("public/index.html", "Home"), ("public/about.html", "hello"),
              ("public/thoughts.html", "Thoughts"),
              ("public/post/hello-world/index.html", "hello")] ∧
    applyWrites
      (applyWrites (fun _ => none)
        [("public/index.html", "Home"), ("public/about.html", "hello"),
         ("public/thoughts.html", "Thoughts"),
         ("public/post/hello-world/index.html", "hello")])
      [("public/index.html", "Home"), ("public/about.html", "hello"),
       ("public/thoughts.html", "Thoughts"),
       ("public/post/hello-world/index.html", "hello")] =
    applyWrites (fun _ => none)
      [("public/index.html", "Home"), ("public/about.html", "hello"),
       ("public/thoughts.html", "Thoughts"),
       ("public/post/hello-world/index.html", "hello")] :=
  ⟨rfl,
   staticSiteIdempotent okEnv helloFs "public" _ (fun _ => none) rfl⟩

/-! ## Permutation facts for the `sort.Slice` model -/

/-- Helper: consing the element at position `m` onto the list updated at
`m` permutes consing the new value onto the original list. -/
theorem set_cons_perm [Inhabited α] :
    ∀ (t : List α) (m : Nat) (hm : m < t.length) (a : α),
      (t.get ⟨m, hm⟩ :: t.set m a).Perm (a :: t) := by
  intro t
  induction t with
  | nil => intro m hm; exact absurd hm (by simp)
  | cons b t2 ih =>
    intro m hm a
    cases m with
    | zero => exact List.Perm.swap a b t2
    | succ k =>
      have hk : k < t2.length := by simpa using hm
      show (t2.get ⟨k, hk⟩ :: b :: t2.set k a).Perm (a :: b :: t2)
      have h1 : (t2.get ⟨k, hk⟩ :: b :: t2.set k a).Perm
          (b :: t2.get ⟨k, hk⟩ :: t2.set k a) := List.Perm.swap _ _ _
      have h2 : (b :: t2.get ⟨k, hk⟩ :: t2.set k a).Perm (b :: a :: t2) :=
        (ih k hk a).cons b
      have h3 : (b :: a :: t2).Perm (a :: b :: t2) := List.Perm.swap _ _ _
      exact (h1.trans h2).trans h3

/-- Helper: simultaneously writing each of two in-range positions with the
other's element permutes the list. -/
theorem set_set_perm [Inhabited α] :
    ∀ (l : List α) (i j : Nat) (hi : i < l.length) (hj : j < l.length),
      ((l.set i (l.get ⟨j, hj⟩)).set j (l.get ⟨i, hi⟩)).Perm l := by
  intro l
  induction l with
  | nil => intro i j hi _; exact absurd hi (by simp)
  | cons a t ih =>
    intro i j hi hj
    cases i with
    | zero =>
      cases j with
      | zero => simp
      | succ m =>
        have hm : m < t.length := by simpa using hj
        show (t.get ⟨m, hm⟩ :: t.set m a).Perm (a :: t)
        exact set_cons_perm t m hm a
    | succ k =>
      have hk : k < t.length := by simpa using hi
      cases j with
      | zero =>
        show (t.get ⟨k, hk⟩ :: t.set k a).Perm (a :: t)
        exact set_cons_perm t k hk a
      | succ m =>
        have hm : m < t.length := by simpa using hj
        show (a :: (t.set k (t.get ⟨m, hm⟩)).set m (t.get ⟨k, hk⟩)).Perm (a :: t)
        exact (ih k m hk hm).cons a

/-- Helper: `getN` at an in-range index is `List.get`. -/
theorem getN_eq_get [Inhabited α] (l : List α) (i : Nat) (h : i < l.length) :
    getN l i = l.get ⟨i, h⟩ := by
  simp [getN, List.getD_eq_getElem?_getD, List.getElem?_eq_getElem h]

/-- A `data.Swap` permutes the slice. -/
theorem swapL_perm [Inhabited α] (l : List α) (i j : Nat) :
    (swapL l i j).Perm l := by
  unfold swapL
  split
  case isTrue h =>
    obtain ⟨hi, hj⟩ := h
    rw [getN_eq_get l j hj, getN_eq_get l i hi]
    exact set_set_perm l i j hi hj
  case isFalse => exact List.Perm.refl l

/-- The insertion-sort inner loop permutes the slice. -/
theorem insertLoop_perm [Inhabited α] (less : α → α → Bool) (a : Nat) :
    ∀ (j : Nat) (l : List α), (insertLoop less a j l).Perm l := by
  intro j
  induction j with
  | zero => intro l; exact List.Perm.refl l
  | succ j ih =>
    intro l
    simp only [insertLoop]
    split
    · split
      · exact (ih _).trans (swapL_perm l (j + 1) j)
      · exact List.Perm.refl l
    · exact List.Perm.refl l

/-- The insertion-sort outer loop permutes the slice. -/
theorem insertionOuter_perm [Inhabited α] (less : α → α → Bool) (a b : Nat) :
    ∀ (fuel i : Nat) (l : List α), (insertionOuter less a b fuel i l).Perm l := by
  intro fuel
  induction fuel with
  | zero => intro i l; exact List.Perm.refl l
  | succ fuel ih =>
    intro i l
    simp only [insertionOuter]
    split
    · exact (ih _ _).trans (insertLoop_perm less a i l)
    · exact List.Perm.refl l

/-- `insertionSort_func` permutes the slice. -/
theorem insertionSortGo_perm [Inhabited α] (less : α → α → Bool) (a b : Nat)
    (l : List α) : (insertionSortGo less a b l).Perm l :=
  insertionOuter_perm less a b (b - a) (a + 1) l

/-- `siftDown_func` permutes the slice. -/
theorem siftDownGo_perm [Inhabited α] (less : α → α → Bool) (first hi : Nat) :
    ∀ (fuel root : Nat) (l : List α), (siftDownGo less first hi fuel root l).Perm l := by
  intro fuel
  induction fuel with
  | zero => intro root l; exact List.Perm.refl l
  | succ fuel ih =>
    intro root l
    simp only [siftDownGo]
    split
    · exact List.Perm.refl l
    · split
      · split
        · exact (ih _ _).trans (swapL_perm l _ _)
        · exact List.Perm.refl l
      · split
        · exact (ih _ _).trans (swapL_perm l _ _)
        · exact List.Perm.refl l

/-- The heap-building loop permutes the slice. -/
theorem heapBuildLoop_perm [Inhabited α] (less : α → α → Bool) (first hi : Nat) :
    ∀ (c : Nat) (l : List α), (heapBuildLoop less first hi c l).Perm l := by
  intro c
  induction c with
  | zero => intro l; exact List.Perm.refl l
  | succ c ih =>
    intro l
    exact (ih _).trans (siftDownGo_perm less first hi hi c l)

/-- The heap pop loop permutes the slice. -/
theorem heapPopLoop_perm [Inhabited α] (less : α → α → Bool) (first : Nat) :
    ∀ (c : Nat) (l : List α), (heapPopLoop less first c l).Perm l := by
  intro c
  induction c with
  | zero => intro l; exact List.Perm.refl l
  | succ c ih =>
    intro l
    exact (ih _).trans ((siftDownGo_perm less first c (c + 1) 0 _).trans
      (swapL_perm l first (first + c)))

/-- `heapSort_func` permutes the slice. -/
theorem heapSortGo_perm [Inhabited α] (less : α → α → Bool) (l : List α)
    (a b : Nat) : (heapSortGo less l a b).Perm l :=
  (heapPopLoop_perm less a (b - a) _).trans
    (heapBuildLoop_perm less a (b - a) ((b - a - 1) / 2 + 1) l)

/-- The range-reversal loop permutes the slice. -/
theorem revLoop_perm [Inhabited α] :
    ∀ (fuel i j : Nat) (l : List α), (revLoop fuel i j l : List α).Perm l := by
  intro fuel
  induction fuel with
  | zero => intro i j l; exact List.Perm.refl l
  | succ fuel ih =>
    intro i j l
    simp only [revLoop]
    split
    · exact (ih _ _ _).trans (swapL_perm l i j)
    · exact List.Perm.refl l

/-- `reverseRange_func` permutes the slice. -/
theorem reverseRangeGo_perm [Inhabited α] (l : List α) (a b : Nat) :
    (reverseRangeGo l a b).Perm l :=
  revLoop_perm (b - a) a (b - 1) l

/-- `breakPatterns_func` permutes the slice. -/
theorem breakPatternsGo_perm [Inhabited α] (l : List α) (a b : Nat) :
    (breakPatternsGo l a b).Perm l := by
  simp only [breakPatternsGo]
  split
  · exact (swapL_perm _ _ _).trans ((swapL_perm _ _ _).trans (swapL_perm _ _ _))
  · exact List.Perm.refl l

/-- The leftward shift loop of the partial insertion sort permutes the
slice. -/
theorem limShiftLeft_perm [Inhabited α] (less : α → α → Bool) :
    ∀ (j : Nat) (l : List α), (limShiftLeft less j l).Perm l := by
  intro j
  induction j with
  | zero => intro l; exact List.Perm.refl l
  | succ j ih =>
    intro l
    simp only [limShiftLeft]
    split
    · exact (ih _).trans (swapL_perm l (j + 1) j)
    · exact List.Perm.refl l

/-- The rightward shift loop of the partial insertion sort permutes the
slice. -/
theorem limShiftRight_perm [Inhabited α] (less : α → α → Bool) (b : Nat) :
    ∀ (fuel j : Nat) (l : List α), (limShiftRight less b fuel j l).Perm l := by
  intro fuel
  induction fuel with
  | zero => intro j l; exact List.Perm.refl l
  | succ fuel ih =>
    intro j l
    simp only [limShiftRight]
    split
    · split
      · exact (ih _ _).trans (swapL_perm l j (j - 1))
      · exact List.Perm.refl l
    · exact List.Perm.refl l

/-- The step loop of the partial insertion sort permutes the slice. -/
theorem limSteps_perm [Inhabited α] (less : α → α → Bool) (a b : Nat) :
    ∀ (steps i : Nat) (l : List α), (limSteps less a b steps i l).1.Perm l := by
  intro steps
  induction steps with
  | zero => intro i l; exact List.Perm.refl l
  | succ steps ih =>
    intro i l
    simp only [limSteps]
    split
    · exact List.Perm.refl l
    · split
      · exact List.Perm.refl l
      · generalize limScan less b (b - i) i l = i2
        have h2 : (swapL l i2 (i2 - 1)).Perm l := swapL_perm l i2 (i2 - 1)
        generalize hl2 : swapL l i2 (i2 - 1) = l2 at h2 ⊢
        have h3 : (if 2 ≤ i2 - a then limShiftLeft less (i2 - 1) l2 else l2).Perm l := by
          split
          · exact (limShiftLeft_perm less _ _).trans h2
          · exact h2
        generalize hl3 : (if 2 ≤ i2 - a then limShiftLeft less (i2 - 1) l2 else l2) = l3
          at h3 ⊢
        have h4 : (if 2 ≤ b - i2 then limShiftRight less b (b - i2) (i2 + 1) l3 else l3).Perm
            l := by
          split
          · exact (limShiftRight_perm less b _ _ _).trans h3
          · exact h3
        generalize hl4 : (if 2 ≤ b - i2 then limShiftRight less b (b - i2) (i2 + 1) l3 else l3)
          = l4 at h4 ⊢
        exact (ih i2 l4).trans h4

/-- `partialInsertionSort_func` permutes the slice. -/
theorem partialInsSortGo_perm [Inhabited α] (less : α → α → Bool) (a b : Nat)
    (l : List α) : (partialInsSortGo less a b l).1.Perm l :=
  limSteps_perm less a b 5 (a + 1) l

/-- The main partition loop permutes the slice. -/
theorem partitionLoop_perm [Inhabited α] (less : α → α → Bool) (a b : Nat) :
    ∀ (fuel i j : Nat) (l : List α), (partitionLoop less a b fuel i j l).1.Perm l := by
  intro fuel
  induction fuel with
  | zero => intro i j l; exact List.Perm.refl l
  | succ fuel ih =>
    intro i j l
    simp only [partitionLoop]
    split
    · exact List.Perm.refl l
    · exact (ih _ _ _).trans (swapL_perm l _ _)

/-- `partition_func` permutes the slice. -/
theorem partitionGo_perm [Inhabited α] (less : α → α → Bool) (l : List α)
    (a b pivot : Nat) : (partitionGo less l a b pivot).1.Perm l := by
  simp only [partitionGo]
  split
  · exact (swapL_perm _ _ _).trans (swapL_perm l a pivot)
  · exact (swapL_perm _ _ _).trans ((partitionLoop_perm less a b b _ _ _).trans
      ((swapL_perm _ _ _).trans (swapL_perm l a pivot)))

/-- The equal-partition loop permutes the slice. -/
theorem partitionEqualLoop_perm [Inhabited α] (less : α → α → Bool) (p b : Nat) :
    ∀ (fuel i j : Nat) (l : List α),
      (partitionEqualLoop less p b fuel i j l).1.Perm l := by
  intro fuel
  induction fuel with
  | zero => intro i j l; exact List.Perm.refl l
  | succ fuel ih =>
    intro i j l
    simp only [partitionEqualLoop]
    split
    · exact List.Perm.refl l
    · exact (ih _ _ _).trans (swapL_perm l _ _)

/-- `partitionEqual_func` permutes the slice. -/
theorem partitionEqualGo_perm [Inhabited α] (less : α → α → Bool) (l : List α)
    (a b pivot : Nat) : (partitionEqualGo less l a b pivot).1.Perm l :=
  (partitionEqualLoop_perm less a b b _ _ _).trans (swapL_perm l a pivot)

/-- The post-partition recursion tail permutes the slice, given that the
recursive call does. -/
theorem pdqPartitioned_perm [Inhabited α] (less : α → α → Bool)
    (recur : List α → Nat → Nat → Nat → Bool → Bool → List α)
    (hrec : ∀ l a b limit wb wp, (recur l a b limit wb wp).Perm l)
    (a b limit length : Nat) (pr : List α × Nat × Bool) :
    (pdqPartitioned less recur a b limit length pr).Perm pr.1 := by
  simp only [pdqPartitioned]
  split
  · exact (hrec _ _ _ _ _ _).trans (hrec _ _ _ _ _ _)
  · exact (hrec _ _ _ _ _ _).trans (hrec _ _ _ _ _ _)

/-- The stage after the partial insertion sort permutes the slice, given
that the recursive call does. -/
theorem pdqTried_perm [Inhabited α] (less : α → α → Bool)
    (recur : List α → Nat → Nat → Nat → Bool → Bool → List α)
    (hrec : ∀ l a b limit wb wp, (recur l a b limit wb wp).Perm l)
    (a b limit : Nat) (wb wp : Bool) (pivot : Nat) (tried : List α × Bool) :
    (pdqTried less recur a b limit wb wp pivot tried).Perm tried.1 := by
  simp only [pdqTried]
  split
  · exact List.Perm.refl _
  · split
    · exact (hrec _ _ _ _ _ _).trans (partitionEqualGo_perm less tried.1 a b pivot)
    · exact (pdqPartitioned_perm less recur hrec a b limit (b - a) _).trans
        (partitionGo_perm less tried.1 a b pivot)

/-- The stage after the hint-driven reversal permutes the slice, given
that the recursive call does. -/
theorem pdqTurned_perm [Inhabited α] (less : α → α → Bool)
    (recur : List α → Nat → Nat → Nat → Bool → Bool → List α)
    (hrec : ∀ l a b limit wb wp, (recur l a b limit wb wp).Perm l)
    (a b limit : Nat) (wb wp : Bool) (turned : List α × Nat × SortHint) :
    (pdqTurned less recur a b limit wb wp turned).Perm turned.1 := by
  simp only [pdqTurned]
  refine (pdqTried_perm less recur hrec a b limit wb wp turned.2.1 _).trans ?_
  split
  · exact partialInsSortGo_perm less a b turned.1
  · exact List.Perm.refl _

/-- The staged pipeline permutes the slice, given that the recursive call
does. -/
theorem pdqStaged_perm [Inhabited α] (less : α → α → Bool)
    (recur : List α → Nat → Nat → Nat → Bool → Bool → List α)
    (hrec : ∀ l a b limit wb wp, (recur l a b limit wb wp).Perm l)
    (a b : Nat) (wb wp : Bool) (stage : List α × Nat) :
    (pdqStaged less recur a b wb wp stage).Perm stage.1 := by
  simp only [pdqStaged]
  refine (pdqTurned_perm less recur hrec a b stage.2 wb wp _).trans ?_
  split
  · exact reverseRangeGo_perm stage.1 a b
  · exact List.Perm.refl _

/-- `pdqsort_func` permutes the slice. -/
theorem pdqsortGo_perm [Inhabited α] (less : α → α → Bool) :
    ∀ (fuel : Nat) (l : List α) (a b limit : Nat) (wb wp : Bool),
      (pdqsortGo less fuel l a b limit wb wp).Perm l := by
  intro fuel
  induction fuel with
  | zero => intro l a b limit wb wp; exact List.Perm.refl l
  | succ fuel ih =>
    intro l a b limit wb wp
    simp only [pdqsortGo]
    split
    · exact insertionSortGo_perm less a b l
    · split
      · exact heapSortGo_perm less l a b
      · refine (pdqStaged_perm less (pdqsortGo less fuel) ih a b wb wp _).trans ?_
        split
        · exact breakPatternsGo_perm l a b
        · exact List.Perm.refl l

/-- `sort.Slice` permutes the slice. -/
theorem sortSliceGo_perm [Inhabited α] (less : α → α → Bool) (l : List α) :
    (sortSliceGo less l).Perm l :=
  pdqsortGo_perm less (l.length + 1) l 0 l.length (bitsLen l.length) true true

/-! ## The small-slice (insertion sort) regime of `sort.Slice` -/

/-- `getN` on a cons at a successor index. -/
theorem getN_cons_succ [Inhabited α] (a : α) (t : List α) (i : Nat) :
    getN (a :: t) (i + 1) = getN t i := by
  simp [getN]

/-- `swapL` on a cons at successor indices. -/
theorem swapL_cons [Inhabited α] (a : α) (t : List α) (i j : Nat) :
    swapL (a :: t) (i + 1) (j + 1) = a :: swapL t i j := by
  unfold swapL
  by_cases hi : i < t.length
  · by_cases hj : j < t.length
    · rw [if_pos (by simp; omega), if_pos ⟨hi, hj⟩]
      simp [getN_cons_succ]
    · rw [if_neg (by simp; omega), if_neg (by omega)]
  · rw [if_neg (by simp; omega), if_neg (by omega)]

/-- `getN` past a prefix reads from the suffix. -/
theorem getN_append [Inhabited α] :
    ∀ (A l : List α) (k : Nat), getN (A ++ l) (A.length + k) = getN l k := by
  intro A
  induction A with
  | nil => intro l k; simp
  | cons a A ih =>
    intro l k
    show getN (a :: (A ++ l)) (A.length + 1 + k) = getN l k
    rw [show A.length + 1 + k = (A.length + k) + 1 by omega, getN_cons_succ]
    exact ih l k

/-- Swapping the two elements straddling a prefix boundary. -/
theorem swapL_adjacent [Inhabited α] :
    ∀ (P : List α) (y x : α) (S : List α),
      swapL (P ++ y :: x :: S) (P.length + 1) P.length = P ++ x :: y :: S := by
  intro P
  induction P with
  | nil =>
    intro y x S
    show swapL (y :: x :: S) 1 0 = x :: y :: S
    unfold swapL
    rw [if_pos (by constructor <;> simp)]
    show ((y :: x :: S).set 1 (getN (y :: x :: S) 0)).set 0 (getN (y :: x :: S) 1)
      = x :: y :: S
    simp [getN]
  | cons p P ih =>
    intro y x S
    show swapL (p :: (P ++ y :: x :: S)) (P.length + 1 + 1) (P.length + 1)
      = p :: (P ++ x :: y :: S)
    rw [swapL_cons, ih]

/-- The insertion-sort inner loop, started at the boundary position of
`x`, realises the reversed-prefix stable insert `insRev`. -/
theorem insertLoop_eq (x : PostData) :
    ∀ (A B : List PostData),
      insertLoop goLess 0 A.length (A ++ x :: B) = (insRev x A.reverse).reverse ++ B := by
  intro A
  induction A using List.reverseRecOn with
  | nil => intro B; simp [insertLoop, insRev]
  | append_singleton A2 y ih =>
    intro B
    have hlen : (A2 ++ [y]).length = A2.length + 1 := by simp
    have hlist : (A2 ++ [y]) ++ x :: B = A2 ++ y :: x :: B := by simp
    rw [hlen, hlist]
    simp only [insertLoop]
    rw [if_pos (Nat.succ_pos A2.length)]
    have hx : getN (A2 ++ y :: x :: B) (A2.length + 1) = x := by
      rw [getN_append A2 (y :: x :: B) 1]; rfl
    have hy : getN (A2 ++ y :: x :: B) A2.length = y := by
      rw [show A2.length = A2.length + 0 by omega, getN_append A2 (y :: x :: B) 0]; rfl
    rw [hx, hy]
    by_cases hxy : goLess x y
    · rw [if_pos hxy, swapL_adjacent A2 y x B, ih (y :: B)]
      rw [List.reverse_append]
      show _ = (insRev x (y :: A2.reverse)).reverse ++ B
      rw [show insRev x (y :: A2.reverse) = y :: insRev x A2.reverse by
        simp [insRev, hxy]]
      simp
    · rw [if_neg hxy]
      rw [List.reverse_append]
      show _ = (insRev x (y :: A2.reverse)).reverse ++ B
      rw [show insRev x (y :: A2.reverse) = x :: y :: A2.reverse by
        simp [insRev, hxy]]
      simp

/-- Length of a reversed-prefix insert. -/
theorem insRev_length (x : PostData) :
    ∀ rP : List PostData, (insRev x rP).length = rP.length + 1 := by
  intro rP
  induction rP with
  | nil => rfl
  | cons y ys ih =>
    simp only [insRev]
    split
    · simp [ih]
    · simp

/-- Length of an outer insertion step. -/
theorem insStep_length (P : List PostData) (x : PostData) :
    (insStep P x).length = P.length + 1 := by
  simp [insStep, insRev_length]

/-- The insertion-sort outer loop realises the fold of outer insertion
steps over the unprocessed suffix. -/
theorem insertionOuter_eq :
    ∀ (todo P : List PostData) (fuel : Nat), todo.length ≤ fuel →
      insertionOuter goLess 0 (P.length + todo.length) fuel P.length (P ++ todo) =
        insFold P todo := by
  intro todo
  induction todo with
  | nil =>
    intro P fuel _
    cases fuel with
    | zero => simp [insertionOuter, insFold]
    | succ f =>
      simp only [insertionOuter, insFold]
      rw [if_neg (by simp)]
      simp
  | cons x rest ih =>
    intro P fuel hfuel
    cases fuel with
    | zero => exact absurd hfuel (by simp)
    | succ f =>
      have hf : rest.length ≤ f := by simpa using hfuel
      simp only [insertionOuter]
      rw [if_pos (by simp only [List.length_cons]; omega)]
      have hil : insertLoop goLess 0 P.length (P ++ x :: rest) = insStep P x ++ rest :=
        insertLoop_eq x P rest
      rw [hil]
      have h1 : P.length + 1 = (insStep P x).length := (insStep_length P x).symm
      have h2 : P.length + (x :: rest).length = (insStep P x).length + rest.length := by
        rw [insStep_length]
        simp only [List.length_cons]
        omega
      rw [h1, h2, ih (insStep P x) f hf]
      rfl

/-- `insertionSort_func` over the whole slice is the list-level stable
insertion sort. -/
theorem insertionSortGo_eq (l : List PostData) :
    insertionSortGo goLess 0 l.length l = insFold [] l := by
  cases l with
  | nil => rfl
  | cons x rest =>
    have key := insertionOuter_eq rest [x] ((x :: rest).length - 0) (by simp)
    have hb : ([x] : List PostData).length + rest.length = (x :: rest).length := by
      simp only [List.length_cons, List.length_nil]
      omega
    rw [hb] at key
    have hstep : insFold [] (x :: rest) = insFold [x] rest := rfl
    rw [hstep]
    exact key

/-- A reversed-prefix insert permutes consing the element. -/
theorem insRev_perm (x : PostData) :
    ∀ rP : List PostData, (insRev x rP).Perm (x :: rP) := by
  intro rP
  induction rP with
  | nil => exact List.Perm.refl [x]
  | cons y ys ih =>
    simp only [insRev]
    split
    · exact (ih.cons y).trans (List.Perm.swap x y ys)
    · exact List.Perm.refl _

/-- A reversed-prefix insert preserves date-ascending pairwise order. -/
theorem insRev_pairwise (x : PostData) :
    ∀ rP : List PostData, rP.Pairwise (fun u v => u.Date ≤ v.Date) →
      (insRev x rP).Pairwise (fun u v => u.Date ≤ v.Date) := by
  intro rP
  induction rP with
  | nil => intro _; simp [insRev]
  | cons y ys ih =>
    intro h
    rw [List.pairwise_cons] at h
    obtain ⟨hy, hys⟩ := h
    simp only [insRev]
    split
    case isTrue hlt =>
      have hxy : y.Date ≤ x.Date := le_of_lt (by simpa [goLess] using hlt)
      rw [List.pairwise_cons]
      refine ⟨?_, ih hys⟩
      intro z hz
      rcases List.mem_cons.mp (((insRev_perm x ys).mem_iff).mp hz) with hz | hz
      · exact hz ▸ hxy
      · exact hy z hz
    case isFalse hge =>
      have hxy : x.Date ≤ y.Date := Nat.not_lt.mp (by simpa [goLess] using hge)
      rw [List.pairwise_cons]
      refine ⟨?_, by rw [List.pairwise_cons]; exact ⟨hy, hys⟩⟩
      intro z hz
      rcases List.mem_cons.mp hz with hz | hz
      · exact hz ▸ hxy
      · exact le_trans hxy (hy z hz)

/-- A reversed-prefix insert of an element carrying the filtered date
prepends it to the filtered subsequence (every element it moves past has a
strictly smaller date). -/
theorem insRev_filter_eqd (x : PostData) (d : GoTime) (hx : x.Date = d) :
    ∀ rP : List PostData,
      (insRev x rP).filter (fun p => p.Date == d) =
        x :: rP.filter (fun p => p.Date == d) := by
  intro rP
  induction rP with
  | nil => simp [insRev, hx]
  | cons y ys ih =>
    simp only [insRev]
    split
    case isTrue hlt =>
      have hlt2 : y.Date < x.Date := by simpa [goLess] using hlt
      have hne : y.Date ≠ d := by
        intro h
        rw [h, ← hx] at hlt2
        exact lt_irrefl _ hlt2
      have hyd : (y.Date == d) = false := by simpa using hne
      simp [List.filter_cons, hyd, ih]
    case isFalse hge =>
      simp [List.filter_cons, hx]

/-- A reversed-prefix insert of an element not carrying the filtered date
leaves the filtered subsequence unchanged. -/
theorem insRev_filter_ned (x : PostData) (d : GoTime) (hx : x.Date ≠ d) :
    ∀ rP : List PostData,
      (insRev x rP).filter (fun p => p.Date == d) =
        rP.filter (fun p => p.Date == d) := by
  intro rP
  induction rP with
  | nil => simp [insRev, hx]
  | cons y ys ih =>
    simp only [insRev]
    split
    · simp [List.filter_cons, ih]
    · simp [List.filter_cons, hx]

/-- An outer insertion step permutes consing the element. -/
theorem insStep_perm (P : List PostData) (x : PostData) :
    (insStep P x).Perm (x :: P) :=
  ((List.reverse_perm _).trans (insRev_perm x P.reverse)).trans
    ((List.reverse_perm P).cons x)

/-- An outer insertion step preserves date-descending sortedness. -/
theorem insStep_sorted (P : List PostData) (x : PostData) (h : SortedD P) :
    SortedD (insStep P x) := by
  have hrev : P.reverse.Pairwise (fun u v => u.Date ≤ v.Date) := by
    rw [List.pairwise_reverse]
    exact h
  have hins := insRev_pairwise x P.reverse hrev
  show (insRev x P.reverse).reverse.Pairwise (fun u v => v.Date ≤ u.Date)
  rw [List.pairwise_reverse]
  exact hins

/-- An outer insertion step appends the element to the filtered
subsequence of its date and leaves every other date's subsequence
unchanged: uniformly, filtering the step equals filtering `P ++ [x]`. -/
theorem insStep_filter (P : List PostData) (x : PostData) (d : GoTime) :
    (insStep P x).filter (fun p => p.Date == d) =
      (P ++ [x]).filter (fun p => p.Date == d) := by
  show (insRev x P.reverse).reverse.filter (fun p => p.Date == d) = _
  rw [List.filter_reverse]
  by_cases hx : x.Date = d
  · rw [insRev_filter_eqd x d hx P.reverse]
    rw [List.filter_append]
    simp [List.filter_reverse, hx]
  · rw [insRev_filter_ned x d hx P.reverse]
    rw [List.filter_append]
    simp [List.filter_reverse, hx]

/-- The fold of outer insertion steps sorts, permutes, and preserves each
date's subsequence, given a sorted processed prefix. -/
theorem insFold_props :
    ∀ (todo P : List PostData), SortedD P →
      SortedD (insFold P todo) ∧ (insFold P todo).Perm (P ++ todo) ∧
      ∀ d, (insFold P todo).filter (fun p => p.Date == d) =
        (P ++ todo).filter (fun p => p.Date == d) := by
  intro todo
  induction todo with
  | nil => intro P hP; exact ⟨hP, by simp [insFold], by simp [insFold]⟩
  | cons x rest ih =>
    intro P hP
    have hP2 : SortedD (insStep P x) := insStep_sorted P x hP
    obtain ⟨hs, hperm, hfil⟩ := ih (insStep P x) hP2
    refine ⟨hs, ?_, ?_⟩
    · refine hperm.trans ?_
      refine ((insStep_perm P x).append_right rest).trans ?_
      exact List.perm_middle.symm
    · intro d
      show List.filter (fun p => p.Date == d) (insFold (insStep P x) rest) =
        List.filter (fun p => p.Date == d) (P ++ x :: rest)
      rw [hfil d, List.filter_append, insStep_filter P x d, List.filter_append,
        List.filter_append, List.append_assoc]
      congr 1
      simp only [List.filter_cons, List.filter_nil]
      split <;> simp

/-- Below thirteen records, `sort.Slice` is exactly the stable insertion
sort. -/
theorem sortSlicePosts_small (ps : List PostData) (h : ps.length ≤ 12) :
    sortSlicePosts ps = insFold [] ps := by
  show pdqsortGo goLess (ps.length + 1) ps 0 ps.length (bitsLen ps.length) true true
    = insFold [] ps
  simp only [pdqsortGo]
  rw [if_pos (by simpa using h)]
  exact insertionSortGo_eq ps

/-- C1 counterexample: thirteen loaded records (the smallest count past
the insertion-sort regime) on which `sort.Slice` reorders equal-date
records: eleven records share date 2, and the subsequence of date-2
records after sorting starts with `t7` and ends with `t2`, while before
sorting it runs `t2 … t12`; so e.g. the pair (`t2`, `t12`) and the pair
(`t3`, `t7`) each flip their relative order, refuting stability (the
output remains a permutation sorted by date descending: `t13` first, `t1`
last). -/
theorem sortSliceUnstable13 :
    (filterDate 2 cex13).map PostData.Title =
      ["t2", "t3", "t4", "t5", "t6", "t7", "t8", "t9", "t10", "t11", "t12"] ∧
    (filterDate 2 (sortSlicePosts cex13)).map PostData.Title =
      ["t7", "t3", "t4", "t5", "t6", "t8", "t9", "t10", "t11", "t12", "t2"] ∧
    (filterDate 2 (sortSlicePosts cex13)).map PostData.Title ≠
      (filterDate 2 cex13).map PostData.Title := by
  refine ⟨by decide, by decide, by decide⟩

/-! ## Index infrastructure for the `sort.Slice` sortedness proof -/

/-- Reading an updated position. -/
theorem getN_set_eq [Inhabited α] :
    ∀ (l : List α) (m : Nat) (v : α), m < l.length → getN (l.set m v) m = v := by
  intro l
  induction l with
  | nil => intro m v h; exact absurd h (by simp)
  | cons x t ih =>
    intro m v h
    cases m with
    | zero => simp [getN]
    | succ k =>
      show getN (x :: t.set k v) (k + 1) = v
      rw [getN_cons_succ]
      exact ih k v (by simpa using h)

/-- Reading a position other than the updated one. -/
theorem getN_set_ne [Inhabited α] :
    ∀ (l : List α) (m k : Nat) (v : α), m ≠ k → getN (l.set m v) k = getN l k := by
  intro l
  induction l with
  | nil => intro m k v _; rfl
  | cons x t ih =>
    intro m k v h
    cases m with
    | zero =>
      cases k with
      | zero => exact absurd rfl h
      | succ k2 => simp [getN]
    | succ m2 =>
      cases k with
      | zero => simp [getN]
      | succ k2 =>
        show getN (x :: t.set m2 v) (k2 + 1) = getN (x :: t) (k2 + 1)
        rw [getN_cons_succ, getN_cons_succ]
        exact ih m2 k2 v (by omega)

/-- A swap preserves the length. -/
theorem swapL_length [Inhabited α] (l : List α) (i j : Nat) :
    (swapL l i j).length = l.length := by
  unfold swapL
  split <;> simp

/-- Reading the first swapped position. -/
theorem getN_swapL_fst [Inhabited α] (l : List α) (i j : Nat)
    (hi : i < l.length) (hj : j < l.length) :
    getN (swapL l i j) i = getN l j := by
  unfold swapL
  rw [if_pos ⟨hi, hj⟩]
  by_cases hij : j = i
  · subst hij
    rw [getN_set_eq _ j _ (by simpa using hj)]
  · rw [getN_set_ne _ j i _ hij, getN_set_eq _ i _ hi]

/-- Reading the second swapped position. -/
theorem getN_swapL_snd [Inhabited α] (l : List α) (i j : Nat)
    (hi : i < l.length) (hj : j < l.length) :
    getN (swapL l i j) j = getN l i := by
  unfold swapL
  rw [if_pos ⟨hi, hj⟩]
  rw [getN_set_eq _ j _ (by simpa using hj)]

/-- Reading a position away from both swapped ones. -/
theorem getN_swapL_other [Inhabited α] (l : List α) (i j k : Nat)
    (hk1 : k ≠ i) (hk2 : k ≠ j) :
    getN (swapL l i j) k = getN l k := by
  unfold swapL
  split
  · rw [getN_set_ne _ j k _ (by omega), getN_set_ne _ i k _ (by omega)]
  · rfl

/-- Reading inside the prefix of an append. -/
theorem getN_append_left [Inhabited α] :
    ∀ (A l : List α) (k : Nat), k < A.length → getN (A ++ l) k = getN A k := by
  intro A
  induction A with
  | nil => intro l k h; exact absurd h (by simp)
  | cons x t ih =>
    intro l k h
    cases k with
    | zero => simp [getN]
    | succ k2 =>
      show getN (x :: (t ++ l)) (k2 + 1) = getN (x :: t) (k2 + 1)
      rw [getN_cons_succ, getN_cons_succ]
      exact ih l k2 (by simpa using h)

/-- Three-part decomposition of a list around a window. -/
theorem seg_decomp (l : List PostData) (a b : Nat) (hab : a ≤ b) (_hb : b ≤ l.length) :
    l = l.take a ++ segOf l a b ++ l.drop b := by
  conv_lhs => rw [← List.take_append_drop a l]
  rw [List.append_assoc]
  congr 1
  conv_lhs => rw [← List.take_append_drop (b - a) (l.drop a)]
  congr 1
  rw [List.drop_drop]
  congr 1
  omega

/-- Length of the window prefix. -/
theorem take_length_of_le (l : List PostData) (a : Nat) (h : a ≤ l.length) :
    (l.take a).length = a := by
  simp [List.length_take]
  omega

/-- Length of the window slice. -/
theorem segOf_length (l : List PostData) (a b : Nat) (_hab : a ≤ b) (hb : b ≤ l.length) :
    (segOf l a b).length = b - a := by
  simp [segOf, List.length_take, List.length_drop]
  omega

/-- Reading a window position via the window slice. -/
theorem getN_segOf (l : List PostData) (a b k : Nat) (hab : a ≤ b) (hb : b ≤ l.length)
    (h1 : a ≤ k) (h2 : k < b) :
    getN l k = getN (segOf l a b) (k - a) := by
  have htk : (l.take a).length = a := take_length_of_le l a (by omega)
  have h3 : getN l k = getN (l.take a ++ (segOf l a b ++ l.drop b)) k := by
    rw [← List.append_assoc, ← seg_decomp l a b hab hb]
  rw [h3]
  have h4 : k = (l.take a).length + (k - a) := by omega
  conv_lhs => rw [h4]
  rw [getN_append]
  exact getN_append_left _ _ _ (by rw [segOf_length l a b hab hb]; omega)

/-- Helper: `getN` at an in-range index as `getElem`. -/
theorem getN_eq_getElem [Inhabited α] (l : List α) (i : Nat) (h : i < l.length) :
    getN l i = l[i] := by
  rw [getN_eq_get l i h, List.get_eq_getElem]

/-- Two lists that are permutations of each other and agree outside a
window have permuted window slices. -/
theorem segOf_perm (l r : List PostData) (a b : Nat)
    (hperm : r.Perm l) (hf : FrameOut l r a b) (hab : a ≤ b) (hb : b ≤ l.length) :
    (segOf r a b).Perm (segOf l a b) := by
  have hlen : r.length = l.length := hperm.length_eq
  have htake : r.take a = l.take a := by
    apply List.ext_getElem
    · simp [hlen]
    · intro i h1 h2
      have hia : i < a := by simp at h1; omega
      rw [List.getElem_take, List.getElem_take]
      have hgl : getN r i = getN l i := hf i (Or.inl hia)
      rw [getN_eq_getElem r i (by omega), getN_eq_getElem l i (by omega)] at hgl
      exact hgl
  have hdrop : r.drop b = l.drop b := by
    apply List.ext_getElem
    · simp [hlen]
    · intro i h1 h2
      rw [List.getElem_drop, List.getElem_drop]
      have hgl : getN r (b + i) = getN l (b + i) := hf (b + i) (Or.inr (by omega))
      rw [getN_eq_getElem r (b + i) (by simp at h1; omega),
        getN_eq_getElem l (b + i) (by simp at h2; omega)] at hgl
      exact hgl
  have hrdec := seg_decomp r a b hab (by omega)
  have hldec := seg_decomp l a b hab hb
  rw [hrdec, hldec, htake, hdrop] at hperm
  refine List.perm_iff_count.mpr (fun x => ?_)
  have hx := hperm.count_eq x
  simp only [List.count_append] at hx
  omega

/-- Every value in the window of `r` already occurs in the window of `l`,
under permutation plus frame agreement. -/
theorem seg_value_surj (l r : List PostData) (a b : Nat)
    (hperm : r.Perm l) (hf : FrameOut l r a b) (hab : a ≤ b) (hb : b ≤ l.length) :
    ∀ k, a ≤ k → k < b → ∃ k0, a ≤ k0 ∧ k0 < b ∧ getN l k0 = getN r k := by
  intro k h1 h2
  have hlen : r.length = l.length := hperm.length_eq
  have hsp := segOf_perm l r a b hperm hf hab hb
  have hsl : (segOf l a b).length = b - a := segOf_length l a b hab hb
  have hsr : (segOf r a b).length = b - a := segOf_length r a b hab (by omega)
  have hmem : getN r k ∈ segOf r a b := by
    rw [getN_segOf r a b k hab (by omega) h1 h2]
    have hlt : k - a < (segOf r a b).length := by omega
    rw [getN_eq_get _ _ hlt]
    exact List.get_mem _ _ _
  have hmem2 : getN r k ∈ segOf l a b := hsp.mem_iff.mp hmem
  obtain ⟨i, hi⟩ := List.mem_iff_get.mp hmem2
  have hilen : i.1 < b - a := by have h5 := i.2; omega
  refine ⟨a + i.1, by omega, by omega, ?_⟩
  rw [getN_segOf l a b (a + i.1) hab hb (by omega) (by omega)]
  rw [show a + i.1 - a = i.1 by omega]
  rw [getN_eq_get _ _ (by omega)]
  exact hi

/-- An upper date bound on a window survives permutation plus frame
agreement. -/
theorem segLe_transfer (l r : List PostData) (a b : Nat) (d : Nat)
    (hperm : r.Perm l) (hf : FrameOut l r a b) (hab : a ≤ b) (hb : b ≤ l.length)
    (h : SegLe l a b d) : SegLe r a b d := by
  intro k h1 h2
  obtain ⟨k0, hk1, hk2, hk3⟩ := seg_value_surj l r a b hperm hf hab hb k h1 h2
  rw [← hk3]
  exact h k0 hk1 hk2

/-- A strict lower date bound on a window survives permutation plus frame
agreement. -/
theorem segLt_transfer (l r : List PostData) (a b : Nat) (d : Nat)
    (hperm : r.Perm l) (hf : FrameOut l r a b) (hab : a ≤ b) (hb : b ≤ l.length)
    (h : SegLt l a b d) : SegLt r a b d := by
  intro k h1 h2
  obtain ⟨k0, hk1, hk2, hk3⟩ := seg_value_surj l r a b hperm hf hab hb k h1 h2
  rw [← hk3]
  exact h k0 hk1 hk2

/-- An exact date value on a window survives permutation plus frame
agreement. -/
theorem segEq_transfer (l r : List PostData) (a b : Nat) (d : Nat)
    (hperm : r.Perm l) (hf : FrameOut l r a b) (hab : a ≤ b) (hb : b ≤ l.length)
    (h : SegEq l a b d) : SegEq r a b d := by
  intro k h1 h2
  obtain ⟨k0, hk1, hk2, hk3⟩ := seg_value_surj l r a b hperm hf hab hb k h1 h2
  rw [← hk3]
  exact h k0 hk1 hk2

/-- The former-pivot lower-bound invariant survives permutation plus frame
agreement of the window. -/
theorem lbOK_transfer (l r : List PostData) (a b : Nat)
    (hperm : r.Perm l) (hf : FrameOut l r a b) (hab : a ≤ b) (hb : b ≤ l.length)
    (h : LbOK l a b) : LbOK r a b := by
  intro ha k h1 h2
  have hlb : getN r (a - 1) = getN l (a - 1) := hf (a - 1) (Or.inl (by omega))
  rw [hlb]
  obtain ⟨k0, hk1, hk2, hk3⟩ := seg_value_surj l r a b hperm hf hab hb k h1 h2
  rw [← hk3]
  exact h ha k0 hk1 hk2

/-- Index form of list-level date-descending sortedness. -/
theorem sortedD_getN (m : List PostData) (hm : SortedD m) :
    ∀ i j, i < j → j < m.length → (getN m j).Date ≤ (getN m i).Date := by
  intro i j hij hj
  rw [getN_eq_get m j hj, getN_eq_get m i (by omega)]
  have h := List.pairwise_iff_get.mp hm ⟨i, by omega⟩ ⟨j, hj⟩ hij
  exact h

/-- A window whose slice is date-descending sorted is segment-sorted. -/
theorem sortedSeg_of_segOf (l : List PostData) (a b : Nat)
    (hab : a ≤ b) (hb : b ≤ l.length) (h : SortedD (segOf l a b)) :
    SortedSeg l a b := by
  intro i j h1 h2 h3
  rw [getN_segOf l a b i hab hb h1 (by omega), getN_segOf l a b j hab hb (by omega) h3]
  have hsl : (segOf l a b).length = b - a := segOf_length l a b hab hb
  exact sortedD_getN _ h (i - a) (j - a) (by omega) (by omega)

/-- A fully segment-sorted list is date-descending sorted. -/
theorem sortedD_of_sortedSeg (l : List PostData) (h : SortedSeg l 0 l.length) :
    SortedD l := by
  rw [SortedD, List.pairwise_iff_get]
  intro i j hij
  have := h i.1 j.1 (by omega) hij j.2
  rwa [getN_eq_get l j.1 j.2, getN_eq_get l i.1 i.2] at this

/-- Adjacent-pair order on a window gives full segment order. -/
theorem sortedSeg_of_adjSeg (l : List PostData) (a b : Nat) (h : AdjSeg l a b) :
    SortedSeg l a b := by
  intro i j h1 h2 h3
  induction j with
  | zero => omega
  | succ j2 ih =>
    have hstep : (getN l (j2 + 1)).Date ≤ (getN l j2).Date := by
      have := h (j2 + 1) (by omega) h3
      simpa using this
    rcases Nat.lt_or_ge i j2 with hc | hc
    · exact le_trans hstep (ih hc (by omega))
    · have hij : i = j2 := by omega
      rw [hij]
      exact hstep

/-- Segment order restricted to a sub-window. -/
theorem sortedSeg_mono (l : List PostData) (a b a2 b2 : Nat)
    (h : SortedSeg l a b) (h1 : a ≤ a2) (h2 : b2 ≤ b) : SortedSeg l a2 b2 := by
  intro i j hi hij hj
  exact h i j (by omega) hij (by omega)

/-- Segment order transported along frame agreement on the window's
complement is irrelevant; this lemma transports it along agreement ON the
window. -/
theorem sortedSeg_congr (l r : List PostData) (a b : Nat)
    (h : SortedSeg l a b) (hag : ∀ k, a ≤ k → k < b → getN r k = getN l k) :
    SortedSeg r a b := by
  intro i j hi hij hj
  rw [hag i hi (by omega), hag j (by omega) hj]
  exact h i j hi hij hj

/-- Reading past a dropped prefix. -/
theorem getN_drop [Inhabited α] (l : List α) (b m : Nat) :
    getN (l.drop b) m = getN l (b + m) := by
  simp [getN, List.getD_eq_getElem?_getD, List.getElem?_drop]

/-- Reading inside a taken prefix. -/
theorem getN_take [Inhabited α] (l : List α) (a k : Nat) (h : k < a) :
    getN (l.take a) k = getN l k := by
  by_cases hk : k < l.length
  · rw [getN_eq_getElem _ k (by simp; omega), getN_eq_getElem l k hk]
    exact List.getElem_take l  -- placeholder, fixed below if name differs
  · have h1 : l.length ≤ k := by omega
    have h2 : (l.take a).length ≤ k := by simp [List.length_take]; omega
    simp [getN, List.getD_eq_getElem?_getD, List.getElem?_eq_none h1,
      List.getElem?_eq_none h2]

/-- A swap shifted past a common prefix. -/
theorem swapL_append [Inhabited α] :
    ∀ (pre l : List α) (i j : Nat),
      swapL (pre ++ l) (pre.length + i) (pre.length + j) = pre ++ swapL l i j := by
  intro pre
  induction pre with
  | nil => intro l i j; simp
  | cons p rest ih =>
    intro l i j
    show swapL (p :: (rest ++ l)) (rest.length + 1 + i) (rest.length + 1 + j) = _
    rw [show rest.length + 1 + i = (rest.length + i) + 1 by omega,
      show rest.length + 1 + j = (rest.length + j) + 1 by omega,
      swapL_cons, ih]
    rfl

/-- The insertion inner loop shifted past a common prefix. -/
theorem insertLoop_shift [Inhabited α] (less : α → α → Bool) :
    ∀ (m : Nat) (pre l : List α),
      insertLoop less pre.length (pre.length + m) (pre ++ l) =
        pre ++ insertLoop less 0 m l := by
  intro m
  induction m with
  | zero =>
    intro pre l
    rw [Nat.add_zero]
    cases hp : pre.length with
    | zero => simp [insertLoop]
    | succ k =>
      show insertLoop less (k + 1) (k + 1) (pre ++ l) = pre ++ insertLoop less 0 0 l
      simp only [insertLoop]
      rw [if_neg (lt_irrefl (k + 1))]
  | succ m ih =>
    intro pre l
    show insertLoop less pre.length (pre.length + m + 1) (pre ++ l) = _
    simp only [insertLoop]
    rw [if_pos (show pre.length < pre.length + m + 1 by omega)]
    rw [if_pos (Nat.succ_pos m)]
    rw [show pre.length + m + 1 = pre.length + (m + 1) by omega, getN_append,
      getN_append pre l m]
    by_cases hxy : less (getN l (m + 1)) (getN l m)
    · rw [if_pos hxy, if_pos hxy]
      rw [show pre.length + (m + 1) = pre.length + (m + 1) from rfl,
        swapL_append pre l (m + 1) m]
      exact ih pre (swapL l (m + 1) m)
    · rw [if_neg hxy, if_neg hxy]

/-- The insertion outer loop shifted past a common prefix. -/
theorem insertionOuter_shift [Inhabited α] (less : α → α → Bool) (n : Nat) :
    ∀ (fuel i : Nat) (pre l : List α),
      insertionOuter less pre.length (pre.length + n) fuel (pre.length + i) (pre ++ l) =
        pre ++ insertionOuter less 0 n fuel i l := by
  intro fuel
  induction fuel with
  | zero => intro i pre l; rfl
  | succ fuel ih =>
    intro i pre l
    simp only [insertionOuter]
    by_cases hin : i < n
    · rw [if_pos (by omega), if_pos hin]
      rw [insertLoop_shift less i pre l]
      rw [show pre.length + i + 1 = pre.length + (i + 1) by omega]
      exact ih (i + 1) pre (insertLoop less 0 i l)
    · rw [if_neg (by omega), if_neg hin]

/-- The suffix-aware form of the outer-loop fold equation: positions past
the sort bound are never touched. -/
theorem insertionOuter_eq_suf :
    ∀ (todo P suf : List PostData) (fuel : Nat), todo.length ≤ fuel →
      insertionOuter goLess 0 (P.length + todo.length) fuel P.length
        (P ++ (todo ++ suf)) = (insFold P todo ++ suf) := by
  intro todo
  induction todo with
  | nil =>
    intro P suf fuel _
    cases fuel with
    | zero => simp [insertionOuter, insFold]
    | succ f =>
      simp only [insertionOuter, insFold]
      rw [if_neg (by simp)]
      simp
  | cons x rest ih =>
    intro P suf fuel hfuel
    cases fuel with
    | zero => exact absurd hfuel (by simp)
    | succ f =>
      have hf : rest.length ≤ f := by simpa using hfuel
      simp only [insertionOuter]
      rw [if_pos (by simp only [List.length_cons]; omega)]
      have hassoc : P ++ ((x :: rest) ++ suf) = P ++ x :: (rest ++ suf) := by simp
      rw [hassoc, insertLoop_eq x P (rest ++ suf)]
      have h1 : P.length + 1 = (insStep P x).length := (insStep_length P x).symm
      have h2 : P.length + (x :: rest).length = (insStep P x).length + rest.length := by
        rw [insStep_length]
        simp only [List.length_cons]
        omega
      have hre : (insRev x P.reverse).reverse ++ (rest ++ suf) =
          insStep P x ++ (rest ++ suf) := rfl
      rw [hre, h1, h2, ih (insStep P x) suf f hf]
      rfl

/-- `insertionSort_func` acts only on its window: on a decomposed list it
replaces the window slice by its stable insertion sort. -/
theorem insertionSortGo_localize :
    ∀ (pre mid suf : List PostData),
      insertionSortGo goLess pre.length (pre.length + mid.length) (pre ++ (mid ++ suf)) =
        pre ++ (insFold [] mid ++ suf) := by
  intro pre mid suf
  show insertionOuter goLess pre.length (pre.length + mid.length)
    (pre.length + mid.length - pre.length) (pre.length + 1) (pre ++ (mid ++ suf)) = _
  rw [show pre.length + mid.length - pre.length = mid.length by omega]
  rw [insertionOuter_shift goLess mid.length mid.length 1 pre (mid ++ suf)]
  congr 1
  cases mid with
  | nil =>
    cases hfm : (0 : Nat) with
    | zero => simp [insertionOuter, insFold]
    | succ k => simp [insertionOuter, insFold]
  | cons x rest =>
    have key := insertionOuter_eq_suf rest [x] suf ((x :: rest).length) (by simp)
    have hb : ([x] : List PostData).length + rest.length = (x :: rest).length := by
      simp only [List.length_cons, List.length_nil]
      omega
    rw [hb] at key
    have hstep : insFold [] (x :: rest) ++ suf = insFold [x] rest ++ suf := rfl
    rw [hstep]
    exact key

/-- Reading a window position of an explicitly decomposed list. -/
theorem getN_decomp (r pre mid suf : List PostData) (a k : Nat)
    (hr : r = pre ++ (mid ++ suf)) (ha : pre.length = a)
    (h1 : a ≤ k) (h2 : k < a + mid.length) :
    getN r k = getN mid (k - a) := by
  subst hr
  rw [show k = pre.length + (k - a) by omega, getN_append]
  rw [show pre.length + (k - a) - a = k - a by omega]
  exact getN_append_left mid suf (k - a) (by omega)

/-- Frame agreement between two lists decomposed over the same window
complement. -/
theorem frameOut_of_decomp (l r : List PostData) (a b : Nat)
    (mid mid2 : List PostData)
    (hl : l = l.take a ++ (mid ++ l.drop b))
    (hr : r = l.take a ++ (mid2 ++ l.drop b))
    (ha : a ≤ l.length) (_hm : mid.length = b - a) (hm2 : mid2.length = b - a)
    (_hab : a ≤ b) :
    FrameOut l r a b := by
  have htl : (l.take a).length = a := take_length_of_le l a ha
  intro k hk
  rcases hk with hk | hk
  · have e1 : getN r k = getN (l.take a) k := by
      conv_lhs => rw [hr]
      exact getN_append_left _ _ k (by omega)
    have e2 : getN l k = getN (l.take a) k := by
      conv_lhs => rw [hl]
      exact getN_append_left _ _ k (by omega)
    rw [e1, e2]
  · have hlen2 : (l.take a ++ mid2).length = b := by
      simp only [List.length_append, htl, hm2]
      omega
    have e1 : getN r k = getN (l.drop b) (k - b) := by
      conv_lhs => rw [hr, ← List.append_assoc]
      conv_lhs => rw [show k = (l.take a ++ mid2).length + (k - b) from by rw [hlen2]; omega]
      rw [getN_append]
    have e2 : getN l k = getN (l.drop b) (k - b) := by
      rw [getN_drop]
      congr 1
      omega
    rw [e1, e2]

/-- Segment sortedness of an explicitly decomposed list with a sorted
window slice. -/
theorem sortedSeg_of_decompD (r pre mid suf : List PostData) (a b : Nat)
    (hr : r = pre ++ (mid ++ suf)) (ha : pre.length = a)
    (hb : a + mid.length = b) (hm : SortedD mid) :
    SortedSeg r a b := by
  intro i j h1 h2 h3
  rw [getN_decomp r pre mid suf a i hr ha h1 (by omega),
    getN_decomp r pre mid suf a j hr ha (by omega) (by omega)]
  exact sortedD_getN mid hm (i - a) (j - a) (by omega) (by omega)

/-- Full window specification of `insertionSort_func`: the result is the
stable insertion sort of the window slice in place, hence segment-sorted,
a permutation, and frame-preserving. -/
theorem insertionSortGo_spec (l : List PostData) (a b : Nat)
    (hab : a ≤ b) (hb : b ≤ l.length) :
    SortedSeg (insertionSortGo goLess a b l) a b ∧
      FrameOut l (insertionSortGo goLess a b l) a b := by
  have hdec := seg_decomp l a b hab hb
  have htl : (l.take a).length = a := take_length_of_le l a (by omega)
  have hsl : (segOf l a b).length = b - a := segOf_length l a b hab hb
  have hloc : insertionSortGo goLess a b l =
      l.take a ++ (insFold [] (segOf l a b) ++ l.drop b) := by
    conv_lhs => rw [hdec]
    rw [List.append_assoc]
    have := insertionSortGo_localize (l.take a) (segOf l a b) (l.drop b)
    rw [htl, hsl] at this
    rw [show a + (b - a) = b by omega] at this
    exact this
  obtain ⟨hsrt, hperm, _⟩ := insFold_props (segOf l a b) [] (by simp [SortedD])
  constructor
  · exact sortedSeg_of_decompD _ _ _ _ a b hloc htl
      (by have := hperm.length_eq; simp at this; omega) hsrt
  · exact frameOut_of_decomp l _ a b (segOf l a b) (insFold [] (segOf l a b))
      (by rw [List.append_assoc] at hdec; exact hdec) hloc (by omega) hsl
      (by have := hperm.length_eq; simp at this; omega) hab

/-- Setting the position right after a prefix. -/
theorem set_append_length [Inhabited α] :
    ∀ (A : List α) (y : α) (S : List α) (v : α),
      (A ++ y :: S).set A.length v = A ++ v :: S := by
  intro A
  induction A with
  | nil => intro y S v; rfl
  | cons x t ih =>
    intro y S v
    show x :: (t ++ y :: S).set t.length v = x :: (t ++ v :: S)
    rw [ih]

/-- Swapping the two end positions of an inner window. -/
theorem swapL_ends [Inhabited α] :
    ∀ (pre : List α) (x : α) (mid2 : List α) (y : α) (suf : List α),
      swapL (pre ++ x :: (mid2 ++ y :: suf)) pre.length (pre.length + mid2.length + 1)
        = pre ++ y :: (mid2 ++ x :: suf) := by
  intro pre
  induction pre with
  | nil =>
    intro x mid2 y suf
    simp only [List.nil_append, List.length_nil, Nat.zero_add]
    unfold swapL
    rw [if_pos (And.intro (by simp)
      (by simp only [List.length_cons, List.length_append]; omega))]
    have hy : getN (x :: (mid2 ++ y :: suf)) (mid2.length + 1) = y := by
      rw [getN_cons_succ]
      rw [show mid2.length = mid2.length + 0 by omega, getN_append]
      rfl
    have hx : getN (x :: (mid2 ++ y :: suf)) 0 = x := rfl
    rw [hy, hx]
    show y :: (mid2 ++ y :: suf).set mid2.length x = y :: (mid2 ++ x :: suf)
    rw [set_append_length]
  | cons p rest ih =>
    intro x mid2 y suf
    show swapL (p :: (rest ++ x :: (mid2 ++ y :: suf))) (rest.length + 1)
      (rest.length + 1 + mid2.length + 1) = p :: (rest ++ y :: (mid2 ++ x :: suf))
    rw [show rest.length + 1 + mid2.length + 1 = (rest.length + mid2.length + 1) + 1
      by omega]
    rw [swapL_cons, ih]

/-- The reversal loop acts only on its window. -/
theorem revLoop_localize [Inhabited α] :
    ∀ (fuel : Nat) (pre mid suf : List α), mid.length ≤ fuel →
      revLoop fuel pre.length (pre.length + mid.length - 1) (pre ++ (mid ++ suf)) =
        pre ++ (mid.reverse ++ suf) := by
  intro fuel
  induction fuel with
  | zero =>
    intro pre mid suf hf
    have hm : mid = [] := List.length_eq_zero.mp (by omega)
    subst hm
    rfl
  | succ fuel ih =>
    intro pre mid suf hf
    cases mid with
    | nil =>
      show revLoop (fuel + 1) pre.length (pre.length + 0 - 1) (pre ++ ([] ++ suf)) = _
      simp only [revLoop]
      rw [if_neg (by omega)]
      rfl
    | cons x rest =>
      induction rest using List.reverseRecOn with
      | nil =>
        show revLoop (fuel + 1) pre.length (pre.length + 1 - 1) (pre ++ ([x] ++ suf)) = _
        simp only [revLoop]
        rw [if_neg (by omega)]
        rfl
      | append_singleton mid2 y _ =>
        have hlen : (x :: (mid2 ++ [y])).length = mid2.length + 2 := by simp
        rw [hlen]
        have hli : pre ++ ((x :: (mid2 ++ [y])) ++ suf) = pre ++ x :: (mid2 ++ y :: suf) := by
          simp
        rw [hli]
        simp only [revLoop]
        rw [if_pos (by omega)]
        rw [show pre.length + (mid2.length + 2) - 1 = pre.length + mid2.length + 1 by omega]
        rw [swapL_ends]
        have hre : pre ++ y :: (mid2 ++ x :: suf) = (pre ++ [y]) ++ (mid2 ++ (x :: suf)) := by
          simp
        rw [hre]
        have hih := ih (pre ++ [y]) mid2 (x :: suf)
          (by simp only [List.length_cons, List.length_append, List.length_nil] at hf; omega)
        rw [show (pre ++ [y]).length = pre.length + 1 by simp] at hih
        rw [show pre.length + 1 + mid2.length - 1 = pre.length + mid2.length by omega] at hih
        rw [show pre.length + mid2.length + 1 - 1 = pre.length + mid2.length by omega]
        rw [hih]
        simp

/-- `reverseRange_func` acts only on its window and reverses its slice. -/
theorem reverseRangeGo_localize [Inhabited α] (pre mid suf : List α) :
    reverseRangeGo (pre ++ (mid ++ suf)) pre.length (pre.length + mid.length) =
      pre ++ (mid.reverse ++ suf) := by
  show revLoop (pre.length + mid.length - pre.length) pre.length
    (pre.length + mid.length - 1) (pre ++ (mid ++ suf)) = _
  rw [show pre.length + mid.length - pre.length = mid.length by omega]
  exact revLoop_localize mid.length pre mid suf (le_refl _)

/-- `reverseRange_func` agrees with its input outside the window. -/
theorem reverseRangeGo_frame (l : List PostData) (a b : Nat)
    (hab : a ≤ b) (hb : b ≤ l.length) :
    FrameOut l (reverseRangeGo l a b) a b := by
  have hdec := seg_decomp l a b hab hb
  have htl : (l.take a).length = a := take_length_of_le l a (by omega)
  have hsl : (segOf l a b).length = b - a := segOf_length l a b hab hb
  have hloc : reverseRangeGo l a b = l.take a ++ ((segOf l a b).reverse ++ l.drop b) := by
    conv_lhs => rw [hdec, List.append_assoc]
    have := reverseRangeGo_localize (l.take a) (segOf l a b) (l.drop b)
    rw [htl, hsl, show a + (b - a) = b by omega] at this
    exact this
  exact frameOut_of_decomp l _ a b (segOf l a b) ((segOf l a b).reverse)
    (by rw [List.append_assoc] at hdec; exact hdec) hloc (by omega) hsl
    (by simp [hsl]) hab

/-- The pattern-breaking random pick stays inside the window length. -/
theorem breakPick_lt (r len modulus : Nat) (hlen : 0 < len)
    (hmod : modulus ≤ 2 * len) : breakPick r len modulus < len := by
  unfold breakPick
  dsimp only
  have ho : r &&& (modulus - 1) ≤ modulus - 1 := Nat.and_le_right
  split <;> omega

/-- The pattern-breaking modulus is at most twice the window length. -/
theorem breakPatterns_modulus_le (len : Nat) (h : 0 < len) :
    1 <<< bitsLen len ≤ 2 * len := by
  rw [Nat.shiftLeft_eq, Nat.one_mul]
  unfold bitsLen
  rw [if_neg (by omega)]
  rw [Nat.pow_succ]
  have := Nat.log2_self_le (n := len) (by omega)
  omega

/-- `breakPatterns_func` agrees with its input outside the window. -/
theorem breakPatternsGo_frame (l : List PostData) (a b : Nat) (_hb : b ≤ l.length) :
    FrameOut l (breakPatternsGo l a b) a b := by
  unfold breakPatternsGo
  dsimp only
  split
  case isFalse => intro k _; rfl
  case isTrue h8 =>
    intro k hk
    have hmod : 1 <<< bitsLen (b - a) ≤ 2 * (b - a) :=
      breakPatterns_modulus_le (b - a) (by omega)
    have hp1 := breakPick_lt (xorshiftStep (b - a)) (b - a) (1 <<< bitsLen (b - a))
      (by omega) hmod
    have hp2 := breakPick_lt (xorshiftStep (xorshiftStep (b - a))) (b - a)
      (1 <<< bitsLen (b - a)) (by omega) hmod
    have hp3 := breakPick_lt (xorshiftStep (xorshiftStep (xorshiftStep (b - a))))
      (b - a) (1 <<< bitsLen (b - a)) (by omega) hmod
    rw [getN_swapL_other _ _ _ _ (by omega) (by omega),
      getN_swapL_other _ _ _ _ (by omega) (by omega),
      getN_swapL_other _ _ _ _ (by omega) (by omega)]

/-- `data.Less(i, j)` in date terms. -/
theorem goLess_iff (p q : PostData) : goLess p q = true ↔ q.Date < p.Date := by
  simp [goLess]

/-- Negated `data.Less(i, j)` in date terms. -/
theorem goLess_false_iff (p q : PostData) : goLess p q = false ↔ p.Date ≤ q.Date := by
  simp [goLess]

/-- A slot's descendants are at least the slot. -/
theorem desc_ge {r q : Nat} (h : Desc r q) : r ≤ q := by
  induction h with
  | refl => exact le_refl r
  | left _ ih => omega
  | right _ ih => omega

/-- A proper descendant is at least the first child. -/
theorem desc_lower {r q : Nat} (h : Desc r q) : q = r ∨ 2 * r + 1 ≤ q := by
  induction h with
  | refl => exact Or.inl rfl
  | left _ ih => rcases ih with h2 | h2 <;> omega
  | right _ ih => rcases ih with h2 | h2 <;> omega

/-- Descendants compose. -/
theorem desc_trans {r s q : Nat} (h1 : Desc r s) (h2 : Desc s q) : Desc r q := by
  induction h2 with
  | refl => exact h1
  | left _ ih => exact Desc.left ih
  | right _ ih => exact Desc.right ih

/-- A proper descendant is a child of some descendant. -/
theorem desc_step_back {d q : Nat} (h : Desc d q) (hne : q ≠ d) :
    ∃ p, Desc d p ∧ (q = 2 * p + 1 ∨ q = 2 * p + 2) := by
  cases h with
  | refl => exact absurd rfl hne
  | left h2 => exact ⟨_, h2, Or.inl rfl⟩
  | right h2 => exact ⟨_, h2, Or.inr rfl⟩

/-- Every slot is a descendant of slot `0`. -/
theorem desc_zero : ∀ k, Desc 0 k := by
  intro k
  induction k using Nat.strong_induction_on with
  | _ k ih =>
    match k with
    | 0 => exact Desc.refl 0
    | k + 1 =>
      have hp : k + 1 = 2 * (k / 2) + 1 ∨ k + 1 = 2 * (k / 2) + 2 := by omega
      rcases hp with hp | hp
      · rw [hp]; exact Desc.left (ih (k / 2) (by omega))
      · rw [hp]; exact Desc.right (ih (k / 2) (by omega))

/-- In a heap ordered from parents `r0` on, a slot at least `r0` bounds
its whole subtree's dates from below. -/
theorem heap_desc_bound (l : List PostData) (first hi r0 s : Nat)
    (hh : HeapBelow l first hi r0) (hs : r0 ≤ s) :
    ∀ q, Desc s q → q < hi →
      (getN l (first + s)).Date ≤ (getN l (first + q)).Date := by
  intro q hd
  induction hd with
  | refl => intro _; exact le_refl _
  | left h ih =>
    rename_i q1
    intro hq
    have hq1 : q1 < hi := by omega
    exact le_trans (ih hq1)
      (hh q1 (2 * q1 + 1) (le_trans hs (desc_ge h)) hq (Or.inl rfl))
  | right h ih =>
    rename_i q1
    intro hq
    have hq1 : q1 < hi := by omega
    exact le_trans (ih hq1)
      (hh q1 (2 * q1 + 2) (le_trans hs (desc_ge h)) hq (Or.inr rfl))

/-- `siftDown_func` agrees with its input outside the heap window. -/
theorem siftDownGo_frame (first hi : Nat) :
    ∀ (fuel root : Nat) (l : List PostData) (k : Nat),
      k < first ∨ first + hi ≤ k →
      getN (siftDownGo goLess first hi fuel root l) k = getN l k := by
  intro fuel
  induction fuel with
  | zero => intro root l k _; rfl
  | succ fuel ih =>
    intro root l k hk
    rw [siftDownGo]
    dsimp only
    split
    · rfl
    · rename_i h1
      split
      · rename_i hsel
        have hand := (Bool.and_eq_true _ _).mp hsel
        have hch : 2 * root + 1 + 1 < hi := of_decide_eq_true hand.1
        split
        · rw [ih _ _ k hk]
          exact getN_swapL_other _ _ _ _ (by omega) (by omega)
        · rfl
      · split
        · rw [ih _ _ k hk]
          exact getN_swapL_other _ _ _ _ (by omega) (by omega)
        · rfl

/-- One swap-and-recurse step of `siftDown_func`, given the inductive
hypothesis for the remaining fuel and that `cch` is the minimal-date child
of `root` and strictly smaller in date than it. -/
theorem siftDown_swap_step (first hi fuel root cch : Nat) (l : List PostData)
    (ih : ∀ (root : Nat) (l : List PostData), hi ≤ fuel + root →
      first + hi ≤ l.length → HeapBelow l first hi (root + 1) →
      HeapBelow (siftDownGo goLess first hi fuel root l) first hi root ∧
        (∀ k, (∀ q, Desc root q → k ≠ first + q) →
          getN (siftDownGo goLess first hi fuel root l) k = getN l k) ∧
        (∃ q, Desc root q ∧ (q = root ∨ q < hi) ∧
          getN (siftDownGo goLess first hi fuel root l) (first + root) =
            getN l (first + q)))
    (hfe : hi ≤ fuel + 1 + root) (hlen : first + hi ≤ l.length)
    (hh : HeapBelow l first hi (root + 1))
    (hc1 : 2 * root + 1 ≤ cch) (hc2 : cch ≤ 2 * root + 2) (hchi : cch < hi)
    (hless : goLess (getN l (first + root)) (getN l (first + cch)) = true)
    (hmin1 : (getN l (first + cch)).Date ≤ (getN l (first + (2 * root + 1))).Date)
    (hmin2 : 2 * root + 2 < hi →
      (getN l (first + cch)).Date ≤ (getN l (first + (2 * root + 2))).Date) :
    HeapBelow (siftDownGo goLess first hi fuel cch
        (swapL l (first + root) (first + cch))) first hi root ∧
      (∀ k, (∀ q, Desc root q → k ≠ first + q) →
        getN (siftDownGo goLess first hi fuel cch
          (swapL l (first + root) (first + cch))) k = getN l k) ∧
      (∃ q, Desc root q ∧ (q = root ∨ q < hi) ∧
        getN (siftDownGo goLess first hi fuel cch
          (swapL l (first + root) (first + cch))) (first + root) =
            getN l (first + q)) := by
  have hdrc : Desc root cch := by
    rcases (show cch = 2 * root + 1 ∨ cch = 2 * root + 2 by omega) with h | h
    · rw [h]; exact Desc.left (Desc.refl root)
    · rw [h]; exact Desc.right (Desc.refl root)
  have hlen1 : first + hi ≤ (swapL l (first + root) (first + cch)).length := by
    rw [swapL_length]; exact hlen
  have hhb1 : HeapBelow (swapL l (first + root) (first + cch)) first hi (cch + 1) := by
    intro p c hp hc hcc
    have hcp : 2 * p + 1 ≤ c := by rcases hcc with h | h <;> omega
    have e1 : getN (swapL l (first + root) (first + cch)) (first + p) = getN l (first + p) :=
      getN_swapL_other _ _ _ _ (by omega) (by omega)
    have e2 : getN (swapL l (first + root) (first + cch)) (first + c) = getN l (first + c) :=
      getN_swapL_other _ _ _ _ (by omega) (by omega)
    rw [e1, e2]
    exact hh p c (by omega) hc hcc
  obtain ⟨ihH, ihF, q0, hq0d, hq0b, hq0v⟩ := ih cch (swapL l (first + root) (first + cch))
    (by omega) hlen1 hhb1
  have hroot_lt : first + root < l.length := by omega
  have hcch_lt : first + cch < l.length := by omega
  have hv_root : getN (swapL l (first + root) (first + cch)) (first + root) =
      getN l (first + cch) := getN_swapL_fst _ _ _ hroot_lt hcch_lt
  have hv_cch : getN (swapL l (first + root) (first + cch)) (first + cch) =
      getN l (first + root) := getN_swapL_snd _ _ _ hroot_lt hcch_lt
  have hfr_root : getN (siftDownGo goLess first hi fuel cch
      (swapL l (first + root) (first + cch))) (first + root) =
      getN (swapL l (first + root) (first + cch)) (first + root) := by
    refine ihF (first + root) (fun q hq => ?_)
    have := desc_ge hq
    omega
  have hres_root : getN (siftDownGo goLess first hi fuel cch
      (swapL l (first + root) (first + cch))) (first + root) = getN l (first + cch) := by
    rw [hfr_root, hv_root]
  refine ⟨?_, ?_, ⟨cch, hdrc, Or.inr hchi, hres_root⟩⟩
  · -- heap order from the root on
    intro p c hp hc hcc
    by_cases hpc : cch ≤ p
    · exact ihH p c hpc hc hcc
    · push_neg at hpc
      rcases Nat.eq_or_lt_of_le hp with hpe | hpl
      · -- p = root
        subst hpe
        rw [hres_root]
        by_cases hceq : c = cch
        · subst hceq
          rw [hq0v]
          by_cases hq0e : q0 = c
          · subst hq0e
            rw [hv_cch]
            exact le_of_lt ((goLess_iff _ _).mp hless)
          · have hq0hi : q0 < hi := by
              rcases hq0b with h | h
              · exact absurd h hq0e
              · exact h
            have hge := desc_ge hq0d
            have e3 : getN (swapL l (first + root) (first + c)) (first + q0) =
                getN l (first + q0) :=
              getN_swapL_other _ _ _ _ (by omega) (by omega)
            rw [e3]
            exact heap_desc_bound l first hi (root + 1) c hh (by omega) q0 hq0d hq0hi
        · -- the other child of the root: untouched, bounded by minimality
          have hcge : 2 * root + 1 ≤ c := by rcases hcc with h | h <;> omega
          have hcle : c ≤ 2 * root + 2 := by rcases hcc with h | h <;> omega
          have e4 : getN (siftDownGo goLess first hi fuel cch
              (swapL l (first + root) (first + cch))) (first + c) =
              getN (swapL l (first + root) (first + cch)) (first + c) := by
            refine ihF (first + c) (fun q hq => ?_)
            rcases desc_lower hq with h | h
            · omega
            · omega
          have e5 : getN (swapL l (first + root) (first + cch)) (first + c) =
              getN l (first + c) :=
            getN_swapL_other _ _ _ _ (by omega) (by omega)
          rw [e4, e5]
          rcases hcc with h | h
          · rw [h]; exact hmin1
          · rw [h]; exact hmin2 (by omega)
      · -- root < p < cch: both endpoints untouched
        have hcp2 : 2 * p + 1 ≤ c := by rcases hcc with h | h <;> omega
        have hcle2 : c ≤ 2 * p + 2 := by rcases hcc with h | h <;> omega
        have e6 : getN (siftDownGo goLess first hi fuel cch
            (swapL l (first + root) (first + cch))) (first + p) =
            getN (swapL l (first + root) (first + cch)) (first + p) := by
          refine ihF (first + p) (fun q hq => ?_)
          rcases desc_lower hq with h | h
          · omega
          · omega
        have e7 : getN (siftDownGo goLess first hi fuel cch
            (swapL l (first + root) (first + cch))) (first + c) =
            getN (swapL l (first + root) (first + cch)) (first + c) := by
          refine ihF (first + c) (fun q hq => ?_)
          rcases desc_lower hq with h | h
          · omega
          · omega
        have e8 : getN (swapL l (first + root) (first + cch)) (first + p) =
            getN l (first + p) :=
          getN_swapL_other _ _ _ _ (by omega) (by omega)
        have e9 : getN (swapL l (first + root) (first + cch)) (first + c) =
            getN l (first + c) :=
          getN_swapL_other _ _ _ _ (by omega) (by omega)
        rw [e6, e7, e8, e9]
        exact hh p c (by omega) hc hcc
  · -- frame: only the root's subtree is touched
    intro k hk
    have h10 : getN (siftDownGo goLess first hi fuel cch
        (swapL l (first + root) (first + cch))) k =
        getN (swapL l (first + root) (first + cch)) k :=
      ihF k (fun q hq => hk q (desc_trans hdrc hq))
    have h11 : getN (swapL l (first + root) (first + cch)) k = getN l k :=
      getN_swapL_other _ _ _ _ (hk root (Desc.refl root)) (hk cch hdrc)
    rw [h10, h11]

/-- Full specification of `siftDown_func`: given heap order below the
root, it restores heap order from the root on, touches only the root's
subtree, and fills the root slot with a value drawn from that subtree. -/
theorem siftDownGo_spec (first hi : Nat) :
    ∀ (fuel root : Nat) (l : List PostData), hi ≤ fuel + root →
      first + hi ≤ l.length → HeapBelow l first hi (root + 1) →
      HeapBelow (siftDownGo goLess first hi fuel root l) first hi root ∧
        (∀ k, (∀ q, Desc root q → k ≠ first + q) →
          getN (siftDownGo goLess first hi fuel root l) k = getN l k) ∧
        (∃ q, Desc root q ∧ (q = root ∨ q < hi) ∧
          getN (siftDownGo goLess first hi fuel root l) (first + root) =
            getN l (first + q)) := by
  intro fuel
  induction fuel with
  | zero =>
    intro root l hfe _ hh
    refine ⟨?_, fun k _ => rfl, ⟨root, Desc.refl root, Or.inl rfl, rfl⟩⟩
    intro p c hp hc hcc
    rcases Nat.eq_or_lt_of_le hp with hpe | hpl
    · exfalso; rcases hcc with h2 | h2 <;> omega
    · exact hh p c hpl hc hcc
  | succ fuel ih =>
    intro root l hfe hlen hh
    by_cases h1 : 2 * root + 1 ≥ hi
    · have he : siftDownGo goLess first hi (fuel + 1) root l = l := by
        rw [siftDownGo]; dsimp only; rw [if_pos h1]
      rw [he]
      refine ⟨?_, fun k _ => rfl, ⟨root, Desc.refl root, Or.inl rfl, rfl⟩⟩
      intro p c hp hc hcc
      rcases Nat.eq_or_lt_of_le hp with hpe | hpl
      · exfalso; rcases hcc with h2 | h2 <;> omega
      · exact hh p c hpl hc hcc
    · rw [siftDownGo]
      dsimp only
      rw [if_neg h1]
      split
      · rename_i hsel
        have hand := (Bool.and_eq_true _ _).mp hsel
        have hch : 2 * root + 1 + 1 < hi := of_decide_eq_true hand.1
        have hidx : first + (2 * root + 1) + 1 = first + (2 * root + 1 + 1) := by omega
        have hmin : (getN l (first + (2 * root + 1 + 1))).Date ≤
            (getN l (first + (2 * root + 1))).Date := by
          have := (goLess_iff _ _).mp hand.2
          rw [hidx] at this
          exact le_of_lt this
        split
        · rename_i hless
          exact siftDown_swap_step first hi fuel root (2 * root + 1 + 1) l ih hfe hlen hh
            (by omega) (by omega) (by omega) hless hmin
            (fun _ => by rw [show 2 * root + 2 = 2 * root + 1 + 1 by omega])
        · rename_i hless
          have hle : (getN l (first + root)).Date ≤
              (getN l (first + (2 * root + 1 + 1))).Date :=
            (goLess_false_iff _ _).mp (Bool.eq_false_iff.mpr hless)
          refine ⟨?_, fun k _ => rfl, ⟨root, Desc.refl root, Or.inl rfl, rfl⟩⟩
          intro p c hp hc hcc
          rcases Nat.eq_or_lt_of_le hp with hpe | hpl
          · subst hpe
            rcases hcc with h2 | h2
            · rw [h2]
              exact le_trans hle hmin
            · rw [h2, show 2 * root + 2 = 2 * root + 1 + 1 by omega]
              exact hle
          · exact hh p c hpl hc hcc
      · rename_i hsel
        have hmin2 : 2 * root + 2 < hi →
            (getN l (first + (2 * root + 1))).Date ≤
              (getN l (first + (2 * root + 2))).Date := by
          intro h2
          have hcon : ¬(decide (2 * root + 1 + 1 < hi) = true ∧
              goLess (getN l (first + (2 * root + 1)))
                (getN l (first + (2 * root + 1) + 1)) = true) := by
            intro hcon
            exact hsel ((Bool.and_eq_true _ _).mpr hcon)
          have hdec : decide (2 * root + 1 + 1 < hi) = true := decide_eq_true (by omega)
          have hgl : goLess (getN l (first + (2 * root + 1)))
              (getN l (first + (2 * root + 1) + 1)) = false := by
            by_cases hb2 : goLess (getN l (first + (2 * root + 1)))
                (getN l (first + (2 * root + 1) + 1)) = true
            · exact absurd ⟨hdec, hb2⟩ hcon
            · exact Bool.eq_false_iff.mpr hb2
          have := (goLess_false_iff _ _).mp hgl
          rw [show first + (2 * root + 1) + 1 = first + (2 * root + 2) by omega] at this
          exact this
        split
        · rename_i hless
          exact siftDown_swap_step first hi fuel root (2 * root + 1) l ih hfe hlen hh
            (by omega) (by omega) (by omega) hless (le_refl _) hmin2
        · rename_i hless
          have hle : (getN l (first + root)).Date ≤
              (getN l (first + (2 * root + 1))).Date :=
            (goLess_false_iff _ _).mp (Bool.eq_false_iff.mpr hless)
          refine ⟨?_, fun k _ => rfl, ⟨root, Desc.refl root, Or.inl rfl, rfl⟩⟩
          intro p c hp hc hcc
          rcases Nat.eq_or_lt_of_le hp with hpe | hpl
          · subst hpe
            rcases hcc with h2 | h2
            · rw [h2]
              exact hle
            · rw [h2]
              exact le_trans hle (hmin2 (by omega))
          · exact hh p c hpl hc hcc

/-- The heap-building loop of `heapSort_func` establishes heap order from
slot `0` on, given heap order from the current counter on, and leaves the
outside of the heap window unchanged. -/
theorem heapBuildLoop_spec (first hi : Nat) :
    ∀ (c : Nat) (l : List PostData), first + hi ≤ l.length →
      HeapBelow l first hi c →
      HeapBelow (heapBuildLoop goLess first hi c l) first hi 0 ∧
        (∀ k, k < first ∨ first + hi ≤ k →
          getN (heapBuildLoop goLess first hi c l) k = getN l k) := by
  intro c
  induction c with
  | zero => intro l _ hh; exact ⟨hh, fun k _ => rfl⟩
  | succ c ihc =>
    intro l hlen hh
    rw [heapBuildLoop]
    obtain ⟨hH1, _, _⟩ := siftDownGo_spec first hi hi c l (by omega) hlen hh
    have hlen1 : first + hi ≤ (siftDownGo goLess first hi hi c l).length := by
      have := (siftDownGo_perm goLess first hi hi c l).length_eq
      omega
    obtain ⟨hH2, hf2⟩ := ihc (siftDownGo goLess first hi hi c l) hlen1 hH1
    refine ⟨hH2, fun k hk => ?_⟩
    rw [hf2 k hk, siftDownGo_frame first hi hi c l k hk]

/-- The pop loop of `heapSort_func`: starting from a heap on `[0, c)`
whose tail `[c, n)` is already sorted and dominated by the heap, it sorts
the whole window. -/
theorem heapPopLoop_spec (first n : Nat) :
    ∀ (c : Nat) (l : List PostData), c ≤ n → first + n ≤ l.length →
      HeapBelow l first c 0 →
      SortedSeg l (first + c) (first + n) →
      (∀ k m, first + c ≤ k → k < first + n → first ≤ m → m < first + c →
        (getN l k).Date ≤ (getN l m).Date) →
      SortedSeg (heapPopLoop goLess first c l) first (first + n) ∧
        (∀ k, k < first ∨ first + c ≤ k →
          getN (heapPopLoop goLess first c l) k = getN l k) := by
  intro c
  induction c with
  | zero =>
    intro l _ _ _ hs _
    rw [heapPopLoop]
    exact ⟨hs, fun k _ => rfl⟩
  | succ c ihc =>
    intro l hcn hlen hh hs hdom
    rw [heapPopLoop]
    have hf0 : first < l.length := by omega
    have hflt : first + c < l.length := by omega
    have hv1 : getN (swapL l first (first + c)) first = getN l (first + c) :=
      getN_swapL_fst _ _ _ hf0 hflt
    have hv2 : getN (swapL l first (first + c)) (first + c) = getN l first :=
      getN_swapL_snd _ _ _ hf0 hflt
    have hroot_min : ∀ k, k < c + 1 → (getN l first).Date ≤ (getN l (first + k)).Date := by
      intro k hk
      have h := heap_desc_bound l first (c + 1) 0 0 hh (le_refl 0) k (desc_zero k) hk
      simpa using h
    have hhb1 : HeapBelow (swapL l first (first + c)) first c 1 := by
      intro p cc hp hcc hch
      have hcp : 2 * p + 1 ≤ cc := by rcases hch with h | h <;> omega
      have e1 : getN (swapL l first (first + c)) (first + p) = getN l (first + p) :=
        getN_swapL_other _ _ _ _ (by omega) (by omega)
      have e2 : getN (swapL l first (first + c)) (first + cc) = getN l (first + cc) :=
        getN_swapL_other _ _ _ _ (by omega) (by omega)
      rw [e1, e2]
      exact hh p cc (by omega) (by omega) hch
    have hlen1 : first + c ≤ (swapL l first (first + c)).length := by
      rw [swapL_length]; omega
    obtain ⟨hH2, _, _⟩ := siftDownGo_spec first c (c + 1) 0
      (swapL l first (first + c)) (by omega) hlen1 hhb1
    have hfr2 : ∀ k, k < first ∨ first + c ≤ k →
        getN (siftDownGo goLess first c (c + 1) 0 (swapL l first (first + c))) k =
          getN (swapL l first (first + c)) k :=
      fun k hk => siftDownGo_frame first c (c + 1) 0 _ k hk
    have hperm2 : (siftDownGo goLess first c (c + 1) 0
        (swapL l first (first + c))).Perm (swapL l first (first + c)) :=
      siftDownGo_perm goLess first c (c + 1) 0 _
    have hs2 : SortedSeg (siftDownGo goLess first c (c + 1) 0
        (swapL l first (first + c))) (first + c) (first + n) := by
      intro i j hi hij hj
      rw [hfr2 i (Or.inr hi), hfr2 j (Or.inr (by omega))]
      by_cases hic : i = first + c
      · rw [hic, hv2]
        rw [getN_swapL_other _ _ _ _ (by omega) (by omega)]
        exact hdom j first (by omega) hj (le_refl first) (by omega)
      · rw [getN_swapL_other _ _ _ _ (by omega) (by omega),
          getN_swapL_other _ _ _ _ (by omega) (by omega)]
        exact hs i j (by omega) hij hj
    have hdom2 : ∀ k m, first + c ≤ k → k < first + n → first ≤ m → m < first + c →
        (getN (siftDownGo goLess first c (c + 1) 0 (swapL l first (first + c))) k).Date ≤
          (getN (siftDownGo goLess first c (c + 1) 0 (swapL l first (first + c))) m).Date := by
      intro k m hk1 hk2 hm1 hm2
      rw [hfr2 k (Or.inr hk1)]
      obtain ⟨m0, hm01, hm02, hm03⟩ := seg_value_surj (swapL l first (first + c))
        (siftDownGo goLess first c (c + 1) 0 (swapL l first (first + c)))
        first (first + c) hperm2 hfr2 (by omega) hlen1 m hm1 hm2
      rw [← hm03]
      by_cases hkc : k = first + c
      · rw [hkc, hv2]
        by_cases hm0f : m0 = first
        · rw [hm0f, hv1]
          exact hroot_min c (by omega)
        · rw [getN_swapL_other l first (first + c) m0 (by omega) (by omega)]
          rw [show m0 = first + (m0 - first) by omega]
          exact hroot_min (m0 - first) (by omega)
      · rw [getN_swapL_other l first (first + c) k (by omega) (by omega)]
        by_cases hm0f : m0 = first
        · rw [hm0f, hv1]
          exact hdom k (first + c) (by omega) hk2 (by omega) (by omega)
        · rw [getN_swapL_other l first (first + c) m0 (by omega) (by omega)]
          exact hdom k m0 (by omega) hk2 (by omega) (by omega)
    have hlen2 : first + n ≤ (siftDownGo goLess first c (c + 1) 0
        (swapL l first (first + c))).length := by
      have h1 := hperm2.length_eq
      have h2 := (swapL_perm l first (first + c)).length_eq
      omega
    obtain ⟨hsf, hff⟩ := ihc (siftDownGo goLess first c (c + 1) 0
      (swapL l first (first + c))) (by omega) hlen2 hH2 hs2 hdom2
    refine ⟨hsf, fun k hk => ?_⟩
    have hk2 : k < first ∨ first + c ≤ k := by rcases hk with h | h <;> omega
    rw [hff k hk2, hfr2 k hk2,
      getN_swapL_other _ _ _ _ (by omega) (by omega)]

/-- Window specification of `heapSort_func`: the window is sorted by date
descending and the outside untouched. -/
theorem heapSortGo_spec (l : List PostData) (a b : Nat)
    (hab : a ≤ b) (hb : b ≤ l.length) :
    SortedSeg (heapSortGo goLess l a b) a b ∧
      FrameOut l (heapSortGo goLess l a b) a b := by
  obtain ⟨hH, hbf⟩ := heapBuildLoop_spec a (b - a) ((b - a - 1) / 2 + 1) l (by omega)
    (by intro p c hp hc hcc; exfalso; rcases hcc with h | h <;> omega)
  have hlen1 : a + (b - a) ≤
      (heapBuildLoop goLess a (b - a) ((b - a - 1) / 2 + 1) l).length := by
    have := (heapBuildLoop_perm goLess a (b - a) ((b - a - 1) / 2 + 1) l).length_eq
    omega
  obtain ⟨hsf, hpf⟩ := heapPopLoop_spec a (b - a) (b - a)
    (heapBuildLoop goLess a (b - a) ((b - a - 1) / 2 + 1) l) (le_refl _) hlen1 hH
    (by intro i j h1 h2 h3; omega)
    (by intro k m h1 h2 h3 h4; omega)
  have he : heapSortGo goLess l a b =
      heapPopLoop goLess a (b - a)
        (heapBuildLoop goLess a (b - a) ((b - a - 1) / 2 + 1) l) := rfl
  rw [he]
  constructor
  · rw [show a + (b - a) = b by omega] at hsf
    exact hsf
  · intro k hk
    have hk2 : k < a ∨ a + (b - a) ≤ k := by rcases hk with h | h <;> omega
    rw [hpf k hk2, hbf k hk2]

/-- The increasing skip loop of `partition_func`: it stops at the first
position not less than the pivot slot (or just past `j`), and everything
it skipped is less. -/
theorem skipLoI_spec (l : List PostData) (a j : Nat) :
    ∀ (fuel i : Nat), j + 1 ≤ fuel + i → i ≤ j + 1 →
      i ≤ skipLoI goLess l a j fuel i ∧ skipLoI goLess l a j fuel i ≤ j + 1 ∧
        (∀ k, i ≤ k → k < skipLoI goLess l a j fuel i →
          goLess (getN l k) (getN l a) = true) ∧
        (j < skipLoI goLess l a j fuel i ∨
          goLess (getN l (skipLoI goLess l a j fuel i)) (getN l a) = false) := by
  intro fuel
  induction fuel with
  | zero =>
    intro i hf hij
    rw [skipLoI]
    exact ⟨le_refl i, hij, fun k h1 h2 => absurd h2 (by omega), Or.inl (by omega)⟩
  | succ fuel ih =>
    intro i hf hij
    rw [skipLoI]
    by_cases h1 : i ≤ j
    · rw [if_pos h1]
      by_cases h2 : goLess (getN l i) (getN l a) = true
      · rw [if_pos h2]
        obtain ⟨g1, g2, g3, g4⟩ := ih (i + 1) (by omega) (by omega)
        refine ⟨by omega, g2, fun k hk1 hk2 => ?_, g4⟩
        rcases Nat.eq_or_lt_of_le hk1 with he | hlt
        · exact he ▸ h2
        · exact g3 k (by omega) hk2
      · rw [if_neg h2]
        exact ⟨le_refl i, by omega, fun k hk1 hk2 => absurd hk2 (by omega),
          Or.inr (Bool.eq_false_iff.mpr h2)⟩
    · rw [if_neg h1]
      exact ⟨le_refl i, hij, fun k hk1 hk2 => absurd hk2 (by omega), Or.inl (by omega)⟩

/-- The decreasing skip loop of `partition_func`: it stops at the first
position (from `j` down) less than the pivot slot (or just below `i`),
and everything it skipped is not less. -/
theorem skipHiJ_spec (l : List PostData) (a i : Nat) (hi1 : 1 ≤ i) :
    ∀ (fuel j : Nat), j + 1 ≤ fuel + i → i - 1 ≤ j →
      skipHiJ goLess l a i fuel j ≤ j ∧ i - 1 ≤ skipHiJ goLess l a i fuel j ∧
        (∀ k, skipHiJ goLess l a i fuel j < k → k ≤ j →
          goLess (getN l k) (getN l a) = false) ∧
        (skipHiJ goLess l a i fuel j < i ∨
          goLess (getN l (skipHiJ goLess l a i fuel j)) (getN l a) = true) := by
  intro fuel
  induction fuel with
  | zero =>
    intro j hf hji
    rw [skipHiJ]
    exact ⟨le_refl j, hji, fun k h1 h2 => absurd h2 (by omega), Or.inl (by omega)⟩
  | succ fuel ih =>
    intro j hf hji
    rw [skipHiJ]
    by_cases h1 : i ≤ j
    · rw [if_pos h1]
      by_cases h2 : goLess (getN l j) (getN l a) = true
      · rw [if_pos h2]
        exact ⟨le_refl j, hji, fun k hk1 hk2 => absurd hk2 (by omega), Or.inr h2⟩
      · rw [if_neg h2]
        obtain ⟨g1, g2, g3, g4⟩ := ih (j - 1) (by omega) (by omega)
        refine ⟨by omega, by omega, fun k hk1 hk2 => ?_, g4⟩
        rcases Nat.eq_or_lt_of_le hk2 with he | hlt
        · exact he ▸ (Bool.eq_false_iff.mpr h2)
        · exact g3 k hk1 (by omega)
    · rw [if_neg h1]
      exact ⟨le_refl j, hji, fun k hk1 hk2 => absurd hk2 (by omega), Or.inl (by omega)⟩

/-- Invariant of the main loop of `partition_func`: dates above the pivot
date accumulate left of the crossing point, dates at most the pivot date
right of it, the window outside `(a, b)` stays untouched and the pivot
stays parked at `a`. -/
theorem partitionLoop_spec (a b : Nat) (pv : PostData) :
    ∀ (fuel i j : Nat) (l : List PostData),
      a + 2 ≤ i → i ≤ j + 1 → j ≤ b - 1 → b ≤ l.length → a + 1 < b →
      j + 1 ≤ fuel + i →
      getN l a = pv →
      (∀ k, a + 1 ≤ k → k < i → pv.Date < (getN l k).Date) →
      (∀ k, j < k → k < b → (getN l k).Date ≤ pv.Date) →
      ∀ lf jf, partitionLoop goLess a b fuel i j l = (lf, jf) →
        a + 1 ≤ jf ∧ jf ≤ b - 1 ∧ getN lf a = pv ∧ lf.length = l.length ∧
          (∀ k, a + 1 ≤ k → k ≤ jf → pv.Date < (getN lf k).Date) ∧
          (∀ k, jf < k → k < b → (getN lf k).Date ≤ pv.Date) ∧
          (∀ k, k ≤ a ∨ b ≤ k → getN lf k = getN l k) := by
  intro fuel
  induction fuel with
  | zero =>
    intro i j l hi hij hjb hbl hab hf hpv hleft hright lf jf heq
    rw [partitionLoop] at heq
    injection heq with e1 e2
    subst e1
    subst e2
    exact ⟨by omega, by omega, hpv, rfl,
      fun k h1 h2 => hleft k h1 (by omega),
      fun k h1 h2 => hright k h1 h2, fun k _ => rfl⟩
  | succ fuel ih =>
    intro i j l hi hij hjb hbl hab hf hpv hleft hright lf jf heq
    rw [partitionLoop] at heq
    obtain ⟨g1, g2, g3, g4⟩ := skipLoI_spec l a j b i (by omega) hij
    obtain ⟨h1, h2, h3, h4⟩ :=
      skipHiJ_spec l a (skipLoI goLess l a j b i) (by omega) b j (by omega) (by omega)
    generalize hgi : skipLoI goLess l a j b i = i2 at *
    generalize hgj : skipHiJ goLess l a i2 b j = j2 at *
    have hleft2 : ∀ k, a + 1 ≤ k → k < i2 → pv.Date < (getN l k).Date := by
      intro k hk1 hk2
      by_cases hk3 : k < i
      · exact hleft k hk1 hk3
      · have := g3 k (by omega) hk2
        rw [hpv] at this
        exact (goLess_iff _ _).mp this
    have hright2 : ∀ k, j2 < k → k < b → (getN l k).Date ≤ pv.Date := by
      intro k hk1 hk2
      by_cases hk3 : j < k
      · exact hright k hk3 hk2
      · have := h3 k hk1 (by omega)
        rw [hpv] at this
        exact (goLess_false_iff _ _).mp this
    by_cases hcross : i2 > j2
    · rw [if_pos hcross] at heq
      injection heq with e1 e2
      subst e1
      subst e2
      exact ⟨by omega, by omega, hpv, rfl,
        fun k hk1 hk2 => hleft2 k hk1 (by omega),
        fun k hk1 hk2 => hright2 k hk1 hk2, fun k _ => rfl⟩
    · rw [if_neg hcross] at heq
      push_neg at hcross
      have hi2v : goLess (getN l i2) (getN l a) = false := by
        rcases g4 with h | h
        · omega
        · exact h
      have hj2v : goLess (getN l j2) (getN l a) = true := by
        rcases h4 with h | h
        · omega
        · exact h
      have hne : i2 < j2 := by
        rcases Nat.eq_or_lt_of_le hcross with he | hlt
        · rw [he] at hi2v; rw [hi2v] at hj2v; exact absurd hj2v (by simp)
        · exact hlt
      have hi2l : i2 < l.length := by omega
      have hj2l : j2 < l.length := by omega
      have hswa : getN (swapL l i2 j2) a = pv := by
        rw [getN_swapL_other _ _ _ _ (by omega) (by omega)]; exact hpv
      obtain ⟨r1, r2, r3, r4, r5, r6, r7⟩ := ih (i2 + 1) (j2 - 1) (swapL l i2 j2)
        (by omega) (by omega) (by omega) (by rw [swapL_length]; exact hbl) hab
        (by omega) hswa
        (by
          intro k hk1 hk2
          by_cases hk3 : k = i2
          · rw [hk3, getN_swapL_fst _ _ _ hi2l hj2l]
            rw [hpv] at hj2v
            exact (goLess_iff _ _).mp hj2v
          · rw [getN_swapL_other _ _ _ _ (by omega) (by omega)]
            exact hleft2 k hk1 (by omega))
        (by
          intro k hk1 hk2
          by_cases hk3 : k = j2
          · rw [hk3, getN_swapL_snd _ _ _ hi2l hj2l]
            rw [hpv] at hi2v
            exact (goLess_false_iff _ _).mp hi2v
          · rw [getN_swapL_other _ _ _ _ (by omega) (by omega)]
            exact hright2 k (by omega) hk2)
        lf jf heq
      refine ⟨r1, r2, r3, by rw [r4, swapL_length], r5, r6, fun k hk => ?_⟩
      rw [r7 k hk, getN_swapL_other _ _ _ _ (by omega) (by omega)]

/-- Window specification of `partition_func`: the returned position holds
the pivot value, everything left of it in the window has a strictly
greater date, everything right of it an at most equal date, and the
outside of the window is untouched. -/
theorem partitionGo_spec (l : List PostData) (a b pivot : Nat)
    (hab : a + 1 < b) (hb : b ≤ l.length) (hp1 : a ≤ pivot) (hp2 : pivot < b) :
    ∀ lf mid wasp, partitionGo goLess l a b pivot = (lf, mid, wasp) →
      a ≤ mid ∧ mid < b ∧ lf.length = l.length ∧
        FrameOut l lf a b ∧
        getN lf mid = getN l pivot ∧
        (∀ k, a ≤ k → k < mid → (getN l pivot).Date < (getN lf k).Date) ∧
        (∀ k, mid < k → k < b → (getN lf k).Date ≤ (getN l pivot).Date) := by
  intro lf mid wasp heq
  rw [partitionGo] at heq
  dsimp only at heq
  have hal : a < l.length := by omega
  have hpl : pivot < l.length := by omega
  have hpv : getN (swapL l a pivot) a = getN l pivot :=
    getN_swapL_fst _ _ _ hal hpl
  have hlen1 : (swapL l a pivot).length = l.length := swapL_length l a pivot
  obtain ⟨g1, g2, g3, g4⟩ :=
    skipLoI_spec (swapL l a pivot) a (b - 1) b (a + 1) (by omega) (by omega)
  obtain ⟨h1, h2, h3, h4⟩ :=
    skipHiJ_spec (swapL l a pivot) a (skipLoI goLess (swapL l a pivot) a (b - 1) b (a + 1))
      (by omega) b (b - 1) (by omega) (by omega)
  generalize hgi : skipLoI goLess (swapL l a pivot) a (b - 1) b (a + 1) = i1 at *
  generalize hgj : skipHiJ goLess (swapL l a pivot) a i1 b (b - 1) = j1 at *
  have hleft1 : ∀ k, a + 1 ≤ k → k < i1 →
      (getN l pivot).Date < (getN (swapL l a pivot) k).Date := by
    intro k hk1 hk2
    have := g3 k hk1 hk2
    rw [hpv] at this
    exact (goLess_iff _ _).mp this
  have hright1 : ∀ k, j1 < k → k < b →
      (getN (swapL l a pivot) k).Date ≤ (getN l pivot).Date := by
    intro k hk1 hk2
    have := h3 k hk1 (by omega)
    rw [hpv] at this
    exact (goLess_false_iff _ _).mp this
  by_cases hcross : i1 > j1
  · rw [if_pos hcross] at heq
    injection heq with e1 e2
    injection e2 with e2 e3
    subst e1
    subst e2
    have hj1b : j1 < l.length := by omega
    refine ⟨by omega, by omega, by rw [swapL_length, hlen1], ?_, ?_, ?_, ?_⟩
    · intro k hk
      rw [getN_swapL_other _ _ _ _ (by omega) (by omega),
        getN_swapL_other _ _ _ _ (by omega) (by omega)]
    · rw [getN_swapL_fst _ _ _ (by omega) (by omega), hpv]
    · intro k hk1 hk2
      by_cases hka : k = a
      · subst hka
        rw [getN_swapL_snd _ _ _ (by omega) (by omega)]
        exact hleft1 j1 (by omega) (by omega)
      · rw [getN_swapL_other _ _ _ _ (by omega) (by omega)]
        exact hleft1 k (by omega) (by omega)
    · intro k hk1 hk2
      rw [getN_swapL_other _ _ _ _ (by omega) (by omega)]
      exact hright1 k hk1 hk2
  · rw [if_neg hcross] at heq
    push_neg at hcross
    have hi1v : goLess (getN (swapL l a pivot) i1) (getN (swapL l a pivot) a) = false := by
      rcases g4 with h | h
      · omega
      · exact h
    have hj1v : goLess (getN (swapL l a pivot) j1) (getN (swapL l a pivot) a) = true := by
      rcases h4 with h | h
      · omega
      · exact h
    have hne : i1 < j1 := by
      rcases Nat.eq_or_lt_of_le hcross with he | hlt
      · rw [he] at hi1v; rw [hi1v] at hj1v; exact absurd hj1v (by simp)
      · exact hlt
    have hi1l : i1 < (swapL l a pivot).length := by omega
    have hj1l : j1 < (swapL l a pivot).length := by omega
    obtain ⟨r1, r2, r3, r4, r5, r6, r7⟩ :=
      partitionLoop_spec a b (getN l pivot) b (i1 + 1) (j1 - 1)
        (swapL (swapL l a pivot) i1 j1) (by omega) (by omega) (by omega)
        (by rw [swapL_length, hlen1]; exact hb) (by omega) (by omega)
        (by
          rw [getN_swapL_other _ _ _ _ (by omega) (by omega)]
          exact hpv)
        (by
          intro k hk1 hk2
          by_cases hk3 : k = i1
          · rw [hk3, getN_swapL_fst _ _ _ hi1l hj1l]
            have := hj1v
            rw [hpv] at this
            exact (goLess_iff _ _).mp this
          · rw [getN_swapL_other _ _ _ _ (by omega) (by omega)]
            exact hleft1 k hk1 (by omega))
        (by
          intro k hk1 hk2
          by_cases hk3 : k = j1
          · rw [hk3, getN_swapL_snd _ _ _ hi1l hj1l]
            have := hi1v
            rw [hpv] at this
            exact (goLess_false_iff _ _).mp this
          · rw [getN_swapL_other _ _ _ _ (by omega) (by omega)]
            exact hright1 k (by omega) hk2)
        (partitionLoop goLess a b b (i1 + 1) (j1 - 1)
          (swapL (swapL l a pivot) i1 j1)).1
        (partitionLoop goLess a b b (i1 + 1) (j1 - 1)
          (swapL (swapL l a pivot) i1 j1)).2 rfl
    injection heq with e1 e2
    injection e2 with e2 e3
    subst e1
    subst e2
    have hRlen : (partitionLoop goLess a b b (i1 + 1) (j1 - 1)
        (swapL (swapL l a pivot) i1 j1)).1.length = l.length := by
      rw [r4, swapL_length, swapL_length]
    refine ⟨by omega, by omega, by rw [swapL_length, hRlen], ?_, ?_, ?_, ?_⟩
    · intro k hk
      rw [getN_swapL_other _ _ _ _ (by omega) (by omega),
        r7 k (by omega),
        getN_swapL_other _ _ _ _ (by omega) (by omega),
        getN_swapL_other _ _ _ _ (by omega) (by omega)]
    · rw [getN_swapL_fst _ _ _ (by omega) (by omega)]
      exact r3
    · intro k hk1 hk2
      by_cases hka : k = a
      · subst hka
        rw [getN_swapL_snd _ _ _ (by omega) (by omega)]
        exact r5 _ (by omega) (le_refl _)
      · rw [getN_swapL_other _ _ _ _ (by omega) (by omega)]
        exact r5 k (by omega) (by omega)
    · intro k hk1 hk2
      rw [getN_swapL_other _ _ _ _ (by omega) (by omega)]
      exact r6 k hk1 hk2

/-- The increasing skip loop of `partitionEqual_func`: it stops at the
first position the pivot is less than (or just past `j`); skipped
positions are at least the pivot date. -/
theorem eqSkipI_spec (l : List PostData) (p j : Nat) :
    ∀ (fuel i : Nat), j + 1 ≤ fuel + i → i ≤ j + 1 →
      i ≤ eqSkipI goLess l p j fuel i ∧ eqSkipI goLess l p j fuel i ≤ j + 1 ∧
        (∀ k, i ≤ k → k < eqSkipI goLess l p j fuel i →
          goLess (getN l p) (getN l k) = false) ∧
        (j < eqSkipI goLess l p j fuel i ∨
          goLess (getN l p) (getN l (eqSkipI goLess l p j fuel i)) = true) := by
  intro fuel
  induction fuel with
  | zero =>
    intro i hf hij
    rw [eqSkipI]
    exact ⟨le_refl i, hij, fun k h1 h2 => absurd h2 (by omega), Or.inl (by omega)⟩
  | succ fuel ih =>
    intro i hf hij
    rw [eqSkipI]
    by_cases h1 : i ≤ j
    · rw [if_pos h1]
      by_cases h2 : goLess (getN l p) (getN l i) = true
      · rw [if_pos h2]
        exact ⟨le_refl i, by omega, fun k hk1 hk2 => absurd hk2 (by omega), Or.inr h2⟩
      · rw [if_neg h2]
        obtain ⟨g1, g2, g3, g4⟩ := ih (i + 1) (by omega) (by omega)
        refine ⟨by omega, g2, fun k hk1 hk2 => ?_, g4⟩
        rcases Nat.eq_or_lt_of_le hk1 with he | hlt
        · exact he ▸ (Bool.eq_false_iff.mpr h2)
        · exact g3 k (by omega) hk2
    · rw [if_neg h1]
      exact ⟨le_refl i, hij, fun k hk1 hk2 => absurd hk2 (by omega), Or.inl (by omega)⟩

/-- The decreasing skip loop of `partitionEqual_func`: it stops at the
first position (from `j` down) the pivot is not less than (or just below
`i`); skipped positions are strictly below the pivot date. -/
theorem eqSkipJ_spec (l : List PostData) (p i : Nat) (hi1 : 1 ≤ i) :
    ∀ (fuel j : Nat), j + 1 ≤ fuel + i → i - 1 ≤ j →
      eqSkipJ goLess l p i fuel j ≤ j ∧ i - 1 ≤ eqSkipJ goLess l p i fuel j ∧
        (∀ k, eqSkipJ goLess l p i fuel j < k → k ≤ j →
          goLess (getN l p) (getN l k) = true) ∧
        (eqSkipJ goLess l p i fuel j < i ∨
          goLess (getN l p) (getN l (eqSkipJ goLess l p i fuel j)) = false) := by
  intro fuel
  induction fuel with
  | zero =>
    intro j hf hji
    rw [eqSkipJ]
    exact ⟨le_refl j, hji, fun k h1 h2 => absurd h2 (by omega), Or.inl (by omega)⟩
  | succ fuel ih =>
    intro j hf hji
    rw [eqSkipJ]
    by_cases h1 : i ≤ j
    · rw [if_pos h1]
      by_cases h2 : goLess (getN l p) (getN l j) = true
      · rw [if_pos h2]
        obtain ⟨g1, g2, g3, g4⟩ := ih (j - 1) (by omega) (by omega)
        refine ⟨by omega, by omega, fun k hk1 hk2 => ?_, g4⟩
        rcases Nat.eq_or_lt_of_le hk2 with he | hlt
        · exact he ▸ h2
        · exact g3 k hk1 (by omega)
      · rw [if_neg h2]
        exact ⟨le_refl j, hji, fun k hk1 hk2 => absurd hk2 (by omega),
          Or.inr (Bool.eq_false_iff.mpr h2)⟩
    · rw [if_neg h1]
      exact ⟨le_refl j, hji, fun k hk1 hk2 => absurd hk2 (by omega), Or.inl (by omega)⟩

/-- Invariant of the main loop of `partitionEqual_func`: dates at least
the pivot date accumulate left of the returned position, strictly smaller
dates from it on, with the outside untouched and the pivot parked at
`a`. -/
theorem partitionEqualLoop_spec (a b : Nat) (pv : PostData) :
    ∀ (fuel i j : Nat) (l : List PostData),
      a + 1 ≤ i → i ≤ j + 1 → j ≤ b - 1 → b ≤ l.length → a + 1 < b →
      j + 1 ≤ fuel + i →
      getN l a = pv →
      (∀ k, a + 1 ≤ k → k < i → pv.Date ≤ (getN l k).Date) →
      (∀ k, j < k → k < b → (getN l k).Date < pv.Date) →
      ∀ lf ie, partitionEqualLoop goLess a b fuel i j l = (lf, ie) →
        a + 1 ≤ ie ∧ ie ≤ b ∧ getN lf a = pv ∧ lf.length = l.length ∧
          (∀ k, a + 1 ≤ k → k < ie → pv.Date ≤ (getN lf k).Date) ∧
          (∀ k, ie ≤ k → k < b → (getN lf k).Date < pv.Date) ∧
          (∀ k, k ≤ a ∨ b ≤ k → getN lf k = getN l k) := by
  intro fuel
  induction fuel with
  | zero =>
    intro i j l hi hij hjb hbl hab hf hpv hleft hright lf ie heq
    rw [partitionEqualLoop] at heq
    injection heq with e1 e2
    subst e1
    subst e2
    exact ⟨hi, by omega, hpv, rfl, fun k h1 h2 => hleft k h1 h2,
      fun k h1 h2 => hright k (by omega) h2, fun k _ => rfl⟩
  | succ fuel ih =>
    intro i j l hi hij hjb hbl hab hf hpv hleft hright lf ie heq
    rw [partitionEqualLoop] at heq
    obtain ⟨g1, g2, g3, g4⟩ := eqSkipI_spec l a j b i (by omega) hij
    obtain ⟨h1, h2, h3, h4⟩ :=
      eqSkipJ_spec l a (eqSkipI goLess l a j b i) (by omega) b j (by omega) (by omega)
    generalize hgi : eqSkipI goLess l a j b i = i2 at *
    generalize hgj : eqSkipJ goLess l a i2 b j = j2 at *
    have hleft2 : ∀ k, a + 1 ≤ k → k < i2 → pv.Date ≤ (getN l k).Date := by
      intro k hk1 hk2
      by_cases hk3 : k < i
      · exact hleft k hk1 hk3
      · have := g3 k (by omega) hk2
        rw [hpv] at this
        exact (goLess_false_iff _ _).mp this
    have hright2 : ∀ k, j2 < k → k < b → (getN l k).Date < pv.Date := by
      intro k hk1 hk2
      by_cases hk3 : j < k
      · exact hright k hk3 hk2
      · have := h3 k hk1 (by omega)
        rw [hpv] at this
        exact (goLess_iff _ _).mp this
    by_cases hcross : i2 > j2
    · rw [if_pos hcross] at heq
      injection heq with e1 e2
      subst e1
      subst e2
      exact ⟨by omega, by omega, hpv, rfl,
        fun k hk1 hk2 => hleft2 k hk1 hk2,
        fun k hk1 hk2 => hright2 k (by omega) hk2, fun k _ => rfl⟩
    · rw [if_neg hcross] at heq
      push_neg at hcross
      have hi2v : goLess (getN l a) (getN l i2) = true := by
        rcases g4 with h | h
        · omega
        · exact h
      have hj2v : goLess (getN l a) (getN l j2) = false := by
        rcases h4 with h | h
        · omega
        · exact h
      have hne : i2 < j2 := by
        rcases Nat.eq_or_lt_of_le hcross with he | hlt
        · rw [he] at hi2v; rw [hi2v] at hj2v; exact absurd hj2v (by simp)
        · exact hlt
      have hi2l : i2 < l.length := by omega
      have hj2l : j2 < l.length := by omega
      have hswa : getN (swapL l i2 j2) a = pv := by
        rw [getN_swapL_other _ _ _ _ (by omega) (by omega)]; exact hpv
      obtain ⟨r1, r2, r3, r4, r5, r6, r7⟩ := ih (i2 + 1) (j2 - 1) (swapL l i2 j2)
        (by omega) (by omega) (by omega) (by rw [swapL_length]; exact hbl) hab
        (by omega) hswa
        (by
          intro k hk1 hk2
          by_cases hk3 : k = i2
          · rw [hk3, getN_swapL_fst _ _ _ hi2l hj2l]
            rw [hpv] at hj2v
            exact (goLess_false_iff _ _).mp hj2v
          · rw [getN_swapL_other _ _ _ _ (by omega) (by omega)]
            exact hleft2 k hk1 (by omega))
        (by
          intro k hk1 hk2
          by_cases hk3 : k = j2
          · rw [hk3, getN_swapL_snd _ _ _ hi2l hj2l]
            rw [hpv] at hi2v
            exact (goLess_iff _ _).mp hi2v
          · rw [getN_swapL_other _ _ _ _ (by omega) (by omega)]
            exact hright2 k (by omega) hk2)
        lf ie heq
      refine ⟨r1, r2, r3, by rw [r4, swapL_length], r5, r6, fun k hk => ?_⟩
      rw [r7 k hk, getN_swapL_other _ _ _ _ (by omega) (by omega)]

/-- Window specification of `partitionEqual_func`: left of the returned
position every date is at least the pivot date, from it on strictly
below, and the outside of the window is untouched. -/
theorem partitionEqualGo_spec (l : List PostData) (a b pivot : Nat)
    (hab : a + 1 < b) (hb : b ≤ l.length) (hp1 : a ≤ pivot) (hp2 : pivot < b) :
    ∀ lf ie, partitionEqualGo goLess l a b pivot = (lf, ie) →
      a + 1 ≤ ie ∧ ie ≤ b ∧ lf.length = l.length ∧ FrameOut l lf a b ∧
        (∀ k, a ≤ k → k < ie → (getN l pivot).Date ≤ (getN lf k).Date) ∧
        (∀ k, ie ≤ k → k < b → (getN lf k).Date < (getN l pivot).Date) := by
  intro lf ie heq
  rw [partitionEqualGo] at heq
  have hal : a < l.length := by omega
  have hpl : pivot < l.length := by omega
  have hpv : getN (swapL l a pivot) a = getN l pivot :=
    getN_swapL_fst _ _ _ hal hpl
  obtain ⟨r1, r2, r3, r4, r5, r6, r7⟩ :=
    partitionEqualLoop_spec a b (getN l pivot) b (a + 1) (b - 1) (swapL l a pivot)
      (le_refl _) (by omega) (by omega) (by rw [swapL_length]; exact hb) hab
      (by omega) hpv
      (by intro k hk1 hk2; omega)
      (by intro k hk1 hk2; omega)
      lf ie heq
  refine ⟨r1, r2, by rw [r4, swapL_length], ?_, ?_, ?_⟩
  · intro k hk
    rw [r7 k (by omega), getN_swapL_other _ _ _ _ (by omega) (by omega)]
  · intro k hk1 hk2
    rcases Nat.eq_or_lt_of_le hk1 with he | hlt
    · rw [← he, r3]
    · exact r5 k (by omega) hk2
  · intro k hk1 hk2
    exact r6 k hk1 hk2

/-- The scan of `partialInsertionSort_func`: it advances over adjacent
pairs in date-descending order and stops at `b` or at the first
inversion. -/
theorem limScan_spec (b : Nat) (l : List PostData) :
    ∀ (fuel i : Nat), b ≤ fuel + i → i ≤ b →
      i ≤ limScan goLess b fuel i l ∧ limScan goLess b fuel i l ≤ b ∧
        (∀ k, i ≤ k → k < limScan goLess b fuel i l →
          (getN l k).Date ≤ (getN l (k - 1)).Date) ∧
        (limScan goLess b fuel i l = b ∨
          (limScan goLess b fuel i l < b ∧
            (getN l (limScan goLess b fuel i l - 1)).Date <
              (getN l (limScan goLess b fuel i l)).Date)) := by
  intro fuel
  induction fuel with
  | zero =>
    intro i hf hib
    rw [limScan]
    exact ⟨le_refl i, hib, fun k h1 h2 => absurd h2 (by omega), Or.inl (by omega)⟩
  | succ fuel ih =>
    intro i hf hib
    rw [limScan]
    by_cases h1 : i < b
    · rw [if_pos h1]
      by_cases h2 : goLess (getN l i) (getN l (i - 1)) = true
      · rw [if_pos h2]
        exact ⟨le_refl i, by omega, fun k hk1 hk2 => absurd hk2 (by omega),
          Or.inr ⟨h1, (goLess_iff _ _).mp h2⟩⟩
      · rw [if_neg h2]
        obtain ⟨g1, g2, g3, g4⟩ := ih (i + 1) (by omega) (by omega)
        refine ⟨by omega, g2, fun k hk1 hk2 => ?_, g4⟩
        rcases Nat.eq_or_lt_of_le hk1 with he | hlt
        · exact he ▸ ((goLess_false_iff _ _).mp (Bool.eq_false_iff.mpr h2))
        · exact g3 k (by omega) hk2
    · rw [if_neg h1]
      exact ⟨le_refl i, hib, fun k hk1 hk2 => absurd hk2 (by omega), Or.inl (by omega)⟩

/-- The left shift of `partialInsertionSort_func`: inserting the moved
element into the sorted prefix sorts the window `[a, i2)`, and the former
pivot bound keeps the walk from crossing `a`. -/
theorem limShiftLeft_spec (a i2 : Nat) (v : PostData) :
    ∀ (m : Nat) (l : List PostData),
      a ≤ m → m < i2 → i2 ≤ l.length →
      getN l m = v →
      (0 < a → v.Date ≤ (getN l (a - 1)).Date) →
      SortedSeg l a m →
      SortedSeg l m i2 →
      (∀ p q, a ≤ p → p < m → m < q → q < i2 →
        (getN l q).Date ≤ (getN l p).Date) →
      SortedSeg (limShiftLeft goLess m l) a i2 ∧
        (∀ k, k < a ∨ i2 ≤ k → getN (limShiftLeft goLess m l) k = getN l k) := by
  intro m
  induction m with
  | zero =>
    intro l ha hm hlen hv hlb hSa hSm hcross
    rw [limShiftLeft]
    have ha0 : a = 0 := by omega
    subst ha0
    exact ⟨hSm, fun k _ => rfl⟩
  | succ j ih =>
    intro l ha hm hlen hv hlb hSa hSm hcross
    rw [limShiftLeft]
    by_cases h2 : goLess (getN l (j + 1)) (getN l j) = true
    · rw [if_pos h2]
      have hkey : (getN l j).Date < (getN l (j + 1)).Date := (goLess_iff _ _).mp h2
      by_cases hja : j < a
      · -- would cross the window start: excluded by the former pivot bound
        exfalso
        have hb0 : 0 < a := by omega
        have hlbj := hlb hb0
        have haj : a - 1 = j := by omega
        rw [haj] at hlbj
        rw [hv] at hkey
        exact absurd (lt_of_lt_of_le hkey hlbj) (lt_irrefl _)
      · push_neg at hja
        have hj1l : j + 1 < l.length := by omega
        have hjl : j < l.length := by omega
        have hv2 : getN (swapL l (j + 1) j) j = v := by
          rw [getN_swapL_snd _ _ _ hj1l hjl]
          exact hv
        obtain ⟨f1, f2⟩ := ih (swapL l (j + 1) j) hja (by omega)
          (by rw [swapL_length]; exact hlen) hv2
          (by
            intro hb0
            rw [getN_swapL_other _ _ _ _ (by omega) (by omega)]
            exact hlb hb0)
          (by
            intro x y hx hxy hy
            rw [getN_swapL_other _ _ _ _ (by omega) (by omega),
              getN_swapL_other _ _ _ _ (by omega) (by omega)]
            exact hSa x y hx hxy (by omega))
          (by
            intro x y hx hxy hy
            by_cases hxj : x = j
            · rw [hxj, getN_swapL_snd _ _ _ hj1l hjl]
              by_cases hyj : y = j + 1
              · rw [hyj, getN_swapL_fst _ _ _ hj1l hjl]
                exact le_of_lt hkey
              · rw [getN_swapL_other _ _ _ _ (by omega) (by omega)]
                exact hSm (j + 1) y (le_refl _) (by omega) hy
            · have hxx : j + 1 ≤ x := by omega
              by_cases hyj : y = j + 1
              · omega
              · by_cases hxj1 : x = j + 1
                · rw [hxj1, getN_swapL_fst _ _ _ hj1l hjl,
                    getN_swapL_other _ _ _ _ (by omega) (by omega)]
                  exact hcross j y (by omega) (by omega) (by omega) hy
                · rw [getN_swapL_other _ _ _ _ (by omega) (by omega),
                    getN_swapL_other _ _ _ _ (by omega) (by omega)]
                  exact hSm x y (by omega) hxy hy)
          (by
            intro p q hp hpj hjq hq
            have hep : getN (swapL l (j + 1) j) p = getN l p :=
              getN_swapL_other _ _ _ _ (by omega) (by omega)
            by_cases hqj : q = j + 1
            · rw [hqj, getN_swapL_fst _ _ _ hj1l hjl, hep]
              exact hSa p j hp (by omega) (by omega)
            · rw [getN_swapL_other _ _ _ _ (by omega) (by omega), hep]
              exact hcross p q hp (by omega) (by omega) hq)
        refine ⟨f1, fun k hk => ?_⟩
        rw [f2 k hk, getN_swapL_other _ _ _ _ (by omega) (by omega)]
    · rw [if_neg h2]
      have hstop : (getN l (j + 1)).Date ≤ (getN l j).Date :=
        (goLess_false_iff _ _).mp (Bool.eq_false_iff.mpr h2)
      refine ⟨?_, fun k _ => rfl⟩
      intro x y hx hxy hy
      by_cases hym : y < j + 1
      · exact hSa x y hx hxy hym
      · by_cases hxm : j + 1 ≤ x
        · exact hSm x y hxm hxy hy
        · push_neg at hxm
          by_cases hyj : y = j + 1
          · rw [hyj]
            rcases Nat.eq_or_lt_of_le (show x ≤ j by omega) with he | hlt
            · subst he
              exact hstop
            · exact le_trans hstop (hSa x j hx hlt (by omega))
          · exact hcross x y hx (by omega) (by omega) hy

/-- The right shift of `partialInsertionSort_func` never touches
positions left of its start nor from `b` on. -/
theorem limShiftRight_frame (b : Nat) :
    ∀ (fuel j : Nat) (l : List PostData) (k : Nat),
      k + 1 < j ∨ b ≤ k →
      getN (limShiftRight goLess b fuel j l) k = getN l k := by
  intro fuel
  induction fuel with
  | zero => intro j l k _; rfl
  | succ fuel ih =>
    intro j l k hk
    rw [limShiftRight]
    by_cases h1 : j < b
    · rw [if_pos h1]
      by_cases h2 : goLess (getN l j) (getN l (j - 1)) = true
      · rw [if_pos h2]
        rw [ih (j + 1) _ k (by omega)]
        exact getN_swapL_other _ _ _ _ (by omega) (by omega)
      · rw [if_neg h2]
    · rw [if_neg h1]

/-- The step loop of `partialInsertionSort_func`: it only rearranges the
window (all repairs stay inside `[a, b)` thanks to the former-pivot
bound), and when it reports `true` the window is sorted. -/
theorem limSteps_spec (a b : Nat) :
    ∀ (steps i : Nat) (l : List PostData),
      a < i → i ≤ b → b ≤ l.length →
      AdjSeg l a i → LbOK l a b →
      ∀ lf done, limSteps goLess a b steps i l = (lf, done) →
        (∀ k, k < a ∨ b ≤ k → getN lf k = getN l k) ∧
          (done = true → SortedSeg lf a b) := by
  intro steps
  induction steps with
  | zero =>
    intro i l hai hib hbl hadj hLb lf done heq
    rw [limSteps] at heq
    injection heq with e1 e2
    subst e1
    subst e2
    exact ⟨fun k _ => rfl, fun h => absurd h (by simp)⟩
  | succ steps ih =>
    intro i l hai hib hbl hadj hLb lf done heq
    rw [limSteps] at heq
    dsimp only at heq
    obtain ⟨s1, s2, s3, s4⟩ := limScan_spec b l (b - i) i (by omega) hib
    generalize hgs : limScan goLess b (b - i) i l = i2 at *
    have hadj2 : AdjSeg l a i2 := by
      intro k hk1 hk2
      by_cases hk3 : k < i
      · exact hadj k hk1 hk3
      · exact s3 k (by omega) hk2
    by_cases hdone : i2 = b
    · rw [if_pos hdone] at heq
      injection heq with e1 e2
      subst e1
      subst e2
      refine ⟨fun k _ => rfl, fun _ => ?_⟩
      rw [← hdone]
      exact sortedSeg_of_adjSeg l a i2 hadj2
    · rw [if_neg hdone] at heq
      by_cases hshort : b - a < 50
      · rw [if_pos hshort] at heq
        injection heq with e1 e2
        subst e1
        subst e2
        exact ⟨fun k _ => rfl, fun h => absurd h (by simp)⟩
      · rw [if_neg hshort] at heq
        have hi2b : i2 < b := by omega
        have hviol : (getN l (i2 - 1)).Date < (getN l i2).Date := by
          rcases s4 with h | h
          · exact absurd h hdone
          · exact h.2
        have hi2a : a < i2 := by omega
        have hi2l : i2 < l.length := by omega
        have hi21l : i2 - 1 < l.length := by omega
        set l1 := swapL l i2 (i2 - 1) with hl1
        set l2 := (if 2 ≤ i2 - a then limShiftLeft goLess (i2 - 1) l1 else l1)
          with hl2
        set l3 := (if 2 ≤ b - i2 then limShiftRight goLess b (b - i2) (i2 + 1) l2
          else l2) with hl3
        have hl1len : l1.length = l.length := by rw [hl1, swapL_length]
        have hl1perm : l1.Perm l := by rw [hl1]; exact swapL_perm l i2 (i2 - 1)
        have hSl1a : SortedSeg l1 a (i2 - 1) := by
          intro x y hx hxy hy
          rw [hl1, getN_swapL_other _ _ _ _ (by omega) (by omega),
            getN_swapL_other _ _ _ _ (by omega) (by omega)]
          exact sortedSeg_of_adjSeg l a i2 hadj2 x y hx hxy (by omega)
        have hv2 : getN l1 (i2 - 1) = getN l i2 := by
          rw [hl1, getN_swapL_snd _ _ _ hi2l hi21l]
        have hl2fr : ∀ k, k < a ∨ i2 ≤ k → getN l2 k = getN l1 k := by
          rw [hl2]
          split
          · rename_i hcs
            obtain ⟨g1, g2⟩ := limShiftLeft_spec a i2 (getN l i2) (i2 - 1) l1
              (by omega) (by omega) (by omega) hv2
              (by
                intro hb0
                rw [hl1, getN_swapL_other _ _ _ _ (by omega) (by omega)]
                exact hLb hb0 i2 (by omega) hi2b)
              hSl1a
              (by intro x y hx hxy hy; omega)
              (by intro p q hp hpq hq1 hq2; omega)
            exact g2
          · exact fun k _ => rfl
        have hl2sorted : AdjSeg l2 a i2 := by
          rw [hl2]
          split
          · rename_i hcs
            obtain ⟨g1, g2⟩ := limShiftLeft_spec a i2 (getN l i2) (i2 - 1) l1
              (by omega) (by omega) (by omega) hv2
              (by
                intro hb0
                rw [hl1, getN_swapL_other _ _ _ _ (by omega) (by omega)]
                exact hLb hb0 i2 (by omega) hi2b)
              hSl1a
              (by intro x y hx hxy hy; omega)
              (by intro p q hp hpq hq1 hq2; omega)
            intro k hk1 hk2
            exact g1 (k - 1) k (by omega) (by omega) hk2
          · rename_i hcs
            intro k hk1 hk2
            omega
        have hl2perm : l2.Perm l1 := by
          rw [hl2]
          split
          · exact limShiftLeft_perm goLess (i2 - 1) l1
          · exact List.Perm.refl l1
        have hl3fr : ∀ k, k < i2 ∨ b ≤ k → getN l3 k = getN l2 k := by
          rw [hl3]
          split
          · intro k hk
            exact limShiftRight_frame b (b - i2) (i2 + 1) l2 k (by omega)
          · exact fun k _ => rfl
        have hl3perm : l3.Perm l2 := by
          rw [hl3]
          split
          · exact limShiftRight_perm goLess b (b - i2) (i2 + 1) l2
          · exact List.Perm.refl l2
        have hl3len : l3.length = l.length := by
          rw [hl3perm.length_eq, hl2perm.length_eq, hl1len]
        have hadj3 : AdjSeg l3 a i2 := by
          intro k hk1 hk2
          rw [hl3fr k (Or.inl hk2), hl3fr (k - 1) (Or.inl (by omega))]
          exact hl2sorted k hk1 hk2
        have hfr3 : ∀ k, k < a ∨ b ≤ k → getN l3 k = getN l k := by
          intro k hk
          rw [hl3fr k (by omega), hl2fr k (by omega), hl1,
            getN_swapL_other _ _ _ _ (by omega) (by omega)]
        have hLb3 : LbOK l3 a b :=
          lbOK_transfer l l3 a b (hl3perm.trans (hl2perm.trans hl1perm))
            (fun k hk => hfr3 k hk) (by omega) hbl hLb
        obtain ⟨f1, f2⟩ := ih i2 l3 hi2a (by omega) (by omega) hadj3 hLb3 lf done heq
        refine ⟨fun k hk => ?_, f2⟩
        rw [f1 k hk, hfr3 k hk]

/-- `partialInsertionSort_func` only rearranges the window, and a `true`
verdict means the window is sorted by date descending. -/
theorem partialInsSortGo_spec (a b : Nat) (l : List PostData)
    (hab : a < b) (hb : b ≤ l.length) (hlb : LbOK l a b) :
    ∀ lf done, partialInsSortGo goLess a b l = (lf, done) →
      (∀ k, k < a ∨ b ≤ k → getN lf k = getN l k) ∧
        (done = true → SortedSeg lf a b) :=
  limSteps_spec a b 5 (a + 1) l (by omega) (by omega) hb
    (by intro k hk1 hk2; omega) hlb

/-- `order2_func` returns one of its two indices first. -/
theorem order2_fst [Inhabited α] (less : α → α → Bool) (l : List α) (i j s : Nat) :
    (order2 less l i j s).1 = i ∨ (order2 less l i j s).1 = j := by
  rw [order2]
  split
  · exact Or.inr rfl
  · exact Or.inl rfl

/-- `order2_func` returns one of its two indices second. -/
theorem order2_snd [Inhabited α] (less : α → α → Bool) (l : List α) (i j s : Nat) :
    (order2 less l i j s).2.1 = i ∨ (order2 less l i j s).2.1 = j := by
  rw [order2]
  split
  · exact Or.inl rfl
  · exact Or.inr rfl

/-- `median_func` returns one of its three indices. -/
theorem medianGo_fst [Inhabited α] (less : α → α → Bool) (l : List α)
    (a b c s : Nat) :
    (medianGo less l a b c s).1 = a ∨ (medianGo less l a b c s).1 = b ∨
      (medianGo less l a b c s).1 = c := by
  have he : (medianGo less l a b c s).1 =
      (order2 less l (order2 less l a b s).1
        (order2 less l (order2 less l a b s).2.1 c (order2 less l a b s).2.2).1
        (order2 less l (order2 less l a b s).2.1 c
          (order2 less l a b s).2.2).2.2).2.1 := rfl
  rw [he]
  rcases order2_snd less l (order2 less l a b s).1
      (order2 less l (order2 less l a b s).2.1 c (order2 less l a b s).2.2).1
      (order2 less l (order2 less l a b s).2.1 c
        (order2 less l a b s).2.2).2.2 with h | h
  · rw [h]
    rcases order2_fst less l a b s with h2 | h2
    · rw [h2]; exact Or.inl rfl
    · rw [h2]; exact Or.inr (Or.inl rfl)
  · rw [h]
    rcases order2_fst less l (order2 less l a b s).2.1 c
        (order2 less l a b s).2.2 with h2 | h2
    · rw [h2]
      rcases order2_snd less l a b s with h3 | h3
      · rw [h3]; exact Or.inl rfl
      · rw [h3]; exact Or.inr (Or.inl rfl)
    · rw [h2]; exact Or.inr (Or.inr rfl)

/-- `medianAdjacent_func` returns an index adjacent to its argument. -/
theorem medianAdjacent_fst [Inhabited α] (less : α → α → Bool) (l : List α)
    (i s : Nat) :
    (medianAdjacent less l i s).1 = i - 1 ∨ (medianAdjacent less l i s).1 = i ∨
      (medianAdjacent less l i s).1 = i + 1 :=
  medianGo_fst less l (i - 1) i (i + 1) s

/-- A median of three in-window indices is in the window. -/
theorem medianGo_range [Inhabited α] (less : α → α → Bool) (l : List α)
    (lo hi x y z s : Nat) (hx1 : lo ≤ x) (hx2 : x < hi) (hy1 : lo ≤ y)
    (hy2 : y < hi) (hz1 : lo ≤ z) (hz2 : z < hi) :
    lo ≤ (medianGo less l x y z s).1 ∧ (medianGo less l x y z s).1 < hi := by
  rcases medianGo_fst less l x y z s with h | h | h <;> rw [h] <;> omega

/-- `choosePivot_func` picks a pivot inside the window. -/
theorem choosePivot_range (l : List PostData) (a b : Nat) (h8 : 8 ≤ b - a) :
    a ≤ (choosePivot goLess l a b).1 ∧ (choosePivot goLess l a b).1 < b := by
  have hfst : ∀ (m : Nat × Nat),
      (if m.2 = 0 then (m.1, SortHint.increasing)
       else if m.2 = 12 then (m.1, SortHint.decreasing)
       else (m.1, SortHint.unknown)).1 = m.1 := by
    intro m
    split
    · rfl
    · split
      · rfl
      · rfl
  rw [choosePivot]
  dsimp only
  rw [if_pos h8]
  by_cases h50 : 50 ≤ b - a
  · rw [if_pos h50]
    dsimp only
    rw [hfst]
    rcases medianAdjacent_fst goLess l (a + (b - a) / 4 * 1) 0 with h1 | h1 | h1 <;>
      rcases medianAdjacent_fst goLess l (a + (b - a) / 4 * 2)
        (medianAdjacent goLess l (a + (b - a) / 4 * 1) 0).2 with h2 | h2 | h2 <;>
      rcases medianAdjacent_fst goLess l (a + (b - a) / 4 * 3)
        (medianAdjacent goLess l (a + (b - a) / 4 * 2)
          (medianAdjacent goLess l (a + (b - a) / 4 * 1) 0).2).2 with h3 | h3 | h3 <;>
      exact medianGo_range goLess l a b _ _ _ _
        (by omega) (by omega) (by omega) (by omega) (by omega) (by omega)
  · rw [if_neg h50]
    dsimp only
    rw [hfst]
    exact medianGo_range goLess l a b _ _ _ _
      (by omega) (by omega) (by omega) (by omega) (by omega) (by omega)

/-- Frame agreement composes. -/
theorem frameOut_trans (l m r : List PostData) (a b : Nat)
    (h1 : FrameOut l m a b) (h2 : FrameOut m r a b) : FrameOut l r a b :=
  fun k hk => (h2 k hk).trans (h1 k hk)

/-- The former-pivot invariant restricts to a shorter window. -/
theorem lbOK_mono (l : List PostData) (a b b2 : Nat) (h : LbOK l a b)
    (hb : b2 ≤ b) : LbOK l a b2 :=
  fun ha k h1 h2 => h ha k h1 (by omega)

/-- The recursion tail of `pdqsort_func` after a partition meets the
window specification: sorting both sides around the pivot position sorts
the window. -/
theorem pdqPartitioned_spec (N : Nat)
    (recur : List PostData → Nat → Nat → Nat → Bool → Bool → List PostData)
    (hrec : RecurOK N recur) (a b limit length : Nat)
    (pr : List PostData × Nat × Bool)
    (hm1 : a ≤ pr.2.1) (hm2 : pr.2.1 < b) (hb : b ≤ pr.1.length)
    (hN : b - a ≤ N) (hlb : LbOK pr.1 a b)
    (hleft : ∀ k, a ≤ k → k < pr.2.1 →
      (getN pr.1 pr.2.1).Date < (getN pr.1 k).Date)
    (hright : ∀ k, pr.2.1 < k → k < b →
      (getN pr.1 k).Date ≤ (getN pr.1 pr.2.1).Date) :
    WindowSpec pr.1 (pdqPartitioned goLess recur a b limit length pr) a b := by
  rw [pdqPartitioned]
  split
  · -- left side shorter: sort left with fresh flags, then right
    obtain ⟨hs1, hf1, hp1⟩ := hrec pr.1 a pr.2.1 limit true true hm1 (by omega)
      (by omega) (lbOK_mono pr.1 a b pr.2.1 hlb (by omega))
    obtain ⟨hs2, hf2, hp2⟩ := hrec (recur pr.1 a pr.2.1 limit true true)
      (pr.2.1 + 1) b limit
      (decide (length / 8 ≤ min (pr.2.1 - a) (b - pr.2.1))) pr.2.2
      (by omega) (by rw [hp1.length_eq]; exact hb) (by omega)
      (by
        intro _ k hk1 hk2
        have e1 : getN (recur pr.1 a pr.2.1 limit true true) k = getN pr.1 k :=
          hf1 k (Or.inr (by omega))
        have e2 : getN (recur pr.1 a pr.2.1 limit true true) (pr.2.1 + 1 - 1) =
            getN pr.1 pr.2.1 := hf1 (pr.2.1 + 1 - 1) (Or.inr (by omega))
        rw [e1, e2]
        exact hright k (by omega) hk2)
    have hSLt : SegLt (recur pr.1 a pr.2.1 limit true true) a pr.2.1
        (getN pr.1 pr.2.1).Date :=
      segLt_transfer pr.1 (recur pr.1 a pr.2.1 limit true true) a pr.2.1 _
        hp1 hf1 hm1 (by omega) (fun k h1 h2 => hleft k h1 h2)
    refine ⟨?_, ?_, hp2.trans hp1⟩
    · -- assemble sortedness of the window
      have fmid : getN (recur (recur pr.1 a pr.2.1 limit true true)
          (pr.2.1 + 1) b limit
          (decide (length / 8 ≤ min (pr.2.1 - a) (b - pr.2.1))) pr.2.2)
          pr.2.1 = getN pr.1 pr.2.1 := by
        rw [hf2 pr.2.1 (Or.inl (by omega)), hf1 pr.2.1 (Or.inr (by omega))]
      have fleft : ∀ k, a ≤ k → k < pr.2.1 →
          (getN pr.1 pr.2.1).Date < (getN (recur (recur pr.1 a pr.2.1 limit true true)
            (pr.2.1 + 1) b limit
            (decide (length / 8 ≤ min (pr.2.1 - a) (b - pr.2.1))) pr.2.2) k).Date := by
        intro k h1 h2
        rw [hf2 k (Or.inl (by omega))]
        exact hSLt k h1 h2
      have fright : SegLe (recur (recur pr.1 a pr.2.1 limit true true)
          (pr.2.1 + 1) b limit
          (decide (length / 8 ≤ min (pr.2.1 - a) (b - pr.2.1))) pr.2.2)
          (pr.2.1 + 1) b (getN pr.1 pr.2.1).Date := by
        refine segLe_transfer (recur pr.1 a pr.2.1 limit true true) _
          (pr.2.1 + 1) b _ hp2 hf2 (by omega) (by rw [hp1.length_eq]; exact hb) ?_
        intro k h1 h2
        rw [hf1 k (Or.inr (by omega))]
        exact hright k (by omega) h2
      have fsl : SortedSeg (recur (recur pr.1 a pr.2.1 limit true true)
          (pr.2.1 + 1) b limit
          (decide (length / 8 ≤ min (pr.2.1 - a) (b - pr.2.1))) pr.2.2) a pr.2.1 :=
        sortedSeg_congr _ _ a pr.2.1 hs1 (fun k h1 h2 => hf2 k (Or.inl (by omega)))
      intro i j hi hij hj
      by_cases hjm : j < pr.2.1
      · exact fsl i j hi hij hjm
      · by_cases him : pr.2.1 < i
        · exact hs2 i j (by omega) hij hj
        · by_cases hje : j = pr.2.1
          · rw [hje, fmid]
            exact le_of_lt (fleft i hi (by omega))
          · have hjgt : pr.2.1 < j := by omega
            have hjle : (getN (recur (recur pr.1 a pr.2.1 limit true true)
                (pr.2.1 + 1) b limit
                (decide (length / 8 ≤ min (pr.2.1 - a) (b - pr.2.1))) pr.2.2)
                j).Date ≤ (getN pr.1 pr.2.1).Date :=
              fright j (by omega) hj
            by_cases hie : i = pr.2.1
            · rw [hie, fmid]
              exact hjle
            · exact le_trans hjle (le_of_lt (fleft i hi (by omega)))
    · intro k hk
      rw [hf2 k (by omega), hf1 k (by omega)]
  · -- right side shorter (or equal): sort right with fresh flags, then left
    obtain ⟨hs1, hf1, hp1⟩ := hrec pr.1 (pr.2.1 + 1) b limit true true (by omega) hb
      (by omega)
      (by
        intro _ k hk1 hk2
        have e : pr.2.1 + 1 - 1 = pr.2.1 := by omega
        rw [e]
        exact hright k (by omega) hk2)
    obtain ⟨hs2, hf2, hp2⟩ := hrec (recur pr.1 (pr.2.1 + 1) b limit true true)
      a pr.2.1 limit
      (decide (length / 8 ≤ min (pr.2.1 - a) (b - pr.2.1))) pr.2.2
      hm1 (by rw [hp1.length_eq]; omega) (by omega)
      (by
        intro ha0 k hk1 hk2
        have e1 : getN (recur pr.1 (pr.2.1 + 1) b limit true true) k = getN pr.1 k :=
          hf1 k (Or.inl (by omega))
        have e2 : getN (recur pr.1 (pr.2.1 + 1) b limit true true) (a - 1) =
            getN pr.1 (a - 1) := hf1 (a - 1) (Or.inl (by omega))
        rw [e1, e2]
        exact hlb ha0 k hk1 (by omega))
    have hSLe : SegLe (recur pr.1 (pr.2.1 + 1) b limit true true) (pr.2.1 + 1) b
        (getN pr.1 pr.2.1).Date :=
      segLe_transfer pr.1 (recur pr.1 (pr.2.1 + 1) b limit true true)
        (pr.2.1 + 1) b _ hp1 hf1 (by omega) hb
        (fun k h1 h2 => hright k (by omega) h2)
    refine ⟨?_, ?_, hp2.trans hp1⟩
    · have fmid : getN (recur (recur pr.1 (pr.2.1 + 1) b limit true true)
          a pr.2.1 limit
          (decide (length / 8 ≤ min (pr.2.1 - a) (b - pr.2.1))) pr.2.2)
          pr.2.1 = getN pr.1 pr.2.1 := by
        rw [hf2 pr.2.1 (Or.inr (by omega)), hf1 pr.2.1 (Or.inl (by omega))]
      have fright : ∀ k, pr.2.1 < k → k < b →
          (getN (recur (recur pr.1 (pr.2.1 + 1) b limit true true)
            a pr.2.1 limit
            (decide (length / 8 ≤ min (pr.2.1 - a) (b - pr.2.1))) pr.2.2)
            k).Date ≤ (getN pr.1 pr.2.1).Date := by
        intro k h1 h2
        rw [hf2 k (Or.inr (by omega))]
        exact hSLe k (by omega) h2
      have fleft : SegLt (recur (recur pr.1 (pr.2.1 + 1) b limit true true)
          a pr.2.1 limit
          (decide (length / 8 ≤ min (pr.2.1 - a) (b - pr.2.1))) pr.2.2)
          a pr.2.1 (getN pr.1 pr.2.1).Date := by
        refine segLt_transfer (recur pr.1 (pr.2.1 + 1) b limit true true) _
          a pr.2.1 _ hp2 hf2 hm1 (by rw [hp1.length_eq]; omega) ?_
        intro k h1 h2
        rw [hf1 k (Or.inl (by omega))]
        exact hleft k h1 h2
      have fsr : SortedSeg (recur (recur pr.1 (pr.2.1 + 1) b limit true true)
          a pr.2.1 limit
          (decide (length / 8 ≤ min (pr.2.1 - a) (b - pr.2.1))) pr.2.2)
          (pr.2.1 + 1) b :=
        sortedSeg_congr _ _ (pr.2.1 + 1) b hs1
          (fun k h1 h2 => hf2 k (Or.inr (by omega)))
      intro i j hi hij hj
      by_cases hjm : j < pr.2.1
      · exact hs2 i j hi hij hjm
      · by_cases him : pr.2.1 < i
        · exact fsr i j (by omega) hij hj
        · by_cases hje : j = pr.2.1
          · rw [hje, fmid]
            exact le_of_lt (fleft i hi (by omega))
          · have hjgt : pr.2.1 < j := by omega
            have hjle := fright j (by omega) hj
            by_cases hie : i = pr.2.1
            · rw [hie, fmid]
              exact hjle
            · exact le_trans hjle (le_of_lt (fleft i hi (by omega)))
    · intro k hk
      rw [hf2 k (by omega), hf1 k (by omega)]

/-- The stage of `pdqsort_func` after the partial insertion sort meets
the window specification: a sorted verdict stops, a pivot equal to the
former pivot splits off its equals, and otherwise the range is
partitioned and both sides sorted. -/
theorem pdqTried_spec (N : Nat)
    (recur : List PostData → Nat → Nat → Nat → Bool → Bool → List PostData)
    (hrec : RecurOK N recur) (a b limit : Nat) (wb wp : Bool) (pivot : Nat)
    (l : List PostData) (tried : List PostData × Bool)
    (hab : 12 < b - a) (hbl : b ≤ l.length) (hN : b - a ≤ N)
    (hlb : LbOK l a b) (hp1 : a ≤ pivot) (hp2 : pivot < b)
    (htp : tried.1.Perm l) (htf : FrameOut l tried.1 a b)
    (hts : tried.2 = true → SortedSeg tried.1 a b) :
    WindowSpec l (pdqTried goLess recur a b limit wb wp pivot tried) a b := by
  rw [pdqTried]
  have htlen : tried.1.length = l.length := htp.length_eq
  have hlbt : LbOK tried.1 a b := lbOK_transfer l tried.1 a b htp htf (by omega) hbl hlb
  by_cases hdone : tried.2 = true
  · rw [if_pos hdone]
    exact ⟨hts hdone, htf, htp⟩
  · rw [if_neg hdone]
    split
    · -- the element before the window equals the pivot: partition off equals
      rename_i hguard
      have hand := (Bool.and_eq_true _ _).mp hguard
      have ha0 : 0 < a := of_decide_eq_true hand.1
      have hnl : goLess (getN tried.1 (a - 1)) (getN tried.1 pivot) = false := by
        have h2 := hand.2
        simp only [Bool.not_eq_eq_eq_not, Bool.not_true] at h2
        exact h2
      have hlble : (getN tried.1 (a - 1)).Date ≤ (getN tried.1 pivot).Date :=
        (goLess_false_iff _ _).mp hnl
      have hpveq : (getN tried.1 pivot).Date = (getN tried.1 (a - 1)).Date :=
        le_antisymm (hlbt ha0 pivot hp1 hp2) hlble
      have hwin : ∀ k, a ≤ k → k < b →
          (getN tried.1 k).Date ≤ (getN tried.1 pivot).Date := by
        intro k h1 h2
        rw [hpveq]
        exact hlbt ha0 k h1 h2
      obtain ⟨q1, q2, q3, q4, q5, q6⟩ :=
        partitionEqualGo_spec tried.1 a b pivot (by omega)
          (by rw [htlen]; exact hbl) hp1 hp2
          (partitionEqualGo goLess tried.1 a b pivot).1
          (partitionEqualGo goLess tried.1 a b pivot).2 rfl
      have hqperm : (partitionEqualGo goLess tried.1 a b pivot).1.Perm tried.1 :=
        partitionEqualGo_perm goLess tried.1 a b pivot
      have hwin2 : SegLe (partitionEqualGo goLess tried.1 a b pivot).1 a b
          (getN tried.1 pivot).Date :=
        segLe_transfer tried.1 (partitionEqualGo goLess tried.1 a b pivot).1 a b _
          hqperm q4 (by omega) (by rw [htlen]; exact hbl)
          (fun k h1 h2 => hwin k h1 h2)
      obtain ⟨hs2, hf2, hp2r⟩ := hrec (partitionEqualGo goLess tried.1 a b pivot).1
        (partitionEqualGo goLess tried.1 a b pivot).2 b limit wb wp q2
        (by rw [hqperm.length_eq, htlen]; exact hbl) (by omega)
        (by
          intro _ k hk1 hk2
          have h5 := q5 ((partitionEqualGo goLess tried.1 a b pivot).2 - 1)
            (by omega) (by omega)
          have h6 := q6 k hk1 hk2
          exact le_trans (le_of_lt h6) h5)
      refine ⟨?_, ?_, hp2r.trans (hqperm.trans htp)⟩
      · -- sortedness: equals-left block, then the sorted right side
        have hleftval : ∀ k, a ≤ k → k < (partitionEqualGo goLess tried.1 a b pivot).2 →
            (getN (recur (partitionEqualGo goLess tried.1 a b pivot).1
              (partitionEqualGo goLess tried.1 a b pivot).2 b limit wb wp) k).Date =
              (getN tried.1 pivot).Date := by
          intro k h1 h2
          rw [hf2 k (Or.inl h2)]
          exact le_antisymm (hwin2 k h1 (by omega)) (q5 k h1 h2)
        have hrightle : SegLe (recur (partitionEqualGo goLess tried.1 a b pivot).1
            (partitionEqualGo goLess tried.1 a b pivot).2 b limit wb wp)
            (partitionEqualGo goLess tried.1 a b pivot).2 b
            (getN tried.1 pivot).Date := by
          refine segLe_transfer (partitionEqualGo goLess tried.1 a b pivot).1 _
            (partitionEqualGo goLess tried.1 a b pivot).2 b _ hp2r hf2 q2
            (by rw [hqperm.length_eq, htlen]; exact hbl) ?_
          intro k h1 h2
          exact le_of_lt (q6 k h1 h2)
        intro i j hi hij hj
        by_cases hje : j < (partitionEqualGo goLess tried.1 a b pivot).2
        · rw [hleftval j (by omega) hje, hleftval i hi (by omega)]
        · by_cases hie : i < (partitionEqualGo goLess tried.1 a b pivot).2
          · rw [hleftval i hi hie]
            exact hrightle j (by omega) hj
          · exact hs2 i j (by omega) hij hj
      · intro k hk
        rw [hf2 k (by omega), q4 k hk, htf k hk]
    · -- partition and recurse into both sides
      obtain ⟨w1, w2, w3, w4, w5, w6, w7⟩ :=
        partitionGo_spec tried.1 a b pivot (by omega) (by rw [htlen]; exact hbl)
          hp1 hp2 (partitionGo goLess tried.1 a b pivot).1
          (partitionGo goLess tried.1 a b pivot).2.1
          (partitionGo goLess tried.1 a b pivot).2.2 rfl
      have hwperm : (partitionGo goLess tried.1 a b pivot).1.Perm tried.1 :=
        partitionGo_perm goLess tried.1 a b pivot
      obtain ⟨ws1, ws2, ws3⟩ := pdqPartitioned_spec N recur hrec a b limit (b - a)
        (partitionGo goLess tried.1 a b pivot) w1 w2
        (by rw [w3, htlen]; exact hbl) hN
        (lbOK_transfer tried.1 (partitionGo goLess tried.1 a b pivot).1 a b hwperm
          w4 (by omega) (by rw [htlen]; exact hbl) hlbt)
        (by
          intro k h1 h2
          rw [w5]
          exact w6 k h1 h2)
        (by
          intro k h1 h2
          rw [w5]
          exact w7 k h1 h2)
      exact ⟨ws1, frameOut_trans l _ _ a b (frameOut_trans l tried.1 _ a b htf w4) ws2,
        ws3.trans (hwperm.trans htp)⟩

/-- The stage of `pdqsort_func` after the hint-driven reversal meets the
window specification. -/
theorem pdqTurned_spec (N : Nat)
    (recur : List PostData → Nat → Nat → Nat → Bool → Bool → List PostData)
    (hrec : RecurOK N recur) (a b limit : Nat) (wb wp : Bool) (l : List PostData)
    (turned : List PostData × Nat × SortHint)
    (hab : 12 < b - a) (hbl : b ≤ l.length) (hN : b - a ≤ N) (hlb : LbOK l a b)
    (hp1 : a ≤ turned.2.1) (hp2 : turned.2.1 < b)
    (htp : turned.1.Perm l) (htf : FrameOut l turned.1 a b) :
    WindowSpec l (pdqTurned goLess recur a b limit wb wp turned) a b := by
  rw [pdqTurned]
  split
  · have hlbt : LbOK turned.1 a b :=
      lbOK_transfer l turned.1 a b htp htf (by omega) hbl hlb
    obtain ⟨pf, ps⟩ := partialInsSortGo_spec a b turned.1 (by omega)
      (by rw [htp.length_eq]; exact hbl) hlbt
      (partialInsSortGo goLess a b turned.1).1
      (partialInsSortGo goLess a b turned.1).2 rfl
    exact pdqTried_spec N recur hrec a b limit wb wp turned.2.1 l
      (partialInsSortGo goLess a b turned.1) hab hbl hN hlb hp1 hp2
      ((partialInsSortGo_perm goLess a b turned.1).trans htp)
      (frameOut_trans l turned.1 _ a b htf pf) ps
  · exact pdqTried_spec N recur hrec a b limit wb wp turned.2.1 l
      (turned.1, false) hab hbl hN hlb hp1 hp2 htp htf
      (fun h => absurd h (by simp))

/-- The stage of `pdqsort_func` after the optional pattern breaking meets
the window specification: pivot choice, optional reversal, then the
tried/partition pipeline. -/
theorem pdqStaged_spec (N : Nat)
    (recur : List PostData → Nat → Nat → Nat → Bool → Bool → List PostData)
    (hrec : RecurOK N recur) (a b : Nat) (wb wp : Bool) (l : List PostData)
    (stage : List PostData × Nat)
    (hab : 12 < b - a) (hbl : b ≤ l.length) (hN : b - a ≤ N) (hlb : LbOK l a b)
    (hsp : stage.1.Perm l) (hsf : FrameOut l stage.1 a b) :
    WindowSpec l (pdqStaged goLess recur a b wb wp stage) a b := by
  rw [pdqStaged]
  obtain ⟨c1, c2⟩ := choosePivot_range stage.1 a b (by omega)
  split
  · exact pdqTurned_spec N recur hrec a b stage.2 wb wp l
      (reverseRangeGo stage.1 a b,
        (b - 1) - ((choosePivot goLess stage.1 a b).1 - a), SortHint.increasing)
      hab hbl hN hlb (by dsimp only; omega) (by dsimp only; omega)
      ((reverseRangeGo_perm stage.1 a b).trans hsp)
      (frameOut_trans l stage.1 _ a b hsf
        (reverseRangeGo_frame stage.1 a b (by omega) (by rw [hsp.length_eq]; exact hbl)))
  · exact pdqTurned_spec N recur hrec a b stage.2 wb wp l
      (stage.1, (choosePivot goLess stage.1 a b).1, (choosePivot goLess stage.1 a b).2)
      hab hbl hN hlb (by dsimp only; exact c1) (by dsimp only; exact c2) hsp hsf

/-- Master window specification of `pdqsort_func`: on any window shorter
than the fuel that satisfies the former-pivot invariant, the result is
segment-sorted by date descending, agrees with the input outside the
window, and is a permutation of the input. -/
theorem pdqsortGo_spec : ∀ (fuel : Nat), RecurOK fuel (pdqsortGo goLess fuel) := by
  intro fuel
  induction fuel with
  | zero =>
    intro l a b limit wb wp hab hbl hN hlb
    exact absurd hN (by omega)
  | succ fuel ih =>
    intro l a b limit wb wp hab hbl hN hlb
    rw [pdqsortGo]
    split
    · obtain ⟨s, f⟩ := insertionSortGo_spec l a b hab hbl
      exact ⟨s, f, insertionSortGo_perm goLess a b l⟩
    · split
      · obtain ⟨s, f⟩ := heapSortGo_spec l a b hab hbl
        exact ⟨s, f, heapSortGo_perm goLess l a b⟩
      · rename_i h12 h0
        push_neg at h12
        refine pdqStaged_spec fuel (pdqsortGo goLess fuel) ih a b wb wp l _
          h12 hbl (by omega) hlb ?_ ?_
        · split
          · exact breakPatternsGo_perm l a b
          · exact List.Perm.refl l
        · split
          · exact breakPatternsGo_frame l a b hbl
          · exact fun k _ => rfl

/-- `sort.Slice` sorts the whole slice by date descending. -/
theorem sortSliceGo_sorted (l : List PostData) : SortedD (sortSliceGo goLess l) := by
  obtain ⟨hs, _, _⟩ := pdqsortGo_spec (l.length + 1) l 0 l.length
    (bitsLen l.length) true true (by omega) (le_refl _) (by omega)
    (fun h => absurd h (lt_irrefl 0))
  have hlen : (sortSliceGo goLess l).length = l.length :=
    (sortSliceGo_perm goLess l).length_eq
  apply sortedD_of_sortedSeg
  rw [hlen]
  exact hs

/-- C1 (corrected): the collection builder hands every loaded record list
to `sort.Slice` (main.go:159-161), whose result is always a permutation of
the loaded records sorted by date descending; but the sort is not stable:
equal-date records are guaranteed to keep their relative input order only
for collections of at most 12 records (the insertion-sort regime of
`sort.Slice`), and can be reordered beyond that (see
`sortSliceUnstable13`). -/
theorem sortSliceSortedNotStable :
    (∀ (env : Env) (fs : FS) (pattern : String) (ps : List PostData),
      loadPostsFromDirectory env fs pattern = Except.ok ps →
      ∃ qs, loadAll env fs (fs.glob pattern) = Except.ok qs ∧
        ps = sortSlicePosts qs) ∧
    (∀ ps : List PostData,
      (sortSlicePosts ps).Perm ps ∧ SortedD (sortSlicePosts ps)) ∧
    (∀ ps : List PostData, ps.length ≤ 12 →
      ∀ d, filterDate d (sortSlicePosts ps) = filterDate d ps) := by
  refine ⟨?_, ?_, ?_⟩
  · intro env fs pattern ps h
    cases he : loadAll env fs (fs.glob pattern) with
    | error e =>
      rw [loadPostsFromDirectory, he] at h
      exact Except.noConfusion h
    | ok qs =>
      rw [loadPostsFromDirectory, he] at h
      injection h with h2
      exact ⟨qs, rfl, h2.symm⟩
  · intro ps
    exact ⟨sortSliceGo_perm goLess ps, sortSliceGo_sorted ps⟩
  · intro ps h d
    rw [sortSlicePosts_small ps h]
    obtain ⟨_, _, hf⟩ := insFold_props ps [] (by simp [SortedD])
    have := hf d
    simpa [filterDate] using this

/-- C1 witness: on a one-post filesystem the builder returns the sorted
loaded records, and on a concrete three-record list with a duplicated
date (within the 12-record regime) the sort is a permutation, sorted by
date descending, with the duplicated date's subsequence unchanged. -/
theorem sortSliceSortedNotStableWitness :
    loadPostsFromDirectory okEnv helloFs "posts/*.md" =
        Except.ok [⟨"Hello World", 3, "hello-world", "hello"⟩] ∧
      (∃ qs, loadAll okEnv helloFs (helloFs.glob "posts/*.md") = Except.ok qs ∧
        [(⟨"Hello World", 3, "hello-world", "hello"⟩ : PostData)] =
          sortSlicePosts qs) ∧
      ((sortSlicePosts demo3).Perm demo3 ∧ SortedD (sortSlicePosts demo3)) ∧
      demo3.length ≤ 12 ∧
      filterDate 5 (sortSlicePosts demo3) = filterDate 5 demo3 :=
  ⟨rfl,
   sortSliceSortedNotStable.1 okEnv helloFs "posts/*.md"
     [⟨"Hello World", 3, "hello-world", "hello"⟩] rfl,
   sortSliceSortedNotStable.2.1 demo3,
   by decide,
   sortSliceSortedNotStable.2.2 demo3 (by decide) 5⟩
